import Mathlib

/-!
# Box-relaxation scheduler `mpd::deltaLT` and the setup tool `main`

Shallow embedding of src/include/algorithms/deltaLT.h and of
src/generate/setMDConstants_UminAH.cpp. The template scalar `T` is read first as a type
with exact arithmetic, the field of rationals; `newSizeRounded` and `scaleFactorRounded`
are the same two functions for a scalar type that rounds each arithmetic result, with
`roundDouble` the rounding of `double`. `int` is `Int` (with the 32-bit bounds named
where an operation needs them), and every operation the C++ leaves undefined returns a
`Fault` instead of a value.
-/

namespace mpd

/-- What a C++ operation of the scheduler can do instead of producing a value. -/
inductive Fault
  /-- Index outside the three components of `threeVector::s`, or past the end of a
  vector. -/
  | outOfBounds
  /-- Division (or remainder) by zero. -/
  | divByZero
  /-- Signed remainder whose quotient is not representable (`INT_MIN % -1`). -/
  | overflow
  deriving DecidableEq, Repr

/-- Three components `s[0], s[1], s[2]` of `threeVector<T>`. -/
structure threeVector where
  x : ℚ
  y : ℚ
  z : ℚ
  deriving DecidableEq, Repr

/-- Read `v.s[i]`. -/
def threeVector.get (v : threeVector) (i : Int) : Except Fault ℚ :=
  if i = 0 then .ok v.x
  else if i = 1 then .ok v.y
  else if i = 2 then .ok v.z
  else .error .outOfBounds

/-- Assign `v.s[i] = a`. -/
def threeVector.set (v : threeVector) (i : Int) (a : ℚ) : Except Fault threeVector :=
  if i = 0 then .ok { v with x := a }
  else if i = 1 then .ok { v with y := a }
  else if i = 2 then .ok { v with z := a }
  else .error .outOfBounds

/-- The constructor `threeVector<T> v = a`, all three components equal to `a`. -/
def threeVector.splat (a : ℚ) : threeVector := ⟨a, a, a⟩

/-- Component-wise product of two vectors. -/
def threeVector.mul (a b : threeVector) : threeVector :=
  ⟨a.x * b.x, a.y * b.y, a.z * b.z⟩

/-- Exact division `a / b`, undefined for `b = 0`. -/
def divide (a b : ℚ) : Except Fault ℚ :=
  if b = 0 then .error .divByZero else .ok (a / b)

/-- Smallest value of the 32-bit `int`. -/
def INT_MIN : Int := -2147483648

/-- Largest value of the 32-bit `int`. -/
def INT_MAX : Int := 2147483647

/-- The C++ remainder `a % b` on `int`: truncated, undefined for `b = 0` and for
`INT_MIN % -1`. -/
def rem (a b : Int) : Except Fault Int :=
  if b = 0 then .error .divByZero
  else if a = INT_MIN ∧ b = -1 then .error .overflow
  else .ok (Int.tmod a b)

/-- The fields of `deltaLT<T>`. -/
structure deltaLT where
  deltaL : ℚ
  endL : ℚ
  dim : Int
  relaxStep : Int
  deriving DecidableEq, Repr

/-- The default constructor `deltaLT()`: every field zero. -/
def deltaLT.default : deltaLT := ⟨0, 0, 0, 0⟩

/-- `deltaLT<T>::newSize` for a scalar type `T` with exact arithmetic; `newSizeRounded`
is the same code for a type that rounds. -/
def deltaLT.newSize (d : deltaLT) (oldSize : threeVector) : Except Fault threeVector := do
  let cur ← oldSize.get d.dim
  let diff := cur - d.endL
  if |diff| > d.deltaL then
    let direction ← divide diff |diff|
    oldSize.set d.dim (cur - d.deltaL * direction)
  else
    oldSize.set d.dim d.endL

/-- `deltaLT<T>::scaleFactor` for a scalar type `T` with exact arithmetic;
`scaleFactorRounded` is the same code for a type that rounds. -/
def deltaLT.scaleFactor (d : deltaLT) (oldSize : threeVector) : Except Fault threeVector := do
  let nextSize ← d.newSize oldSize
  let scale := threeVector.splat 1
  let n ← nextSize.get d.dim
  let o ← oldSize.get d.dim
  let q ← divide (n - o) o
  scale.set d.dim (1 + q)

/-- `deltaLT::ready`; the right operand of `&&` is evaluated only when the left is true. -/
def deltaLT.ready (d : deltaLT) (step : Int) : Except Fault Bool :=
  if d.deltaL ≠ 0 then do
    let r ← rem step d.relaxStep
    pure (decide (r = 0))
  else .ok false

/-- `deltaLT::active`. -/
def deltaLT.active (d : deltaLT) : Bool := decide (d.deltaL ≠ 0)

/-- `deltaLT::nWords`. -/
def deltaLT.nWords (_d : deltaLT) : Int := 4

/-! ## Text streams

`inStep` and `outStep` work on `std::istream` and `std::ostream`. The embedding keeps
what formatted extraction and insertion do to a text made of the lexemes below, for a
stream whose exception mask is empty (the default): a failed extraction is recorded
in the stream state and nothing is thrown by the stream itself. Numbers are kept by
the value their text denotes. -/

/-- One lexeme of a text. Consecutive number lexemes are separate words. -/
inductive Lexeme
  /-- The blank `' '`. -/
  | space
  /-- The line end `'\n'`. -/
  | newline
  /-- An integer literal: optional sign and digits. -/
  | int (z : Int)
  /-- A literal in fixed notation with digits on both sides of the point. -/
  | real (q : ℚ)
  /-- A point followed by digits: what extracting an `int` leaves of a `real`. -/
  | frac (f : ℚ)
  /-- Text that starts no number. -/
  | junk
  deriving DecidableEq, Repr

/-- State of a `std::istream`: the unread text and the fail state. -/
structure IStream where
  buf : List Lexeme
  fail : Bool
  deriving DecidableEq, Repr

/-- State of a `std::ostream`: the text written so far and the precision used for
floating-point insertion (6 unless the caller changed it). -/
structure OStream where
  buf : List Lexeme
  precision : Nat
  deriving DecidableEq, Repr

/-- A newly opened output stream. -/
def OStream.fresh : OStream := ⟨[], 6⟩

/-- Leading white space is skipped before a formatted extraction. -/
def skipWs : List Lexeme → List Lexeme
  | .space :: r => skipWs r
  | .newline :: r => skipWs r
  | l => l

/-- The integer part of the text of a number: truncation toward zero. -/
def truncate (q : ℚ) : Int := if 0 ≤ q then ⌊q⌋ else ⌈q⌉

/-- An integer that does not fit `int` is stored as the nearest bound. -/
def clampInt (z : Int) : Int :=
  if z < INT_MIN then INT_MIN else if INT_MAX < z then INT_MAX else z

/-- Whether an integer fits `int`. -/
def fitsInt (z : Int) : Bool := decide (INT_MIN ≤ z ∧ z ≤ INT_MAX)

/-- `stream >> x` for `x` of type `T` holding `old`: the value `x` holds afterwards and
the stream afterwards. A stream already failed, or at its end, leaves `x` alone; a word
that starts no number stores zero; both set the fail state. -/
def IStream.readReal (st : IStream) (old : ℚ) : ℚ × IStream :=
  if st.fail then (old, st)
  else match skipWs st.buf with
    | [] => (old, ⟨[], true⟩)
    | .int z :: r => (z, ⟨r, false⟩)
    | .real q :: r => (q, ⟨r, false⟩)
    | .frac f :: r => (f, ⟨r, false⟩)
    | l => (0, ⟨l, true⟩)

/-- `stream >> x` for `x` of type `int` holding `old`. Of a `real` word only the digits
before the point are read; a value outside `int` is stored clamped with the fail
state set. -/
def IStream.readInt (st : IStream) (old : Int) : Int × IStream :=
  if st.fail then (old, st)
  else match skipWs st.buf with
    | [] => (old, ⟨[], true⟩)
    | .int z :: r => (clampInt z, ⟨r, !fitsInt z⟩)
    | .real q :: r =>
        (clampInt (truncate q), ⟨.frac |q - truncate q| :: r, !fitsInt (truncate q)⟩)
    | l => (0, ⟨l, true⟩)

/-- Number of decimal digits of `n`, with `fuel` at least that number. -/
def numDigitsAux : Nat → Nat → Nat
  | 0, _ => 0
  | fuel + 1, n => if n < 10 then 1 else 1 + numDigitsAux fuel (n / 10)

/-- Number of decimal digits of `n` (1 for `n = 0`). -/
def numDigits (n : Nat) : Nat := numDigitsAux (n + 1) n

/-- Decimal exponent of `q ≠ 0`: the `e` with `10 ^ e ≤ |q| < 10 ^ (e + 1)`. -/
def decExp (q : ℚ) : Int :=
  let n := q.num.natAbs
  let a := numDigits n
  let b := numDigits q.den
  if a ≥ b then
    if 10 ^ (a - b) * q.den ≤ n then (a : Int) - b else (a : Int) - b - 1
  else
    if q.den ≤ n * 10 ^ (b - a) then (a : Int) - b else (a : Int) - b - 1

/-- Nearest integer to `a / b` for `b > 0`, ties to even. -/
def roundHalfEven (a : Int) (b : Nat) : Int :=
  let f := a / (b : Int)
  let r := a % (b : Int)
  if 2 * r < b then f
  else if (b : Int) < 2 * r then f + 1
  else if f % 2 = 0 then f else f + 1

/-- The number denoted by the text `stream << x` writes for a floating-point `x` at
precision `p` in the default format: `x` rounded to `p` significant decimal digits
(`p = 0` counts as 1). -/
def roundSig (p : Nat) (q : ℚ) : ℚ :=
  if q = 0 then 0
  else
    let k : Int := decExp q - ((max p 1 : Nat) : Int) + 1
    let m : Int :=
      if 0 ≤ k then roundHalfEven q.num (q.den * 10 ^ k.toNat)
      else roundHalfEven (q.num * 10 ^ (-k).toNat) q.den
    (m : ℚ) * (10 : ℚ) ^ k

/-- The lexeme standing for the text `<<` writes for the number `v`. Only the value is
kept, not the spelling (fixed or scientific): an integral value stands as `int`, any
other as `real`; a floating-point extraction reads both back as `v`. -/
def numLexeme (v : ℚ) : Lexeme := if v.den = 1 then .int v.num else .real v

/-- `stream << x` for `x` of type `T`. -/
def OStream.writeReal (os : OStream) (x : ℚ) : OStream :=
  { os with buf := os.buf ++ [numLexeme (roundSig os.precision x)] }

/-- `stream << n` for `n` of type `int`. -/
def OStream.writeInt (os : OStream) (n : Int) : OStream :=
  { os with buf := os.buf ++ [.int n] }

/-- `stream << c` for the characters `' '` and `'\n'`. -/
def OStream.writeSep (os : OStream) (c : Lexeme) : OStream :=
  { os with buf := os.buf ++ [c] }

/-- `deltaLT::inStep`. `Except.error` is `throw 1;` and carries the object and the
stream as the throw leaves them. -/
def deltaLT.inStep (d : deltaLT) (stream : IStream) (wStep : Int) :
    Except (deltaLT × IStream) (deltaLT × IStream) :=
  if wStep = 0 then
    let r := stream.readReal d.deltaL
    .ok ({ d with deltaL := r.1 }, r.2)
  else if wStep = 1 then
    let r := stream.readReal d.endL
    .ok ({ d with endL := r.1 }, r.2)
  else if wStep = 2 then
    let r := stream.readInt d.dim
    if r.1 < 0 ∨ r.1 > 2 then .error ({ d with dim := r.1 }, r.2)
    else .ok ({ d with dim := r.1 }, r.2)
  else if wStep = 3 then
    let r := stream.readInt d.relaxStep
    .ok ({ d with relaxStep := r.1 }, r.2)
  else .error (d, stream)

/-- `deltaLT::outStep`. `Except.error` is `throw 1;` and carries the stream as the
throw leaves it. -/
def deltaLT.outStep (d : deltaLT) (stream : OStream) (wStep : Int) :
    Except OStream OStream :=
  if wStep = 0 then .ok ((stream.writeReal d.deltaL).writeSep .space)
  else if wStep = 1 then .ok ((stream.writeReal d.endL).writeSep .space)
  else if wStep = 2 then .ok ((stream.writeInt d.dim).writeSep .space)
  else if wStep = 3 then .ok ((stream.writeInt d.relaxStep).writeSep .newline)
  else .error stream

/-- Result of `n` successive calls `size = newSize(size)` in exact arithmetic. -/
def deltaLT.newSizeIter (d : deltaLT) : Nat → threeVector → Except Fault threeVector
  | 0, s => .ok s
  | n + 1, s => do
      let t ← d.newSize s
      d.newSizeIter n t

/-- Number of due steps, those with `ready(step)` true, among the `k` consecutive steps
`step, step + 1, ...`. -/
def deltaLT.dueSteps (d : deltaLT) : Int → Nat → Nat
  | _, 0 => 0
  | step, k + 1 =>
      (match d.ready step with
        | .ok true => 1
        | _ => 0) + d.dueSteps (step + 1) k

/-- An input stream opened on a text. -/
def IStream.ofText (text : List Lexeme) : IStream := ⟨text, false⟩

/-- The instance left by a sequence of `inStep` calls, each on its own stream state,
that all return normally; `none` as soon as one of them throws. -/
def deltaLT.loadCalls (d : deltaLT) : List (IStream × Int) → Option deltaLT
  | [] => some d
  | (stream, wStep) :: rest =>
      match d.inStep stream wStep with
      | .ok (next, _) => next.loadCalls rest
      | .error _ => none

/-! ## The setup tool `main` (src/generate/setMDConstants_UminAH.cpp)

`main` is kept up to the two vectors it passes to the table builder: the usage guard,
the reads of `argv`, the default fill loop and the overrides of `Umin` and `Umax`. The
raw arrays `lbond`, `kbond`, `abend`, `kbend`, which `main` fills and never reads, are
not part of the state. The conversions `atoi` and `atof` of the C library and the
type macros are parameters. -/

/-- `int k = i + j*nTypes`: the flat index of the ordered type pair `(i, j)`. -/
def pairIndex (nTypes i j : Nat) : Nat := i + j * nTypes

/-- `v[k] = a` on a `std::vector<double>`; an index past the end is undefined. -/
def store (v : List ℚ) (k : Nat) (a : ℚ) : Except Fault (List ℚ) :=
  if k < v.length then .ok (v.set k a) else .error .outOfBounds

/-- The value `v[k]` of a `std::vector<double>`; an index past the end is undefined. -/
def fetch (v : List ℚ) (k : Nat) : Except Fault ℚ :=
  match v[k]? with
  | some a => .ok a
  | none => .error .outOfBounds

/-- The vectors `Umin` and `Umax`. -/
structure EnergyBounds where
  Umin : List ℚ
  Umax : List ℚ
  deriving DecidableEq, Repr

/-- The iterations `(i, j)` of `for(i = 0; i < n; i++) for(j = 0; j < n; j++)`, in the
order they run. -/
def loopPairs (n : Nat) : List (Nat × Nat) :=
  (List.range n).flatMap fun i => (List.range n).map fun j => (i, j)

/-- Body of the default fill loop: `k = i + j*nTypes; Umin[k] = 0; Umax[k] = 100;`. -/
def fillBody (nTypes : Nat) (b : EnergyBounds) (ij : Nat × Nat) :
    Except Fault EnergyBounds := do
  let k := pairIndex nTypes ij.1 ij.2
  let umin ← store b.Umin k 0
  let umax ← store b.Umax k 100
  pure ⟨umin, umax⟩

/-- The default fill loop of `main`. -/
def fillDefault (nTypes : Nat) (b : EnergyBounds) : Except Fault EnergyBounds :=
  (loopPairs nTypes).foldlM (fillBody nTypes) b

/-- The type macros `TAIL`, `HEAD`, `ANCHOR`, `MONOMER` used by `main`; their values are
defined outside these sources. -/
structure TypeIds where
  TAIL : Nat
  HEAD : Nat
  ANCHOR : Nat
  MONOMER : Nat
  deriving DecidableEq, Repr

/-- Lines 42 to 88 of `main`: `Umax` and `Umin` are made with `nTypes*nTypes` zeros, the
loop fills the defaults, then the overrides are written in source order. `uminAH` is
the value `atof(argv[3])`. -/
def energyBounds (nTypes : Nat) (t : TypeIds) (uminAH : ℚ) : Except Fault EnergyBounds := do
  let b ← fillDefault nTypes
    ⟨List.replicate (nTypes * nTypes) 0, List.replicate (nTypes * nTypes) 0⟩
  let umin ← store b.Umin (pairIndex nTypes t.TAIL t.TAIL) (-6)
  let umax ← store b.Umax (pairIndex nTypes t.TAIL t.TAIL) 200
  let umin ← store umin (pairIndex nTypes t.MONOMER t.MONOMER) 0
  let umax ← store umax (pairIndex nTypes t.MONOMER t.MONOMER) 100
  let umin ← store umin (pairIndex nTypes t.HEAD t.MONOMER) 0
  let umax ← store umax (pairIndex nTypes t.HEAD t.MONOMER) 100
  let a ← fetch umin (pairIndex nTypes t.HEAD t.MONOMER)
  let umin ← store umin (pairIndex nTypes t.MONOMER t.HEAD) a
  let a ← fetch umax (pairIndex nTypes t.HEAD t.MONOMER)
  let umax ← store umax (pairIndex nTypes t.MONOMER t.HEAD) a
  let umin ← store umin (pairIndex nTypes t.TAIL t.MONOMER) 0
  let umax ← store umax (pairIndex nTypes t.TAIL t.MONOMER) 100
  let umin ← store umin (pairIndex nTypes t.MONOMER t.TAIL) 0
  let umax ← store umax (pairIndex nTypes t.MONOMER t.TAIL) 100
  let umin ← store umin (pairIndex nTypes t.HEAD t.ANCHOR) uminAH
  let umax ← store umax (pairIndex nTypes t.HEAD t.ANCHOR) 100
  let a ← fetch umin (pairIndex nTypes t.HEAD t.ANCHOR)
  let umin ← store umin (pairIndex nTypes t.ANCHOR t.HEAD) a
  let a ← fetch umax (pairIndex nTypes t.HEAD t.ANCHOR)
  let umax ← store umax (pairIndex nTypes t.ANCHOR t.HEAD) a
  pure ⟨umin, umax⟩

/-- Why `main` ends without reaching the table builder. -/
inductive Stop
  /-- The usage line was printed and `main` returned 0. -/
  | usage
  /-- `argv[i]` was read for an `i` that is not below `argc`. -/
  | noArgument (i : Nat)
  /-- An operation on the vectors was undefined. -/
  | fault (f : Fault)
  deriving DecidableEq, Repr

/-- The string `argv[i]`; `argc` is the length of `argv`, and past it there is the null
pointer and then nothing. -/
def arg (argv : List String) (i : Nat) : Except Stop String :=
  match argv[i]? with
  | some a => .ok a
  | none => .error (.noArgument i)

/-- The indices of `argv` that `main` reads after the usage guard, in source order:
`name`, `nLipids`, `arealDensity`, `overcast`, the seed, the HEAD/ANCHOR `Umin`. -/
def argReads : List Nat := [1, 3, 4, 5, 2, 3]

/-- What `main` has set up when it calls the table builder. -/
structure Setup where
  name : String
  nLipids : Int
  arealDensity : ℚ
  overcast : ℚ
  seed : Int
  bounds : EnergyBounds
  deriving DecidableEq, Repr

/-- `main` up to the call of the table builder, with `setNTypes(6)`. -/
def main (atoi : String → Int) (atof : String → ℚ) (t : TypeIds) (argv : List String) :
    Except Stop Setup := do
  if argv.length < 4 then
    let _ ← arg argv 0
    throw .usage
  let name ← arg argv 1
  let nLipids ← arg argv 3
  let arealDensity ← arg argv 4
  let overcast ← arg argv 5
  let seed ← arg argv 2
  let uminAH ← arg argv 3
  match energyBounds 6 t (atof uminAH) with
  | .error f => throw (.fault f)
  | .ok bounds =>
    pure ⟨name, atoi nLipids, atof arealDensity, atof overcast, atoi seed, bounds⟩

/-- Modelled from the spec: the table builder behind `mpd::laradjiRevaleeFC` and
`mpd::laradjiRevaleePC`, whose code is not part of these sources. It fails when
`cutoff <= rMin` or either is non-positive; otherwise it returns, for every pair index
`k` in order, the block of coefficients of the potential law for `Umin[k]`, `Umax[k]`,
`cutoff`, `rMin`. The law itself is a parameter. -/
def tableBuilder (law : ℚ → ℚ → ℚ → ℚ → List ℚ) (Umax Umin : List ℚ) (cutoff rMin : ℚ) :
    Option (List ℚ) :=
  if cutoff ≤ rMin ∨ cutoff ≤ 0 ∨ rMin ≤ 0 then none
  else some ((List.zip Umin Umax).flatMap fun p => law p.1 p.2 cutoff rMin)

/-- The slots of the ordered pairs `(i, j)` and `(j, i)` of `v` hold the same value, for
all types below `nTypes`. -/
def mirrored (nTypes : Nat) (v : List ℚ) : Prop :=
  ∀ i j, i < nTypes → j < nTypes → v[pairIndex nTypes i j]? = v[pairIndex nTypes j i]?

/-! ## The scalar type `double`

The programs of the repository instantiate the templates with `double`. The definitions
above compute in exact arithmetic; the ones below round every arithmetic result the way
binary64 does, to the nearest representable number with ties to even. Results beyond the
largest finite `double` are outside what is kept. -/

/-- Number of binary digits of `n`, with `fuel` at least that number. -/
def numBitsAux : Nat → Nat → Nat
  | 0, _ => 0
  | fuel + 1, n => if n < 2 then 1 else 1 + numBitsAux fuel (n / 2)

/-- Number of binary digits of `n` (1 for `n = 0`). -/
def numBits (n : Nat) : Nat := numBitsAux (n + 1) n

/-- Binary exponent of `q ≠ 0`: the `e` with `2 ^ e ≤ |q| < 2 ^ (e + 1)`. -/
def binExp (q : ℚ) : Int :=
  let n := q.num.natAbs
  let a := numBits n
  let b := numBits q.den
  if a ≥ b then
    if 2 ^ (a - b) * q.den ≤ n then (a : Int) - b else (a : Int) - b - 1
  else
    if q.den ≤ n * 2 ^ (b - a) then (a : Int) - b else (a : Int) - b - 1

/-- The `double` nearest to `q`, ties to even: 53 significant binary digits, and the
fixed spacing `2 ^ -1074` below `2 ^ -1022`. -/
def roundDouble (q : ℚ) : ℚ :=
  if q = 0 then 0
  else
    let k : Int := max (binExp q) (-1022) - 52
    let m : Int :=
      if 0 ≤ k then roundHalfEven q.num (q.den * 2 ^ k.toNat)
      else roundHalfEven (q.num * 2 ^ (-k).toNat) q.den
    (m : ℚ) * (2 : ℚ) ^ k

/-- `deltaLT<T>::newSize` for a scalar type that rounds every arithmetic result by `rd`:
the identity for exact arithmetic, `roundDouble` for `double`. Negation, `std::abs` and
comparison are exact in either. -/
def deltaLT.newSizeRounded (rd : ℚ → ℚ) (d : deltaLT) (oldSize : threeVector) :
    Except Fault threeVector := do
  let cur ← oldSize.get d.dim
  let diff := rd (cur - d.endL)
  if |diff| > d.deltaL then
    let quotient ← divide diff |diff|
    let direction := rd quotient
    oldSize.set d.dim (rd (cur - rd (d.deltaL * direction)))
  else
    oldSize.set d.dim d.endL

/-- `deltaLT<T>::scaleFactor` for a scalar type that rounds every arithmetic result by
`rd`. -/
def deltaLT.scaleFactorRounded (rd : ℚ → ℚ) (d : deltaLT) (oldSize : threeVector) :
    Except Fault threeVector := do
  let nextSize ← d.newSizeRounded rd oldSize
  let scale := threeVector.splat 1
  let n ← nextSize.get d.dim
  let o ← oldSize.get d.dim
  let q ← divide (rd (n - o)) o
  scale.set d.dim (rd (1 + rd q))

/-- Result of `n` successive calls `size = newSize(size)` for a scalar type that rounds
by `rd`. -/
def deltaLT.newSizeRoundedIter (rd : ℚ → ℚ) (d : deltaLT) :
    Nat → threeVector → Except Fault threeVector
  | 0, s => .ok s
  | n + 1, s => do
      let t ← d.newSizeRounded rd s
      d.newSizeRoundedIter rd n t

/-- Component-wise product of two vectors for a scalar type that rounds by `rd`. -/
def threeVector.mulRounded (rd : ℚ → ℚ) (a b : threeVector) : threeVector :=
  ⟨rd (a.x * b.x), rd (a.y * b.y), rd (a.z * b.z)⟩

/-- No arithmetic result of the call `newSize(oldSize)` with `oldSize[dim] = c` is
changed by the rounding `rd`: the difference and, where the step branch is taken, the
direction, the product and the new size are representable. -/
def deltaLT.exactCall (rd : ℚ → ℚ) (d : deltaLT) (c : ℚ) : Prop :=
  rd (c - d.endL) = c - d.endL ∧
  (|c - d.endL| > d.deltaL → c ≠ d.endL →
    rd ((c - d.endL) / |c - d.endL|) = (c - d.endL) / |c - d.endL| ∧
    rd (d.deltaL * ((c - d.endL) / |c - d.endL|)) =
      d.deltaL * ((c - d.endL) / |c - d.endL|) ∧
    rd (c - d.deltaL * ((c - d.endL) / |c - d.endL|)) =
      c - d.deltaL * ((c - d.endL) / |c - d.endL|))

/-- No arithmetic result of `scaleFactor`, after its call of `newSize` has given `v` on
axis `dim` for the old value `c`, is changed by the rounding `rd`, nor is the product of
`c` with the scale. -/
def exactScale (rd : ℚ → ℚ) (c v : ℚ) : Prop :=
  rd (v - c) = v - c ∧ rd ((v - c) / c) = (v - c) / c ∧
  rd (1 + (v - c) / c) = 1 + (v - c) / c ∧
  rd (c * (1 + (v - c) / c)) = c * (1 + (v - c) / c)

/-- Values on the shrinking axis in the run the header of `deltaLT.h` documents
(start 100, `endL = 50`, `deltaL = 0.01`) in `double` arithmetic, in closed form: the
value after `j` calls of `newSize`. Down to 64 a call lowers the size by
`703687441777 / 2 ^ 46`, below 64 by `1407374883553 / 2 ^ 47`; the last call stores
`endL`. -/
def documentedTrace (j : Nat) : ℚ :=
  if j ≤ 3599 then (7036874417766400 - (j : ℚ) * 703687441777) / 2 ^ 46
  else if j ≤ 4999 then
    (9008606629621954 - ((j : ℚ) - 3599) * 1407374883553) / 2 ^ 47
  else 50

/-! ## Components of a vector -/

theorem threeVector.get_set_same {v w : threeVector} {i : Int} {a : ℚ}
    (h : v.set i a = .ok w) : w.get i = .ok a := by
  unfold threeVector.set at h
  unfold threeVector.get
  split_ifs at h ⊢ <;> simp_all <;> subst h <;> rfl

theorem threeVector.get_set_other {v w : threeVector} {i : Int} {a : ℚ}
    (h : v.set i a = .ok w) (j : Int) (hj : j ≠ i) : w.get j = v.get j := by
  unfold threeVector.set at h
  unfold threeVector.get
  split_ifs at h ⊢ <;> simp_all <;> subst h <;> rfl

theorem threeVector.set_defined {v : threeVector} {i : Int} {c : ℚ}
    (h : v.get i = .ok c) (a : ℚ) : ∃ w, v.set i a = .ok w := by
  unfold threeVector.get at h
  unfold threeVector.set
  split_ifs at h ⊢ <;> simp_all

theorem threeVector.set_self {v : threeVector} {i : Int} {c : ℚ}
    (h : v.get i = .ok c) : v.set i c = .ok v := by
  unfold threeVector.get at h
  unfold threeVector.set
  split_ifs at h ⊢ <;> simp_all <;> subst h <;> rfl

theorem threeVector.set_set {v w : threeVector} {i : Int} {a : ℚ}
    (h : v.set i a = .ok w) (b : ℚ) : w.set i b = v.set i b := by
  unfold threeVector.set at h ⊢
  split_ifs at h ⊢ <;> simp_all <;> subst h <;> exact ⟨rfl, rfl⟩

theorem threeVector.get_valid {v : threeVector} {i : Int} {c : ℚ}
    (h : v.get i = .ok c) : i = 0 ∨ i = 1 ∨ i = 2 := by
  unfold threeVector.get at h
  split_ifs at h <;> simp_all

/-! ## One call of `newSize` -/

theorem deltaLT.newSize_near {d : deltaLT} {s : threeVector} {cur : ℚ}
    (hcur : s.get d.dim = .ok cur) (h : |cur - d.endL| ≤ d.deltaL) :
    d.newSize s = s.set d.dim d.endL := by
  unfold deltaLT.newSize
  simp [hcur, bind, Except.bind, not_lt.mpr h]

theorem deltaLT.newSize_down {d : deltaLT} {s : threeVector} {cur : ℚ}
    (hcur : s.get d.dim = .ok cur) (h : d.deltaL < |cur - d.endL|) (hpos : 0 < cur - d.endL) :
    d.newSize s = s.set d.dim (cur - d.deltaL) := by
  unfold deltaLT.newSize
  have hne : cur - d.endL ≠ 0 := ne_of_gt hpos
  simp only [hcur, bind, Except.bind]
  rw [if_pos h]
  simp [divide, abs_of_pos hpos, hne]

theorem deltaLT.newSize_up {d : deltaLT} {s : threeVector} {cur : ℚ}
    (hcur : s.get d.dim = .ok cur) (h : d.deltaL < |cur - d.endL|) (hneg : cur - d.endL < 0) :
    d.newSize s = s.set d.dim (cur + d.deltaL) := by
  unfold deltaLT.newSize
  have hne : cur - d.endL ≠ 0 := ne_of_lt hneg
  have hne2 : d.endL - cur ≠ 0 := by
    intro h0
    apply hne
    linarith
  have hdir : (cur - d.endL) / (d.endL - cur) = -1 := by
    rw [div_eq_iff hne2]
    ring
  simp only [hcur, bind, Except.bind]
  rw [if_pos h]
  simp [divide, abs_of_neg hneg, hne, hne2, hdir]

theorem deltaLT.newSize_fault {d : deltaLT} {s : threeVector}
    (hcur : s.get d.dim = .ok d.endL) (h : d.deltaL < 0) :
    d.newSize s = .error .divByZero := by
  unfold deltaLT.newSize
  simp [hcur, bind, Except.bind, h, divide]

/-! ## Claims about `newSize` and `scaleFactor` -/

/-- C1: with `dim` one of 0, 1, 2 and `diff = oldSize[dim] - endL`, `newSize` puts
`endL` on axis `dim` when `|diff| <= deltaL`, `oldSize[dim] - deltaL` when
`|diff| > deltaL` and `diff > 0`, `oldSize[dim] + deltaL` when `|diff| > deltaL` and
`diff < 0`, and returns the other two components as they were. -/
theorem deltaLT.newSize_three_cases (d : deltaLT) (s : threeVector)
    (hdim : d.dim = 0 ∨ d.dim = 1 ∨ d.dim = 2) :
    ∃ cur, s.get d.dim = .ok cur ∧
      (|cur - d.endL| ≤ d.deltaL →
        ∃ n, d.newSize s = .ok n ∧ n.get d.dim = .ok d.endL ∧
          ∀ j, j ≠ d.dim → n.get j = s.get j) ∧
      (|cur - d.endL| > d.deltaL → cur - d.endL > 0 →
        ∃ n, d.newSize s = .ok n ∧ n.get d.dim = .ok (cur - d.deltaL) ∧
          ∀ j, j ≠ d.dim → n.get j = s.get j) ∧
      (|cur - d.endL| > d.deltaL → cur - d.endL < 0 →
        ∃ n, d.newSize s = .ok n ∧ n.get d.dim = .ok (cur + d.deltaL) ∧
          ∀ j, j ≠ d.dim → n.get j = s.get j) := by
  have hget : ∃ cur, s.get d.dim = .ok cur := by
    unfold threeVector.get
    rcases hdim with h | h | h <;> simp [h]
  obtain ⟨cur, hcur⟩ := hget
  refine ⟨cur, hcur, ?_, ?_, ?_⟩
  · intro h
    obtain ⟨n, hn⟩ := threeVector.set_defined hcur d.endL
    exact ⟨n, by rw [deltaLT.newSize_near hcur h, hn], threeVector.get_set_same hn,
      threeVector.get_set_other hn⟩
  · intro h hpos
    obtain ⟨n, hn⟩ := threeVector.set_defined hcur (cur - d.deltaL)
    exact ⟨n, by rw [deltaLT.newSize_down hcur h hpos, hn], threeVector.get_set_same hn,
      threeVector.get_set_other hn⟩
  · intro h hneg
    obtain ⟨n, hn⟩ := threeVector.set_defined hcur (cur + d.deltaL)
    exact ⟨n, by rw [deltaLT.newSize_up hcur h hneg, hn], threeVector.get_set_same hn,
      threeVector.get_set_other hn⟩

/-- C1 at `deltaL = 0.01, endL = 50, dim = 2` and the box `(25, 55, 100)`. -/
theorem deltaLT.newSize_three_cases_witness :
    ((2 : Int) = 0 ∨ (2 : Int) = 1 ∨ (2 : Int) = 2) ∧
    ∃ cur, (threeVector.mk 25 55 100).get (deltaLT.mk (1/100) 50 2 10).dim = .ok cur ∧
      (|cur - (50 : ℚ)| ≤ 1/100 →
        ∃ n, (deltaLT.mk (1/100) 50 2 10).newSize ⟨25, 55, 100⟩ = .ok n ∧
          n.get 2 = .ok 50 ∧ ∀ j, j ≠ (2 : Int) → n.get j = (threeVector.mk 25 55 100).get j) ∧
      (|cur - (50 : ℚ)| > 1/100 → cur - 50 > 0 →
        ∃ n, (deltaLT.mk (1/100) 50 2 10).newSize ⟨25, 55, 100⟩ = .ok n ∧
          n.get 2 = .ok (cur - 1/100) ∧
          ∀ j, j ≠ (2 : Int) → n.get j = (threeVector.mk 25 55 100).get j) ∧
      (|cur - (50 : ℚ)| > 1/100 → cur - 50 < 0 →
        ∃ n, (deltaLT.mk (1/100) 50 2 10).newSize ⟨25, 55, 100⟩ = .ok n ∧
          n.get 2 = .ok (cur + 1/100) ∧
          ∀ j, j ≠ (2 : Int) → n.get j = (threeVector.mk 25 55 100).get j) :=
  ⟨by decide, deltaLT.newSize_three_cases (deltaLT.mk (1/100) 50 2 10) ⟨25, 55, 100⟩
    (by decide)⟩

/-- C3, amended: for `deltaL > 0` the value `newSize` puts on axis `dim` lies between
`oldSize[dim]` and `endL` inclusive, its distance to `endL` is not larger than before,
and it stays on the side of `endL` where `oldSize[dim]` was. -/
theorem deltaLT.newSize_between (d : deltaLT) (s : threeVector) (cur : ℚ)
    (hpos : 0 < d.deltaL) (hcur : s.get d.dim = .ok cur) :
    ∃ n v, d.newSize s = .ok n ∧ n.get d.dim = .ok v ∧
      min cur d.endL ≤ v ∧ v ≤ max cur d.endL ∧
      |v - d.endL| ≤ |cur - d.endL| ∧
      (d.endL ≤ cur → d.endL ≤ v) ∧ (cur ≤ d.endL → v ≤ d.endL) := by
  by_cases h : |cur - d.endL| ≤ d.deltaL
  · obtain ⟨n, hn⟩ := threeVector.set_defined hcur d.endL
    refine ⟨n, d.endL, by rw [deltaLT.newSize_near hcur h, hn],
      threeVector.get_set_same hn, min_le_right _ _, le_max_right _ _, ?_,
      fun _ => le_refl _, fun _ => le_refl _⟩
    simp
  · have hfar : d.deltaL < |cur - d.endL| := lt_of_not_ge h
    rcases lt_trichotomy (cur - d.endL) 0 with hneg | hzero | hgt
    · obtain ⟨n, hn⟩ := threeVector.set_defined hcur (cur + d.deltaL)
      rw [abs_of_neg hneg] at hfar
      refine ⟨n, cur + d.deltaL, by
          rw [deltaLT.newSize_up hcur (by rw [abs_of_neg hneg]; exact hfar) hneg, hn],
        threeVector.get_set_same hn, ?_, ?_, ?_, ?_, ?_⟩
      · exact le_trans (min_le_left _ _) (by linarith)
      · exact le_trans (by linarith) (le_max_right _ _)
      · rw [abs_of_neg hneg, abs_of_neg (by linarith)]
        linarith
      · intro hle
        linarith
      · intro _
        linarith
    · rw [hzero, abs_zero] at hfar
      linarith
    · obtain ⟨n, hn⟩ := threeVector.set_defined hcur (cur - d.deltaL)
      rw [abs_of_pos hgt] at hfar
      refine ⟨n, cur - d.deltaL, by
          rw [deltaLT.newSize_down hcur (by rw [abs_of_pos hgt]; exact hfar) hgt, hn],
        threeVector.get_set_same hn, ?_, ?_, ?_, ?_, ?_⟩
      · exact le_trans (min_le_right _ _) (by linarith)
      · exact le_trans (by linarith) (le_max_left _ _)
      · rw [abs_of_pos hgt, abs_of_pos (by linarith)]
        linarith
      · intro _
        linarith
      · intro hle
        linarith

/-- C3, amended, at `deltaL = 0.01, endL = 50, dim = 2` and the box `(25, 55, 100)`. -/
theorem deltaLT.newSize_between_witness :
    (0 : ℚ) < 1/100 ∧ (threeVector.mk 25 55 100).get 2 = .ok 100 ∧
    ∃ n v, (deltaLT.mk (1/100) 50 2 10).newSize ⟨25, 55, 100⟩ = .ok n ∧
      n.get 2 = .ok v ∧ min 100 50 ≤ v ∧ v ≤ max 100 50 ∧
      |v - 50| ≤ |(100 : ℚ) - 50| ∧ ((50 : ℚ) ≤ 100 → 50 ≤ v) ∧ ((100 : ℚ) ≤ 50 → v ≤ 50) :=
  ⟨by norm_num, rfl,
    deltaLT.newSize_between (deltaLT.mk (1/100) 50 2 10) ⟨25, 55, 100⟩ 100 (by norm_num) rfl⟩

/-- C3 fails for an active instance with negative `deltaL`: with `deltaL = -1`,
`endL = 0`, `dim = 0` the size 1 becomes 2, outside the interval from 1 to 0 and
farther from `endL` than before. -/
theorem deltaLT.newSize_between_counterexample :
    (deltaLT.mk (-1) 0 0 1).deltaL ≠ 0 ∧
    (threeVector.mk 1 0 0).get (deltaLT.mk (-1) 0 0 1).dim = .ok 1 ∧
    (deltaLT.mk (-1) 0 0 1).newSize ⟨1, 0, 0⟩ = .ok ⟨2, 0, 0⟩ ∧
    (threeVector.mk 2 0 0).get (deltaLT.mk (-1) 0 0 1).dim = .ok 2 ∧
    ¬ ((2 : ℚ) ≤ max 1 (deltaLT.mk (-1) 0 0 1).endL) ∧
    |(1 : ℚ) - (deltaLT.mk (-1) 0 0 1).endL| < |(2 : ℚ) - (deltaLT.mk (-1) 0 0 1).endL| := by
  refine ⟨by norm_num, rfl, ?_, rfl, by norm_num, by norm_num⟩
  norm_num [deltaLT.newSize, threeVector.get, threeVector.set, divide, bind, Except.bind]

theorem deltaLT.newSizeIter_fixed {d : deltaLT} {s : threeVector}
    (h : d.newSize s = .ok s) (k : Nat) : d.newSizeIter k s = .ok s := by
  induction k with
  | zero => rfl
  | succ k ih => simp [deltaLT.newSizeIter, h, bind, Except.bind, ih]

/-- C4, amended: for `deltaL >= 0` and `oldSize[dim] == endL`, `newSize` returns
`oldSize` unchanged, as does any number of repeated calls; when in addition
`endL != 0`, `scaleFactor` is exactly 1 on axis `dim`. -/
theorem deltaLT.newSize_at_target (d : deltaLT) (s : threeVector)
    (hnonneg : 0 ≤ d.deltaL) (hcur : s.get d.dim = .ok d.endL) :
    d.newSize s = .ok s ∧ (∀ k, d.newSizeIter k s = .ok s) ∧
      (d.endL ≠ 0 → ∃ sc, d.scaleFactor s = .ok sc ∧ sc.get d.dim = .ok 1) := by
  have hnew : d.newSize s = .ok s := by
    rw [deltaLT.newSize_near hcur (by simpa using hnonneg)]
    exact threeVector.set_self hcur
  refine ⟨hnew, deltaLT.newSizeIter_fixed hnew, ?_⟩
  intro hne
  obtain ⟨sc, hsc⟩ : ∃ sc, (threeVector.splat 1).set d.dim 1 = .ok sc := by
    have hv := threeVector.get_valid hcur
    unfold threeVector.set
    rcases hv with h | h | h <;> simp [h]
  refine ⟨sc, ?_, threeVector.get_set_same hsc⟩
  unfold deltaLT.scaleFactor
  simp [hnew, hcur, bind, Except.bind, divide, hne, hsc]

/-- C4, amended, at `deltaL = 0.01, endL = 50, dim = 2` and the box `(25, 55, 50)`. -/
theorem deltaLT.newSize_at_target_witness :
    (0 : ℚ) ≤ 1/100 ∧ (threeVector.mk 25 55 50).get 2 = .ok 50 ∧
    (deltaLT.mk (1/100) 50 2 10).newSize ⟨25, 55, 50⟩ = .ok ⟨25, 55, 50⟩ ∧
    (∀ k, (deltaLT.mk (1/100) 50 2 10).newSizeIter k ⟨25, 55, 50⟩ = .ok ⟨25, 55, 50⟩) ∧
    ((50 : ℚ) ≠ 0 → ∃ sc, (deltaLT.mk (1/100) 50 2 10).scaleFactor ⟨25, 55, 50⟩ = .ok sc ∧
      sc.get 2 = .ok 1) :=
  ⟨by norm_num, rfl,
    deltaLT.newSize_at_target (deltaLT.mk (1/100) 50 2 10) ⟨25, 55, 50⟩ (by norm_num) rfl⟩

/-- C4 fails in two places. With `deltaL = -1` and the size already at `endL = 1`,
`newSize` divides zero by zero instead of returning the size. With `endL = 0` and the
size at 0, `scaleFactor` divides by the size 0 instead of returning 1. -/
theorem deltaLT.newSize_at_target_counterexample :
    ((threeVector.mk 1 1 1).get (deltaLT.mk (-1) 1 0 1).dim = .ok (deltaLT.mk (-1) 1 0 1).endL ∧
      (deltaLT.mk (-1) 1 0 1).newSize ⟨1, 1, 1⟩ = .error .divByZero) ∧
    ((threeVector.mk 0 1 1).get (deltaLT.mk 1 0 0 1).dim = .ok (deltaLT.mk 1 0 0 1).endL ∧
      (deltaLT.mk 1 0 0 1).newSize ⟨0, 1, 1⟩ = .ok ⟨0, 1, 1⟩ ∧
      (deltaLT.mk 1 0 0 1).scaleFactor ⟨0, 1, 1⟩ = .error .divByZero) := by
  refine ⟨⟨rfl, ?_⟩, rfl, ?_, ?_⟩
  · norm_num [deltaLT.newSize, threeVector.get, threeVector.set, divide, bind, Except.bind]
  · norm_num [deltaLT.newSize, threeVector.get, threeVector.set, divide, bind, Except.bind]
  · norm_num [deltaLT.scaleFactor, deltaLT.newSize, threeVector.get, threeVector.set, divide,
      bind, Except.bind]

/-- C5: for an active instance (`deltaL != 0`) `ready(step)` returns true exactly when
`step % relaxStep` is 0, and returns the comparison of that remainder with 0 whenever
the remainder is defined; for `deltaL == 0` it returns false for every step without
looking at `relaxStep`; the default-constructed instance is all zero and inactive. -/
theorem deltaLT.ready_iff_remainder_zero (d : deltaLT) (step : Int) :
    (d.deltaL ≠ 0 →
      (d.ready step = .ok true ↔ rem step d.relaxStep = .ok 0) ∧
      (∀ r, rem step d.relaxStep = .ok r → d.ready step = .ok (decide (r = 0))) ∧
      (d.relaxStep ≠ 0 → ¬ (step = INT_MIN ∧ d.relaxStep = -1) →
        d.ready step = .ok (decide (Int.tmod step d.relaxStep = 0)))) ∧
    (d.deltaL = 0 → d.ready step = .ok false) ∧
    deltaLT.default = ⟨0, 0, 0, 0⟩ ∧ deltaLT.default.active = false ∧
    deltaLT.default.ready step = .ok false := by
  refine ⟨?_, ?_, rfl, ?_, ?_⟩
  · intro hact
    refine ⟨?_, ?_, ?_⟩
    · unfold deltaLT.ready
      rw [if_pos hact]
      cases hr : rem step d.relaxStep with
      | error e => simp [bind, Except.bind]
      | ok r => simp [bind, Except.bind, pure, Except.pure]
    · intro r hr
      unfold deltaLT.ready
      rw [if_pos hact, hr]
      rfl
    · intro h0 hov
      unfold deltaLT.ready rem
      rw [if_pos hact, if_neg h0, if_neg hov]
      rfl
  · intro h0
    unfold deltaLT.ready
    simp [h0]
  · simp [deltaLT.active, deltaLT.default]
  · simp [deltaLT.ready, deltaLT.default]

/-- C5 at `deltaL = 0.01, relaxStep = 10`: step 20 is due, step 25 is not. -/
theorem deltaLT.ready_iff_remainder_zero_witness :
    (deltaLT.mk (1/100) 50 2 10).ready 20 = .ok true ∧
    (deltaLT.mk (1/100) 50 2 10).ready 25 = .ok false := by
  have h20 := ((deltaLT.ready_iff_remainder_zero (deltaLT.mk (1/100) 50 2 10) 20).1
    (by norm_num)).2.2 (by decide) (by decide)
  have h25 := ((deltaLT.ready_iff_remainder_zero (deltaLT.mk (1/100) 50 2 10) 25).1
    (by norm_num)).2.2 (by decide) (by decide)
  exact ⟨h20, h25⟩

/-- C6: with `dim` one of 0, 1, 2, whenever `newSize` yields a size and `oldSize[dim]`
is not zero, `scaleFactor` yields `1 + (newSize[dim] - oldSize[dim]) / oldSize[dim]` on
axis `dim` and exactly 1 on the two other axes; and `scaleFactor` yields a value in
no other case. -/
theorem deltaLT.scaleFactor_formula (d : deltaLT) (s : threeVector)
    (hdim : d.dim = 0 ∨ d.dim = 1 ∨ d.dim = 2) :
    ∃ cur, s.get d.dim = .ok cur ∧
      (∀ n, d.newSize s = .ok n → cur ≠ 0 →
        ∃ v sc, n.get d.dim = .ok v ∧ d.scaleFactor s = .ok sc ∧
          sc.get d.dim = .ok (1 + (v - cur) / cur) ∧
          ∀ j, j ≠ d.dim → (j = 0 ∨ j = 1 ∨ j = 2) → sc.get j = .ok 1) ∧
      (∀ sc, d.scaleFactor s = .ok sc → cur ≠ 0 ∧ ∃ n, d.newSize s = .ok n) := by
  have hget : ∃ cur, s.get d.dim = .ok cur := by
    unfold threeVector.get
    rcases hdim with h | h | h <;> simp [h]
  obtain ⟨cur, hcur⟩ := hget
  refine ⟨cur, hcur, ?_, ?_⟩
  · intro n hn hne
    have hnget : ∃ v, n.get d.dim = .ok v := by
      unfold threeVector.get
      rcases hdim with h | h | h <;> simp [h]
    obtain ⟨v, hv⟩ := hnget
    obtain ⟨sc, hsc⟩ : ∃ sc, (threeVector.splat 1).set d.dim (1 + (v - cur) / cur) = .ok sc := by
      unfold threeVector.set
      rcases hdim with h | h | h <;> simp [h]
    refine ⟨v, sc, hv, ?_, threeVector.get_set_same hsc, ?_⟩
    · unfold deltaLT.scaleFactor
      simp [hn, hv, hcur, bind, Except.bind, divide, hne, hsc]
    · intro j hj hjv
      rw [threeVector.get_set_other hsc j hj]
      unfold threeVector.get threeVector.splat
      rcases hjv with h | h | h <;> simp [h]
  · intro sc hsc
    unfold deltaLT.scaleFactor at hsc
    cases hn : d.newSize s with
    | error e => simp [hn, bind, Except.bind] at hsc
    | ok n =>
      refine ⟨?_, n, rfl⟩
      intro h0
      have hnget : ∃ v, n.get d.dim = .ok v := by
        unfold threeVector.get
        rcases hdim with h | h | h <;> simp [h]
      obtain ⟨v, hv⟩ := hnget
      simp [hn, hv, hcur, bind, Except.bind, divide, h0] at hsc

/-- C6 at `deltaL = 0.01, endL = 50, dim = 2` and the box `(25, 55, 100)`. -/
theorem deltaLT.scaleFactor_formula_witness :
    ((2 : Int) = 0 ∨ (2 : Int) = 1 ∨ (2 : Int) = 2) ∧
    ∃ cur, (threeVector.mk 25 55 100).get (deltaLT.mk (1/100) 50 2 10).dim = .ok cur ∧
      (∀ n, (deltaLT.mk (1/100) 50 2 10).newSize ⟨25, 55, 100⟩ = .ok n → cur ≠ 0 →
        ∃ v sc, n.get 2 = .ok v ∧
          (deltaLT.mk (1/100) 50 2 10).scaleFactor ⟨25, 55, 100⟩ = .ok sc ∧
          sc.get 2 = .ok (1 + (v - cur) / cur) ∧
          ∀ j, j ≠ (2 : Int) → (j = 0 ∨ j = 1 ∨ j = 2) → sc.get j = .ok 1) ∧
      (∀ sc, (deltaLT.mk (1/100) 50 2 10).scaleFactor ⟨25, 55, 100⟩ = .ok sc →
        cur ≠ 0 ∧ ∃ n, (deltaLT.mk (1/100) 50 2 10).newSize ⟨25, 55, 100⟩ = .ok n) :=
  ⟨by decide, deltaLT.scaleFactor_formula (deltaLT.mk (1/100) 50 2 10) ⟨25, 55, 100⟩
    (by decide)⟩

theorem deltaLT.scaleFactor_mul_exact (d : deltaLT) (s : threeVector) (cur : ℚ)
    (hcur : s.get d.dim = .ok cur) (hne : cur ≠ 0) :
    (d.scaleFactor s).map (fun sc => s.mul sc) = d.newSize s := by
  have hdim := threeVector.get_valid hcur
  unfold deltaLT.scaleFactor
  cases hn : d.newSize s with
  | error e => simp [bind, Except.bind, Except.map]
  | ok n =>
    have hshape : ∃ a, s.set d.dim a = .ok n := by
      unfold deltaLT.newSize at hn
      simp only [hcur, bind, Except.bind] at hn
      split_ifs at hn
      · cases hdiv : divide (cur - d.endL) |cur - d.endL| with
        | error e => simp [hdiv] at hn
        | ok q => exact ⟨_, by simpa [hdiv] using hn⟩
      · exact ⟨_, hn⟩
    obtain ⟨a, ha⟩ := hshape
    have hv : n.get d.dim = .ok a := threeVector.get_set_same ha
    simp only [hv, hcur, bind, Except.bind, divide, if_neg hne]
    unfold threeVector.set at ha ⊢
    unfold threeVector.get at hcur
    rcases hdim with h | h | h <;>
      simp [h, Except.map, threeVector.mul, threeVector.splat] at ha hcur ⊢ <;>
      subst ha <;> subst hcur <;> simp <;> field_simp

/-! ## Repeated calls -/

theorem deltaLT.newSize_far {d : deltaLT} {s : threeVector} {cur : ℚ} (σ : ℚ)
    (hσ : σ = 1 ∨ σ = -1) (hcur : s.get d.dim = .ok cur) (hnonneg : 0 ≤ d.deltaL)
    (hfar : d.deltaL < σ * (cur - d.endL)) :
    d.newSize s = s.set d.dim (cur - σ * d.deltaL) := by
  rcases hσ with h | h
  · subst h
    have hpos : 0 < cur - d.endL := by linarith
    rw [deltaLT.newSize_down hcur (by rw [abs_of_pos hpos]; linarith) hpos]
    congr 1
    ring
  · subst h
    have hneg : cur - d.endL < 0 := by linarith
    rw [deltaLT.newSize_up hcur (by rw [abs_of_neg hneg]; linarith) hneg]
    congr 1
    ring

theorem deltaLT.newSizeIter_far {d : deltaLT} (hpos : 0 < d.deltaL) (σ : ℚ)
    (hσ : σ = 1 ∨ σ = -1) :
    ∀ (m : Nat) (s : threeVector) (cur : ℚ), s.get d.dim = .ok cur →
      (m : ℚ) * d.deltaL < σ * (cur - d.endL) →
      d.newSizeIter m s = s.set d.dim (cur - σ * (m * d.deltaL)) := by
  have hsq : σ * σ = 1 := by
    rcases hσ with h | h <;> subst h <;> norm_num
  intro m
  induction m with
  | zero =>
    intro s cur hcur _
    simp [deltaLT.newSizeIter, threeVector.set_self hcur]
  | succ m ih =>
    intro s cur hcur hlt
    have hm : (0 : ℚ) ≤ (m : ℚ) * d.deltaL := mul_nonneg (Nat.cast_nonneg m) hpos.le
    have hcast : ((m + 1 : Nat) : ℚ) = (m : ℚ) + 1 := by push_cast; ring
    rw [hcast] at hlt
    have hfar : d.deltaL < σ * (cur - d.endL) := by nlinarith
    obtain ⟨t, ht⟩ := threeVector.set_defined hcur (cur - σ * d.deltaL)
    have hnew : d.newSize s = .ok t := by
      rw [deltaLT.newSize_far σ hσ hcur hpos.le hfar, ht]
    have htget : t.get d.dim = .ok (cur - σ * d.deltaL) := threeVector.get_set_same ht
    have hlt2 : (m : ℚ) * d.deltaL < σ * (cur - σ * d.deltaL - d.endL) := by
      have : σ * (cur - σ * d.deltaL - d.endL) = σ * (cur - d.endL) - (σ * σ) * d.deltaL := by
        ring
      rw [this, hsq]
      linarith
    have hrec := ih t _ htget hlt2
    simp only [deltaLT.newSizeIter, hnew, bind, Except.bind]
    rw [hrec, threeVector.set_set ht, hcast]
    congr 1
    ring

theorem deltaLT.newSizeIter_succ (d : deltaLT) :
    ∀ (m : Nat) (s : threeVector),
      d.newSizeIter (m + 1) s = (d.newSizeIter m s).bind d.newSize := by
  intro m
  induction m with
  | zero =>
    intro s
    cases h : d.newSize s <;> simp [deltaLT.newSizeIter, h, bind, Except.bind]
  | succ m ih =>
    intro s
    cases h : d.newSize s with
    | error e => simp [deltaLT.newSizeIter, h, bind, Except.bind]
    | ok t =>
      have h1 : d.newSizeIter (m + 1 + 1) s = d.newSizeIter (m + 1) t := by
        simp [deltaLT.newSizeIter, h, bind, Except.bind]
      have h2 : d.newSizeIter (m + 1) s = d.newSizeIter m t := by
        simp [deltaLT.newSizeIter, h, bind, Except.bind]
      rw [h1, ih t, h2]

theorem deltaLT.newSizeIter_before {d : deltaLT} {s : threeVector} {s0 : ℚ}
    (hpos : 0 < d.deltaL) (hcur : s.get d.dim = .ok s0) (m : Nat)
    (hm : m < ⌈|s0 - d.endL| / d.deltaL⌉₊) :
    ∃ t v, d.newSizeIter m s = .ok t ∧ t.get d.dim = .ok v ∧ v ≠ d.endL ∧
      (d.endL < s0 → d.endL < v) ∧ (s0 < d.endL → v < d.endL) ∧
      |v - d.endL| = |s0 - d.endL| - m * d.deltaL := by
  have hlt : (m : ℚ) * d.deltaL < |s0 - d.endL| := by
    have := Nat.lt_ceil.mp hm
    exact (lt_div_iff₀ hpos).mp this
  have hm0 : (0 : ℚ) ≤ (m : ℚ) * d.deltaL := mul_nonneg (Nat.cast_nonneg m) hpos.le
  rcases lt_trichotomy (s0 - d.endL) 0 with hneg | hzero | hgt
  · rw [abs_of_neg hneg] at hlt ⊢
    have hiter := deltaLT.newSizeIter_far hpos (-1) (Or.inr rfl) m s s0 hcur (by linarith)
    obtain ⟨t, ht⟩ := threeVector.set_defined hcur (s0 - -1 * (m * d.deltaL))
    refine ⟨t, _, by rw [hiter, ht], threeVector.get_set_same ht, ?_, ?_, ?_, ?_⟩
    · intro h
      linarith
    · intro h
      linarith
    · intro _
      linarith
    · rw [abs_of_neg (by linarith)]
      ring
  · rw [hzero, abs_zero] at hlt
    linarith
  · rw [abs_of_pos hgt] at hlt ⊢
    have hiter := deltaLT.newSizeIter_far hpos 1 (Or.inl rfl) m s s0 hcur (by linarith)
    obtain ⟨t, ht⟩ := threeVector.set_defined hcur (s0 - 1 * (m * d.deltaL))
    refine ⟨t, _, by rw [hiter, ht], threeVector.get_set_same ht, ?_, ?_, ?_, ?_⟩
    · intro h
      linarith
    · intro _
      linarith
    · intro h
      linarith
    · rw [abs_of_pos (by linarith)]
      ring

theorem deltaLT.newSizeIter_reaches {d : deltaLT} {s : threeVector} {s0 : ℚ}
    (hpos : 0 < d.deltaL) (hcur : s.get d.dim = .ok s0) :
    ∃ t, d.newSizeIter ⌈|s0 - d.endL| / d.deltaL⌉₊ s = .ok t ∧ t.get d.dim = .ok d.endL := by
  rcases Nat.eq_zero_or_pos ⌈|s0 - d.endL| / d.deltaL⌉₊ with h0 | hn
  · rw [h0]
    have hle : |s0 - d.endL| / d.deltaL ≤ 0 := Nat.ceil_eq_zero.mp h0
    have habs : |s0 - d.endL| ≤ 0 := by
      by_contra hc
      have : 0 < |s0 - d.endL| / d.deltaL := div_pos (lt_of_not_ge hc) hpos
      linarith
    have heq : s0 = d.endL := by
      have := abs_nonpos_iff.mp habs
      linarith
    exact ⟨s, rfl, by rw [hcur, heq]⟩
  · obtain ⟨m, hm⟩ : ∃ m, ⌈|s0 - d.endL| / d.deltaL⌉₊ = m + 1 :=
      ⟨⌈|s0 - d.endL| / d.deltaL⌉₊ - 1, by omega⟩
    obtain ⟨t, v, hiter, hv, _, _, _, habs⟩ :=
      deltaLT.newSizeIter_before hpos hcur m (by omega)
    have hle : |s0 - d.endL| ≤ ((m + 1 : Nat) : ℚ) * d.deltaL := by
      have h1 : |s0 - d.endL| / d.deltaL ≤ ((⌈|s0 - d.endL| / d.deltaL⌉₊ : Nat) : ℚ) :=
        Nat.le_ceil _
      rw [hm] at h1
      exact (div_le_iff₀ hpos).mp h1
    have hnear : |v - d.endL| ≤ d.deltaL := by
      rw [habs]
      push_cast at hle
      linarith
    obtain ⟨u, hu⟩ := threeVector.set_defined hv d.endL
    refine ⟨u, ?_, threeVector.get_set_same hu⟩
    rw [hm, deltaLT.newSizeIter_succ, hiter]
    show d.newSize t = .ok u
    rw [deltaLT.newSize_near hv hnear, hu]

/-! ## Due steps -/

theorem deltaLT.ready_eq_dvd {d : deltaLT} (hact : d.deltaL ≠ 0) {r : Nat} (hr : 0 < r)
    (hrelax : d.relaxStep = r) (step : Int) :
    d.ready step = .ok (decide ((r : Int) ∣ step)) := by
  have hr0 : (r : Int) ≠ 0 := by omega
  have hov : ¬ (step = INT_MIN ∧ (r : Int) = -1) := by omega
  unfold deltaLT.ready rem
  rw [if_pos hact, hrelax, if_neg hr0, if_neg hov]
  simp [bind, Except.bind, pure, Except.pure, Int.dvd_iff_tmod_eq_zero]

theorem deltaLT.dueSteps_add (d : deltaLT) :
    ∀ (a b : Nat) (step : Int),
      d.dueSteps step (a + b) = d.dueSteps step a + d.dueSteps (step + a) b := by
  intro a
  induction a with
  | zero =>
    intro b step
    simp [deltaLT.dueSteps]
  | succ a ih =>
    intro b step
    have hab : a + 1 + b = (a + b) + 1 := by omega
    have hstep : step + ((a + 1 : Nat) : Int) = step + 1 + (a : Int) := by push_cast; ring
    rw [hab, hstep]
    simp only [deltaLT.dueSteps]
    rw [ih b (step + 1)]
    omega

theorem deltaLT.dueSteps_idle {d : deltaLT} (hact : d.deltaL ≠ 0) {r : Nat} (hr : 0 < r)
    (hrelax : d.relaxStep = r) :
    ∀ (a : Nat) (step : Int),
      (∀ i : Nat, i < a → ¬ ((r : Int) ∣ step + i)) → d.dueSteps step a = 0 := by
  intro a
  induction a with
  | zero =>
    intro step _
    rfl
  | succ a ih =>
    intro step hidle
    have h0 : ¬ ((r : Int) ∣ step) := by simpa using hidle 0 (by omega)
    have hrest : d.dueSteps (step + 1) a = 0 := by
      apply ih
      intro i hi
      have := hidle (i + 1) (by omega)
      have heq : step + ((i + 1 : Nat) : Int) = step + 1 + (i : Int) := by push_cast; ring
      rwa [heq] at this
    simp [deltaLT.dueSteps, deltaLT.ready_eq_dvd hact hr hrelax, h0, hrest]

theorem deltaLT.dueSteps_block {d : deltaLT} (hact : d.deltaL ≠ 0) {r : Nat} (hr : 0 < r)
    (hrelax : d.relaxStep = r) (step : Int) :
    d.dueSteps step r = 1 := by
  have hrpos : (0 : Int) < r := by omega
  have hj0 : 0 ≤ (-step) % (r : Int) := Int.emod_nonneg _ (by omega)
  have hjr : (-step) % (r : Int) < r := Int.emod_lt_of_pos _ hrpos
  obtain ⟨j, hj⟩ : ∃ j : Nat, (j : Int) = (-step) % (r : Int) :=
    ⟨((-step) % (r : Int)).toNat, by omega⟩
  have hjlt : j < r := by omega
  have hdvd : (r : Int) ∣ step + j := by
    rw [hj, Int.emod_def]
    exact ⟨-((-step) / r), by ring⟩
  have hother : ∀ i : Nat, i < r → i ≠ j → ¬ ((r : Int) ∣ step + i) := by
    intro i hi hne hdiv
    have hsub : (r : Int) ∣ (i : Int) - j := by
      have := Int.dvd_sub hdiv hdvd
      have heq : step + (i : Int) - (step + j) = (i : Int) - j := by ring
      rwa [heq] at this
    have habs : |(i : Int) - j| < r := by
      rw [abs_lt]
      constructor <;> omega
    have := Int.eq_zero_of_abs_lt_dvd hsub habs
    omega
  have hsplit : r = j + (1 + (r - 1 - j)) := by omega
  have hpre : d.dueSteps step j = 0 := by
    apply deltaLT.dueSteps_idle hact hr hrelax
    intro i hi
    exact hother i (by omega) (by omega)
  have hsuf : d.dueSteps (step + j + 1) (r - 1 - j) = 0 := by
    apply deltaLT.dueSteps_idle hact hr hrelax
    intro i hi
    have := hother (j + 1 + i) (by omega) (by omega)
    have heq : step + ((j + 1 + i : Nat) : Int) = step + j + 1 + (i : Int) := by
      push_cast; ring
    rwa [heq] at this
  have hone : 1 + (r - 1 - j) = (r - 1 - j) + 1 := by omega
  conv_lhs => rw [hsplit]
  rw [deltaLT.dueSteps_add, hpre, hone]
  simp [deltaLT.dueSteps, deltaLT.ready_eq_dvd hact hr hrelax, hdvd, hsuf]

theorem deltaLT.dueSteps_blocks {d : deltaLT} (hact : d.deltaL ≠ 0) {r : Nat} (hr : 0 < r)
    (hrelax : d.relaxStep = r) :
    ∀ (k : Nat) (step : Int), d.dueSteps step (k * r) = k := by
  intro k
  induction k with
  | zero =>
    intro step
    simp [deltaLT.dueSteps]
  | succ k ih =>
    intro step
    have hmul : (k + 1) * r = r + k * r := by ring
    rw [hmul, deltaLT.dueSteps_add, deltaLT.dueSteps_block hact hr hrelax, ih]
    omega

/-! ## Reading and writing the configuration -/

/-- C8: `inStep` throws exactly when `wStep` is none of 0, 1, 2, 3, or `wStep` is 2 and
the value the extraction leaves in `dim` is below 0 or above 2; otherwise it returns
normally with the value read stored in `deltaL`, `endL`, `dim`, `relaxStep` for
`wStep` 0, 1, 2, 3. `outStep` throws exactly when `wStep` is none of 0, 1, 2, 3, and
`nWords()` is 4. -/
theorem deltaLT.inStep_throws_iff (d : deltaLT) (stream : IStream) (out : OStream)
    (wStep : Int) :
    ((∃ e, d.inStep stream wStep = .error e) ↔
      ¬ (wStep = 0 ∨ wStep = 1 ∨ wStep = 2 ∨ wStep = 3) ∨
      (wStep = 2 ∧ ((stream.readInt d.dim).1 < 0 ∨ (stream.readInt d.dim).1 > 2))) ∧
    (wStep = 0 → d.inStep stream wStep =
      .ok ({ d with deltaL := (stream.readReal d.deltaL).1 }, (stream.readReal d.deltaL).2)) ∧
    (wStep = 1 → d.inStep stream wStep =
      .ok ({ d with endL := (stream.readReal d.endL).1 }, (stream.readReal d.endL).2)) ∧
    (wStep = 2 → ¬ ((stream.readInt d.dim).1 < 0 ∨ (stream.readInt d.dim).1 > 2) →
      d.inStep stream wStep =
        .ok ({ d with dim := (stream.readInt d.dim).1 }, (stream.readInt d.dim).2)) ∧
    (wStep = 3 → d.inStep stream wStep =
      .ok ({ d with relaxStep := (stream.readInt d.relaxStep).1 },
        (stream.readInt d.relaxStep).2)) ∧
    (∀ (z : Int) (rest : List Lexeme), stream.fail = false →
      skipWs stream.buf = .int z :: rest → INT_MIN ≤ z → z ≤ INT_MAX →
      (stream.readInt d.dim).1 = z) ∧
    ((∃ e, d.outStep out wStep = .error e) ↔
      ¬ (wStep = 0 ∨ wStep = 1 ∨ wStep = 2 ∨ wStep = 3)) ∧
    d.nWords = 4 := by
  refine ⟨?_, ?_, ?_, ?_, ?_, ?_, ?_, rfl⟩
  · unfold deltaLT.inStep
    by_cases h0 : wStep = 0
    · simp [h0]
    by_cases h1 : wStep = 1
    · simp [h1]
    by_cases h2 : wStep = 2
    · by_cases hr : (stream.readInt d.dim).1 < 0 ∨ (stream.readInt d.dim).1 > 2
      · simp [h2, hr]
      · simp only [h2, if_neg hr]
        simp [hr]
    by_cases h3 : wStep = 3
    · simp [h3]
    simp [h0, h1, h2, h3]
  · intro h
    simp [deltaLT.inStep, h]
  · intro h
    simp [deltaLT.inStep, h]
  · intro h hr
    subst h
    simp only [deltaLT.inStep, if_neg hr]
    simp
  · intro h
    simp [deltaLT.inStep, h]
  · intro z rest hfail hbuf hlo hhi
    unfold IStream.readInt
    rw [hfail, hbuf]
    have h1 : ¬ z < INT_MIN := not_lt.mpr hlo
    have h2 : ¬ INT_MAX < z := not_lt.mpr hhi
    simp [clampInt, h1, h2]
  · unfold deltaLT.outStep
    by_cases h0 : wStep = 0
    · simp [h0]
    by_cases h1 : wStep = 1
    · simp [h1]
    by_cases h2 : wStep = 2
    · simp [h2]
    by_cases h3 : wStep = 3
    · simp [h3]
    simp [h0, h1, h2, h3]

/-- C8 on the text `5`: read as the axis it makes `inStep` throw, read as the interval
it is stored. -/
theorem deltaLT.inStep_throws_iff_witness :
    (∃ e, deltaLT.default.inStep (IStream.ofText [.int 5]) 2 = .error e) ∧
    deltaLT.default.inStep (IStream.ofText [.int 5]) 3 = .ok (⟨0, 0, 0, 5⟩, ⟨[], false⟩) := by
  have h := deltaLT.inStep_throws_iff deltaLT.default (IStream.ofText [.int 5]) OStream.fresh
  refine ⟨(h 2).1.mpr (Or.inr ⟨rfl, Or.inr (by decide)⟩), ?_⟩
  rw [(h 3).2.2.2.2.1 rfl]
  rfl

theorem IStream.readInt_int (z old : Int) (rest : List Lexeme)
    (hlo : INT_MIN ≤ z) (hhi : z ≤ INT_MAX) :
    IStream.readInt ⟨.int z :: rest, false⟩ old = (z, ⟨rest, false⟩) := by
  have h1 : ¬ z < INT_MIN := not_lt.mpr hlo
  have h2 : ¬ INT_MAX < z := not_lt.mpr hhi
  simp [IStream.readInt, skipWs, clampInt, fitsInt, h1, h2, hlo, hhi]

theorem deltaLT.newSize_defined {d : deltaLT} {s : threeVector} {cur : ℚ}
    (hcur : s.get d.dim = .ok cur) (hdef : ¬ (d.deltaL < 0 ∧ cur = d.endL)) :
    ∃ n, d.newSize s = .ok n := by
  by_cases h : |cur - d.endL| ≤ d.deltaL
  · obtain ⟨n, hn⟩ := threeVector.set_defined hcur d.endL
    exact ⟨n, by rw [deltaLT.newSize_near hcur h, hn]⟩
  · have hfar : d.deltaL < |cur - d.endL| := lt_of_not_ge h
    rcases lt_trichotomy (cur - d.endL) 0 with hneg | hzero | hgt
    · obtain ⟨n, hn⟩ := threeVector.set_defined hcur (cur + d.deltaL)
      exact ⟨n, by rw [deltaLT.newSize_up hcur hfar hneg, hn]⟩
    · exfalso
      apply hdef
      rw [hzero, abs_zero] at hfar
      exact ⟨hfar, by linarith⟩
    · obtain ⟨n, hn⟩ := threeVector.set_defined hcur (cur - d.deltaL)
      exact ⟨n, by rw [deltaLT.newSize_down hcur hfar hgt, hn]⟩

theorem deltaLT.newSize_step_bound (d : deltaLT) (s : threeVector) (cur : ℚ)
    (hcur : s.get d.dim = .ok cur) (hdef : ¬ (d.deltaL < 0 ∧ cur = d.endL)) :
    ∃ n v, d.newSize s = .ok n ∧ n.get d.dim = .ok v ∧ |v - cur| ≤ |d.deltaL| ∧
      (|cur - d.endL| > d.deltaL → d.deltaL ≥ 0 → |v - cur| = |d.deltaL|) := by
  by_cases h : |cur - d.endL| ≤ d.deltaL
  · obtain ⟨n, hn⟩ := threeVector.set_defined hcur d.endL
    refine ⟨n, d.endL, by rw [deltaLT.newSize_near hcur h, hn],
      threeVector.get_set_same hn, ?_, ?_⟩
    · rw [abs_sub_comm]
      exact le_trans h (le_abs_self _)
    · intro hfar
      exact absurd h (not_le.mpr hfar)
  · have hfar : d.deltaL < |cur - d.endL| := lt_of_not_ge h
    rcases lt_trichotomy (cur - d.endL) 0 with hneg | hzero | hgt
    · obtain ⟨n, hn⟩ := threeVector.set_defined hcur (cur + d.deltaL)
      have hval : |cur + d.deltaL - cur| = |d.deltaL| := by
        congr 1
        ring
      exact ⟨n, cur + d.deltaL, by rw [deltaLT.newSize_up hcur hfar hneg, hn],
        threeVector.get_set_same hn, le_of_eq hval, fun _ _ => hval⟩
    · exfalso
      apply hdef
      rw [hzero, abs_zero] at hfar
      exact ⟨hfar, by linarith⟩
    · obtain ⟨n, hn⟩ := threeVector.set_defined hcur (cur - d.deltaL)
      have hval : |cur - d.deltaL - cur| = |d.deltaL| := by
        rw [← abs_neg d.deltaL]
        congr 1
        ring
      exact ⟨n, cur - d.deltaL, by rw [deltaLT.newSize_down hcur hfar hgt, hn],
        threeVector.get_set_same hn, le_of_eq hval, fun _ _ => hval⟩

/-- C18: an instance with `deltaL == 0`, whatever its `endL`, returns every `oldSize`
unchanged from `newSize` on all three axes; it is inactive and never ready. -/
theorem deltaLT.newSize_inactive (d : deltaLT) (s : threeVector) (cur : ℚ)
    (hzero : d.deltaL = 0) (hcur : s.get d.dim = .ok cur) :
    d.newSize s = .ok s ∧ d.active = false ∧ ∀ step, d.ready step = .ok false := by
  refine ⟨?_, by simp [deltaLT.active, hzero], fun step => by simp [deltaLT.ready, hzero]⟩
  rcases lt_trichotomy (cur - d.endL) 0 with hneg | hz | hgt
  · have hfar : d.deltaL < |cur - d.endL| := by
      rw [hzero]
      exact abs_pos.mpr (ne_of_lt hneg)
    rw [deltaLT.newSize_up hcur hfar hneg, hzero, add_zero]
    exact threeVector.set_self hcur
  · have hnear : |cur - d.endL| ≤ d.deltaL := by rw [hz, hzero, abs_zero]
    have heq : d.endL = cur := by linarith
    rw [deltaLT.newSize_near hcur hnear, heq]
    exact threeVector.set_self hcur
  · have hfar : d.deltaL < |cur - d.endL| := by
      rw [hzero]
      exact abs_pos.mpr (ne_of_gt hgt)
    rw [deltaLT.newSize_down hcur hfar hgt, hzero, sub_zero]
    exact threeVector.set_self hcur

/-- C18 at `deltaL = 0, endL = 50, dim = 2` and the box `(25, 55, 100)`. -/
theorem deltaLT.newSize_inactive_witness :
    (0 : ℚ) = 0 ∧ (threeVector.mk 25 55 100).get 2 = .ok 100 ∧
    (deltaLT.mk 0 50 2 10).newSize ⟨25, 55, 100⟩ = .ok ⟨25, 55, 100⟩ ∧
    (deltaLT.mk 0 50 2 10).active = false ∧
    ∀ step, (deltaLT.mk 0 50 2 10).ready step = .ok false :=
  ⟨rfl, rfl, deltaLT.newSize_inactive (deltaLT.mk 0 50 2 10) ⟨25, 55, 100⟩ 100 rfl rfl⟩

/-- C19: `ready(step)` takes the remainder by zero exactly when `deltaL != 0` and
`relaxStep == 0`, a value `inStep` stores without a throw; the division `diff/|diff|`
of `newSize` has a zero divisor exactly when `deltaL < 0` and `oldSize[dim] == endL`,
so for `deltaL >= 0` `newSize` yields a size, and the direction it divides out, where
the divisor is not zero, is exactly 1 or -1. -/
theorem deltaLT.division_guards (d : deltaLT) (step : Int) (s : threeVector) (cur : ℚ)
    (hcur : s.get d.dim = .ok cur) :
    (d.ready step = .error .divByZero ↔ d.deltaL ≠ 0 ∧ d.relaxStep = 0) ∧
    (∀ rest, d.inStep ⟨.int 0 :: rest, false⟩ 3 =
      .ok ({ d with relaxStep := 0 }, ⟨rest, false⟩)) ∧
    (d.newSize s = .error .divByZero ↔ d.deltaL < 0 ∧ cur = d.endL) ∧
    (0 ≤ d.deltaL → ∃ n, d.newSize s = .ok n) ∧
    (cur ≠ d.endL →
      divide (cur - d.endL) |cur - d.endL| = .ok 1 ∨
      divide (cur - d.endL) |cur - d.endL| = .ok (-1)) := by
  refine ⟨?_, ?_, ?_, ?_, ?_⟩
  · unfold deltaLT.ready rem
    by_cases hact : d.deltaL ≠ 0
    · by_cases hr : d.relaxStep = 0
      · simp [hact, hr, bind, Except.bind]
      · by_cases hov : step = INT_MIN ∧ d.relaxStep = -1
        · simp [hact, hr, hov, bind, Except.bind]
        · simp [hact, hr, hov, bind, Except.bind, pure, Except.pure]
    · simp [hact]
  · intro rest
    simp [deltaLT.inStep, IStream.readInt_int 0 _ _ (by decide) (by decide)]
  · constructor
    · intro herr
      by_contra hnot
      obtain ⟨n, hn⟩ := deltaLT.newSize_defined hcur hnot
      rw [hn] at herr
      cases herr
    · rintro ⟨hneg, heq⟩
      subst heq
      exact deltaLT.newSize_fault hcur hneg
  · intro hnonneg
    exact deltaLT.newSize_defined hcur (fun h => absurd hnonneg (not_le.mpr h.1))
  · intro hne
    have hdiff : cur - d.endL ≠ 0 := sub_ne_zero.mpr hne
    rcases lt_or_gt_of_ne hdiff with hneg | hpos
    · right
      have hne2 : -(cur - d.endL) ≠ 0 := neg_ne_zero.mpr hdiff
      simp only [divide, abs_of_neg hneg, if_neg hne2]
      rw [div_neg, div_self hdiff]
    · left
      simp only [divide, abs_of_pos hpos, if_neg hdiff]
      rw [div_self hdiff]

/-- C19 at `deltaL = 0.01, endL = 50, dim = 2, relaxStep = 0` and the box
`(25, 55, 100)`. -/
theorem deltaLT.division_guards_witness :
    (threeVector.mk 25 55 100).get 2 = .ok 100 ∧
    (deltaLT.mk (1/100) 50 2 0).ready 7 = .error .divByZero ∧
    ∃ n, (deltaLT.mk (1/100) 50 2 0).newSize ⟨25, 55, 100⟩ = .ok n :=
  ⟨rfl,
    (deltaLT.division_guards (deltaLT.mk (1/100) 50 2 0) 7 ⟨25, 55, 100⟩ 100 rfl).1.mpr
      ⟨by norm_num, rfl⟩,
    (deltaLT.division_guards (deltaLT.mk (1/100) 50 2 0) 7 ⟨25, 55, 100⟩ 100 rfl).2.2.2.1
      (by norm_num)⟩

theorem deltaLT.inStep_keeps_axis {d next : deltaLT} {stream rest : IStream} {wStep : Int}
    (hdim : 0 ≤ d.dim ∧ d.dim ≤ 2) (h : d.inStep stream wStep = .ok (next, rest)) :
    0 ≤ next.dim ∧ next.dim ≤ 2 := by
  unfold deltaLT.inStep at h
  by_cases h0 : wStep = 0
  · simp [h0] at h
    rw [← h.1]
    exact hdim
  by_cases h1 : wStep = 1
  · simp [h1] at h
    rw [← h.1]
    exact hdim
  by_cases h2 : wStep = 2
  · by_cases hr : (stream.readInt d.dim).1 < 0 ∨ (stream.readInt d.dim).1 > 2
    · simp [h2, hr] at h
    · simp only [h2, if_neg hr] at h
      simp at h
      rw [← h.1]
      simp only []
      omega
  by_cases h3 : wStep = 3
  · simp [h3] at h
    rw [← h.1]
    exact hdim
  simp [h0, h1, h2, h3] at h

theorem deltaLT.loadCalls_keeps_axis :
    ∀ (calls : List (IStream × Int)) (d loaded : deltaLT), 0 ≤ d.dim ∧ d.dim ≤ 2 →
      d.loadCalls calls = some loaded → 0 ≤ loaded.dim ∧ loaded.dim ≤ 2 := by
  intro calls
  induction calls with
  | nil =>
    intro d loaded hdim h
    simp only [deltaLT.loadCalls, Option.some.injEq] at h
    subst h
    exact hdim
  | cons call rest ih =>
    intro d loaded hdim h
    obtain ⟨stream, wStep⟩ := call
    simp only [deltaLT.loadCalls] at h
    cases hstep : d.inStep stream wStep with
    | error e => simp [hstep] at h
    | ok r =>
      obtain ⟨next, st⟩ := r
      rw [hstep] at h
      exact ih next loaded (deltaLT.inStep_keeps_axis hdim hstep) h

theorem threeVector.get_of_valid (v : threeVector) {i : Int} (h : 0 ≤ i ∧ i ≤ 2) :
    ∃ c, v.get i = .ok c := by
  have hi : i = 0 ∨ i = 1 ∨ i = 2 := by omega
  unfold threeVector.get
  rcases hi with h | h | h <;> simp [h]

/-- C17: an instance obtained from the default constructor by any sequence of `inStep`
calls that all return normally has `0 <= dim <= 2`, so `oldSize.s[dim]` is one of the
three components and neither `newSize` nor `scaleFactor` indexes outside them. -/
theorem deltaLT.loaded_axis_valid (calls : List (IStream × Int)) (loaded : deltaLT)
    (s : threeVector) (h : deltaLT.default.loadCalls calls = some loaded) :
    (0 ≤ loaded.dim ∧ loaded.dim ≤ 2) ∧ (∃ c, s.get loaded.dim = .ok c) ∧
      loaded.newSize s ≠ .error .outOfBounds ∧
      loaded.scaleFactor s ≠ .error .outOfBounds := by
  have hdim : 0 ≤ loaded.dim ∧ loaded.dim ≤ 2 :=
    deltaLT.loadCalls_keeps_axis calls deltaLT.default loaded (by decide) h
  obtain ⟨c, hc⟩ := threeVector.get_of_valid s hdim
  have hnew : loaded.newSize s ≠ .error .outOfBounds := by
    by_cases hdef : loaded.deltaL < 0 ∧ c = loaded.endL
    · obtain ⟨hneg, heq⟩ := hdef
      subst heq
      rw [deltaLT.newSize_fault hc hneg]
      simp
    · obtain ⟨n, hn⟩ := deltaLT.newSize_defined hc hdef
      rw [hn]
      simp
  refine ⟨hdim, ⟨c, hc⟩, hnew, ?_⟩
  unfold deltaLT.scaleFactor
  cases hn : loaded.newSize s with
  | error e =>
    rw [hn] at hnew
    simpa [bind, Except.bind] using hnew
  | ok n =>
    obtain ⟨v, hv⟩ := threeVector.get_of_valid n hdim
    obtain ⟨one, hone⟩ := threeVector.get_of_valid (threeVector.splat 1) hdim
    by_cases hzero : c = 0
    · simp [bind, Except.bind, hv, hc, divide, hzero]
    · obtain ⟨sc, hsc⟩ := threeVector.set_defined hone (1 + (v - c) / c)
      simp [bind, Except.bind, hv, hc, divide, hzero, hsc]

/-- C17 on the text `2` read as the axis and `0.01` read as the step length. -/
theorem deltaLT.loaded_axis_valid_witness :
    deltaLT.default.loadCalls
        [(IStream.ofText [.int 2], 2), (IStream.ofText [.real (1/100)], 0)] =
      some ⟨1/100, 0, 2, 0⟩ ∧
    ((0 : Int) ≤ 2 ∧ (2 : Int) ≤ 2) ∧ (∃ c, (threeVector.mk 25 55 100).get 2 = .ok c) ∧
    (deltaLT.mk (1/100) 0 2 0).newSize ⟨25, 55, 100⟩ ≠ .error .outOfBounds ∧
    (deltaLT.mk (1/100) 0 2 0).scaleFactor ⟨25, 55, 100⟩ ≠ .error .outOfBounds := by
  have hload : deltaLT.default.loadCalls
      [(IStream.ofText [.int 2], 2), (IStream.ofText [.real (1/100)], 0)] =
      some ⟨1/100, 0, 2, 0⟩ := by
    simp [deltaLT.loadCalls, deltaLT.inStep, deltaLT.default, IStream.ofText,
      IStream.readInt, IStream.readReal, skipWs, clampInt, fitsInt, INT_MIN, INT_MAX]
  exact ⟨hload, deltaLT.loaded_axis_valid _ _ ⟨25, 55, 100⟩ hload⟩

/-! ## Type-pair indexing and the default fill -/

theorem pairIndex_lt {n i j : Nat} (hi : i < n) (hj : j < n) : pairIndex n i j < n * n := by
  unfold pairIndex
  have h1 : j * n + n ≤ n * n := by
    have : (j + 1) * n ≤ n * n := Nat.mul_le_mul_right n hj
    linarith [this, Nat.succ_mul j n]
  omega

theorem pairIndex_inj {n i j i' j' : Nat} (hi : i < n) (hi' : i' < n)
    (h : pairIndex n i j = pairIndex n i' j') : i = i' ∧ j = j' := by
  unfold pairIndex at h
  have hn : 0 < n := by omega
  have hmod := congrArg (· % n) h
  have hdiv := congrArg (· / n) h
  simp only [Nat.add_mul_mod_self_right, Nat.mod_eq_of_lt hi, Nat.mod_eq_of_lt hi'] at hmod
  simp only [Nat.add_mul_div_right _ _ hn, Nat.div_eq_of_lt hi, Nat.div_eq_of_lt hi',
    Nat.zero_add] at hdiv
  exact ⟨hmod, hdiv⟩

theorem pairIndex_surj {n k : Nat} (hk : k < n * n) :
    ∃ i j, i < n ∧ j < n ∧ pairIndex n i j = k := by
  have hn : 0 < n := by
    rcases Nat.eq_zero_or_pos n with h | h
    · subst h
      simp at hk
    · exact h
  exact ⟨k % n, k / n, Nat.mod_lt k hn, Nat.div_lt_of_lt_mul hk, by
    unfold pairIndex
    exact Nat.mod_add_div' k n⟩

theorem mem_loopPairs {n : Nat} {ij : Nat × Nat} :
    ij ∈ loopPairs n ↔ ij.1 < n ∧ ij.2 < n := by
  obtain ⟨i, j⟩ := ij
  have h : loopPairs n = (List.range n ×ˢ List.range n) := rfl
  rw [h, List.mem_product, List.mem_range, List.mem_range]

theorem nodup_loopPairs (n : Nat) : (loopPairs n).Nodup := by
  have h : loopPairs n = (List.range n ×ˢ List.range n) := rfl
  rw [h]
  exact List.Nodup.product (List.nodup_range n) (List.nodup_range n)

theorem fillBody_fold (n : Nat) :
    ∀ (L : List (Nat × Nat)) (u w : List ℚ),
      (∀ ij ∈ L, pairIndex n ij.1 ij.2 < u.length) → u.length = w.length →
      L.foldlM (fillBody n) ⟨u, w⟩ =
        .ok ⟨L.foldl (fun v ij => v.set (pairIndex n ij.1 ij.2) 0) u,
          L.foldl (fun v ij => v.set (pairIndex n ij.1 ij.2) 100) w⟩ := by
  intro L
  induction L with
  | nil =>
    intro u w _ _
    rfl
  | cons ij rest ih =>
    intro u w hlt hlen
    have hk : pairIndex n ij.1 ij.2 < u.length := hlt ij (List.mem_cons_self _ _)
    have hk' : pairIndex n ij.1 ij.2 < w.length := hlen ▸ hk
    have hbody : fillBody n ⟨u, w⟩ ij =
        .ok ⟨u.set (pairIndex n ij.1 ij.2) 0, w.set (pairIndex n ij.1 ij.2) 100⟩ := by
      simp [fillBody, store, hk, hk', bind, Except.bind, pure, Except.pure]
    rw [List.foldlM_cons, hbody]
    have hrec := ih (u.set (pairIndex n ij.1 ij.2) 0) (w.set (pairIndex n ij.1 ij.2) 100)
      (by
        intro p hp
        rw [List.length_set]
        exact hlt p (List.mem_cons_of_mem _ hp))
      (by rw [List.length_set, List.length_set, hlen])
    simpa [bind, Except.bind] using hrec

theorem foldl_set_getElem? (g : Nat × Nat → Nat) (c : ℚ) :
    ∀ (L : List (Nat × Nat)) (u : List ℚ) (k : Nat),
      (L.foldl (fun v ij => v.set (g ij) c) u)[k]? =
        if k < u.length ∧ ∃ ij ∈ L, g ij = k then some c else u[k]? := by
  intro L
  induction L with
  | nil =>
    intro u k
    simp
  | cons p rest ih =>
    intro u k
    rw [List.foldl_cons, ih, List.length_set]
    by_cases hk : k < u.length
    · by_cases hrest : ∃ ij ∈ rest, g ij = k
      · have hall : ∃ ij ∈ p :: rest, g ij = k := by
          obtain ⟨ij, hij, hg⟩ := hrest
          exact ⟨ij, List.mem_cons_of_mem _ hij, hg⟩
        simp [hk, hrest, hall]
      · by_cases hp : g p = k
        · have hall : ∃ ij ∈ p :: rest, g ij = k := ⟨p, List.mem_cons_self _ _, hp⟩
          rw [if_neg (fun h => hrest h.2), if_pos ⟨hk, hall⟩]
          subst hp
          simp [hk]
        · have hall : ¬ ∃ ij ∈ p :: rest, g ij = k := by
            rintro ⟨ij, hij, hg⟩
            rcases List.mem_cons.mp hij with h | h
            · exact hp (h ▸ hg)
            · exact hrest ⟨ij, h, hg⟩
          rw [if_neg (fun h => hrest h.2), if_neg (fun h => hall h.2),
            List.getElem?_set_ne hp]
    · have hnone : u[k]? = none := List.getElem?_eq_none (by omega)
      rw [if_neg (fun h => hk h.1), if_neg (fun h => hk h.1), hnone]
      exact List.getElem?_eq_none (by rw [List.length_set]; omega)

theorem fillDefault_replicate (n : Nat) (a b : ℚ) :
    fillDefault n ⟨List.replicate (n * n) a, List.replicate (n * n) b⟩ =
      .ok ⟨List.replicate (n * n) 0, List.replicate (n * n) 100⟩ := by
  unfold fillDefault
  rw [fillBody_fold n (loopPairs n) _ _
    (by
      intro ij hij
      rw [List.length_replicate]
      exact pairIndex_lt (mem_loopPairs.mp hij).1 (mem_loopPairs.mp hij).2)
    (by simp)]
  have hfull : ∀ (c x : ℚ),
      (loopPairs n).foldl (fun v ij => v.set (pairIndex n ij.1 ij.2) c)
        (List.replicate (n * n) x) = List.replicate (n * n) c := by
    intro c x
    apply List.ext_getElem?
    intro k
    rw [foldl_set_getElem? (fun ij => pairIndex n ij.1 ij.2) c, List.length_replicate]
    by_cases hk : k < n * n
    · obtain ⟨i, j, hi, hj, hij⟩ := pairIndex_surj hk
      have hex : ∃ ij ∈ loopPairs n, pairIndex n ij.1 ij.2 = k :=
        ⟨(i, j), mem_loopPairs.mpr ⟨hi, hj⟩, hij⟩
      rw [if_pos ⟨hk, hex⟩, List.getElem?_replicate_of_lt hk]
    · rw [if_neg (fun h => hk h.1), List.getElem?_replicate, List.getElem?_replicate,
        if_neg hk, if_neg hk]
  rw [hfull 0 a, hfull 100 b]

/-- C11: for every `nTypes` the map `(i, j) -> i + j*nTypes` takes the pairs of types
below `nTypes` one-to-one onto the indices below `nTypes*nTypes`: every index is in
range, equal indices come from equal pairs, `(i, j)` and `(j, i)` differ when `i != j`,
every index is reached; the fill loop computes every index exactly once, and it leaves
`Umin` all 0 and `Umax` all 100. -/
theorem pairIndex_bijection (n : Nat) :
    (∀ i j, i < n → j < n → pairIndex n i j < n * n) ∧
    (∀ i j i' j', i < n → j < n → i' < n → j' < n →
      pairIndex n i j = pairIndex n i' j' → i = i' ∧ j = j') ∧
    (∀ i j, i < n → j < n → i ≠ j → pairIndex n i j ≠ pairIndex n j i) ∧
    (∀ k, k < n * n → ∃ i j, i < n ∧ j < n ∧ pairIndex n i j = k) ∧
    ((loopPairs n).map fun ij => pairIndex n ij.1 ij.2).length = n * n ∧
    (∀ k, k < n * n →
      ((loopPairs n).map fun ij => pairIndex n ij.1 ij.2).count k = 1) ∧
    fillDefault n ⟨List.replicate (n * n) 0, List.replicate (n * n) 0⟩ =
      .ok ⟨List.replicate (n * n) 0, List.replicate (n * n) 100⟩ := by
  refine ⟨fun i j hi hj => pairIndex_lt hi hj,
    fun i j i' j' hi _ hi' _ h => pairIndex_inj hi hi' h, ?_,
    fun k hk => pairIndex_surj hk, ?_, ?_, fillDefault_replicate n 0 0⟩
  · intro i j hi hj hne h
    exact hne (pairIndex_inj hi hj h).1
  · have h : loopPairs n = (List.range n ×ˢ List.range n) := rfl
    rw [List.length_map, h, List.length_product, List.length_range]
  · intro k hk
    have hnodup : ((loopPairs n).map fun ij => pairIndex n ij.1 ij.2).Nodup := by
      apply List.Nodup.map_on _ (nodup_loopPairs n)
      intro p hp q hq hpq
      have := pairIndex_inj (mem_loopPairs.mp hp).1 (mem_loopPairs.mp hq).1 hpq
      exact Prod.ext this.1 this.2
    obtain ⟨i, j, hi, hj, hij⟩ := pairIndex_surj hk
    apply List.count_eq_one_of_mem hnodup
    exact List.mem_map.mpr ⟨(i, j), mem_loopPairs.mpr ⟨hi, hj⟩, hij⟩

/-! ## The energy bounds built by `main` -/

theorem store_ok {v : List ℚ} {k : Nat} (a : ℚ) (h : k < v.length) :
    store v k a = .ok (v.set k a) := by
  simp [store, h]

theorem fetch_set {v : List ℚ} {k : Nat} (a : ℚ) (h : k < v.length) :
    fetch (v.set k a) k = .ok a := by
  simp [fetch, h]

theorem energyBounds_six (t : TypeIds) (x : ℚ) (hT : t.TAIL < 6) (hH : t.HEAD < 6)
    (hA : t.ANCHOR < 6) (hM : t.MONOMER < 6) :
    energyBounds 6 t x = .ok
      ⟨((((((((List.replicate 36 (0 : ℚ)).set (pairIndex 6 t.TAIL t.TAIL) (-6)).set
          (pairIndex 6 t.MONOMER t.MONOMER) 0).set (pairIndex 6 t.HEAD t.MONOMER) 0).set
          (pairIndex 6 t.MONOMER t.HEAD) 0).set (pairIndex 6 t.TAIL t.MONOMER) 0).set
          (pairIndex 6 t.MONOMER t.TAIL) 0).set (pairIndex 6 t.HEAD t.ANCHOR) x).set
          (pairIndex 6 t.ANCHOR t.HEAD) x,
        ((((((((List.replicate 36 (100 : ℚ)).set (pairIndex 6 t.TAIL t.TAIL) 200).set
          (pairIndex 6 t.MONOMER t.MONOMER) 100).set (pairIndex 6 t.HEAD t.MONOMER) 100).set
          (pairIndex 6 t.MONOMER t.HEAD) 100).set (pairIndex 6 t.TAIL t.MONOMER) 100).set
          (pairIndex 6 t.MONOMER t.TAIL) 100).set (pairIndex 6 t.HEAD t.ANCHOR) 100).set
          (pairIndex 6 t.ANCHOR t.HEAD) 100⟩ := by
  have hTT : pairIndex 6 t.TAIL t.TAIL < 36 := pairIndex_lt hT hT
  have hMM : pairIndex 6 t.MONOMER t.MONOMER < 36 := pairIndex_lt hM hM
  have hHM : pairIndex 6 t.HEAD t.MONOMER < 36 := pairIndex_lt hH hM
  have hMH : pairIndex 6 t.MONOMER t.HEAD < 36 := pairIndex_lt hM hH
  have hTM : pairIndex 6 t.TAIL t.MONOMER < 36 := pairIndex_lt hT hM
  have hMT : pairIndex 6 t.MONOMER t.TAIL < 36 := pairIndex_lt hM hT
  have hHA : pairIndex 6 t.HEAD t.ANCHOR < 36 := pairIndex_lt hH hA
  have hAH : pairIndex 6 t.ANCHOR t.HEAD < 36 := pairIndex_lt hA hH
  have hfill := fillDefault_replicate 6 0 0
  norm_num at hfill
  unfold energyBounds
  norm_num
  rw [hfill]
  simp only [bind, Except.bind, pure, Except.pure]
  rw [store_ok _ (by simpa using hTT)]
  simp only []
  rw [store_ok _ (by simpa using hTT)]
  simp only []
  rw [store_ok _ (by simpa using hMM)]
  simp only []
  rw [store_ok _ (by simpa using hMM)]
  simp only []
  rw [store_ok _ (by simpa using hHM)]
  simp only []
  rw [store_ok _ (by simpa using hHM)]
  simp only []
  rw [fetch_set _ (by simpa using hHM)]
  simp only []
  rw [store_ok _ (by simpa using hMH)]
  simp only []
  rw [fetch_set _ (by simpa using hHM)]
  simp only []
  rw [store_ok _ (by simpa using hMH)]
  simp only []
  rw [store_ok _ (by simpa using hTM)]
  simp only []
  rw [store_ok _ (by simpa using hTM)]
  simp only []
  rw [store_ok _ (by simpa using hMT)]
  simp only []
  rw [store_ok _ (by simpa using hMT)]
  simp only []
  rw [store_ok _ (by simpa using hHA)]
  simp only []
  rw [store_ok _ (by simpa using hHA)]
  simp only []
  rw [fetch_set _ (by simpa using hHA)]
  simp only []
  rw [store_ok _ (by simpa using hAH)]
  simp only []
  rw [fetch_set _ (by simpa using hHA)]
  simp only []
  rw [store_ok _ (by simpa using hAH)]
  rfl

theorem mirrored_set_diag {v : List ℚ} (hv : mirrored 6 v) {a : Nat} (ha : a < 6) (c : ℚ) :
    mirrored 6 (v.set (pairIndex 6 a a) c) := by
  intro i j hi hj
  by_cases h : pairIndex 6 a a = pairIndex 6 i j
  · obtain ⟨h1, h2⟩ := pairIndex_inj ha hi h
    subst h1
    subst h2
    rfl
  · have h' : pairIndex 6 a a ≠ pairIndex 6 j i := by
      intro heq
      obtain ⟨h1, h2⟩ := pairIndex_inj ha hj heq
      apply h
      rw [← h1, ← h2]
    rw [List.getElem?_set_ne h, List.getElem?_set_ne h']
    exact hv i j hi hj

theorem mirrored_set_pair {v : List ℚ} (hv : mirrored 6 v) {a b : Nat} (ha : a < 6)
    (hb : b < 6) (c : ℚ) :
    mirrored 6 ((v.set (pairIndex 6 a b) c).set (pairIndex 6 b a) c) := by
  intro i j hi hj
  have hsym := hv i j hi hj
  have hab := hv a b ha hb
  rw [List.getElem?_set, List.getElem?_set, List.getElem?_set, List.getElem?_set,
    List.length_set]
  unfold pairIndex at *
  by_cases h1 : b + a * 6 = i + j * 6
  · have hi' : i = b := by omega
    have hj' : j = a := by omega
    subst hi'
    subst hj'
    by_cases hd : i + j * 6 = j + i * 6
    · simp [hd]
    · have hd' : ¬ j + i * 6 = i + j * 6 := fun h => hd h.symm
      simp only [if_true, if_neg hd', if_pos rfl]
      have hlen : (i + j * 6 < v.length) ↔ (j + i * 6 < v.length) := by
        constructor
        · intro h
          by_contra hc
          have h1 : v[j + i * 6]? = none := List.getElem?_eq_none (by omega)
          have h2 : v[i + j * 6]? ≠ none := by
            rw [List.getElem?_eq_getElem h]
            simp
          exact h2 (hab ▸ h1)
        · intro h
          by_contra hc
          have h1 : v[i + j * 6]? = none := List.getElem?_eq_none (by omega)
          have h2 : v[j + i * 6]? ≠ none := by
            rw [List.getElem?_eq_getElem h]
            simp
          exact h2 (hab ▸ h1)
      by_cases hl : i + j * 6 < v.length
      · simp [hl, hlen.mp hl]
      · have hl2 : ¬ j + i * 6 < v.length := fun h => hl (hlen.mpr h)
        simp [hl, hl2]
  · by_cases h2 : a + b * 6 = i + j * 6
    · have hi' : i = a := by omega
      have hj' : j = b := by omega
      subst hi'
      subst hj'
      have hd : ¬ i + j * 6 = j + i * 6 := fun h => h1 h.symm
      have hlen : (i + j * 6 < v.length) ↔ (j + i * 6 < v.length) := by
        constructor
        · intro h
          by_contra hc
          have h1 : v[j + i * 6]? = none := List.getElem?_eq_none (by omega)
          have h2 : v[i + j * 6]? ≠ none := by
            rw [List.getElem?_eq_getElem h]
            simp
          exact h2 (hab ▸ h1)
        · intro h
          by_contra hc
          have h1 : v[i + j * 6]? = none := List.getElem?_eq_none (by omega)
          have h2 : v[j + i * 6]? ≠ none := by
            rw [List.getElem?_eq_getElem h]
            simp
          exact h2 (hab ▸ h1)
      simp only [if_neg h1, if_pos rfl, if_true]
      by_cases hl : i + j * 6 < v.length
      · simp [hl, hlen.mp hl]
      · have hl2 : ¬ j + i * 6 < v.length := fun h => hl (hlen.mpr h)
        simp [hl, hl2]
    · have h3 : ¬ b + a * 6 = j + i * 6 := by omega
      have h4 : ¬ a + b * 6 = j + i * 6 := by omega
      simp only [if_neg h1, if_neg h2, if_neg h3, if_neg h4]
      exact hsym

theorem mirrored_replicate (c : ℚ) : mirrored 6 (List.replicate 36 c) := by
  intro i j hi hj
  rw [List.getElem?_replicate_of_lt (pairIndex_lt hi hj),
    List.getElem?_replicate_of_lt (pairIndex_lt hj hi)]

theorem main_ok {atoi : String → Int} {atof : String → ℚ} {t : TypeIds}
    {argv : List String} {setup : Setup} (h : main atoi atof t argv = .ok setup) :
    ∃ a1 a2 a3 a4 a5, argv[1]? = some a1 ∧ argv[2]? = some a2 ∧ argv[3]? = some a3 ∧
      argv[4]? = some a4 ∧ argv[5]? = some a5 ∧
      energyBounds 6 t (atof a3) = .ok setup.bounds ∧
      setup = ⟨a1, atoi a3, atof a4, atof a5, atoi a2, setup.bounds⟩ := by
  unfold main at h
  by_cases hlen : argv.length < 4
  · cases h0 : arg argv 0 <;> simp [hlen, h0, bind, Except.bind, throw, throwThe,
      MonadExceptOf.throw] at h
  · cases e1 : argv[1]? with
    | none =>
      simp [hlen, arg, e1, bind, Except.bind, pure, Except.pure] at h
    | some a1 =>
      cases e3 : argv[3]? with
      | none =>
        simp [hlen, arg, e1, e3, bind, Except.bind, pure, Except.pure] at h
      | some a3 =>
        cases e4 : argv[4]? with
        | none =>
          simp [hlen, arg, e1, e3, e4, bind, Except.bind, pure, Except.pure] at h
        | some a4 =>
          cases e5 : argv[5]? with
          | none =>
            simp [hlen, arg, e1, e3, e4, e5, bind, Except.bind, pure, Except.pure] at h
          | some a5 =>
            cases e2 : argv[2]? with
            | none =>
              simp [hlen, arg, e1, e3, e4, e5, e2, bind, Except.bind, pure,
                Except.pure] at h
            | some a2 =>
              cases hb : energyBounds 6 t (atof a3) with
              | error f =>
                simp [hlen, arg, e1, e3, e4, e5, e2, hb, bind, Except.bind, pure,
                  Except.pure, throw, throwThe, MonadExceptOf.throw] at h
              | ok b =>
                simp [hlen, arg, e1, e3, e4, e5, e2, hb, bind, Except.bind, pure,
                  Except.pure] at h
                subst h
                exact ⟨a1, a2, a3, a4, a5, rfl, rfl, rfl, rfl, rfl, hb, rfl⟩

theorem main_six_args (atoi : String → Int) (atof : String → ℚ) (t : TypeIds)
    (a0 a1 a2 a3 a4 a5 : String) (more : List String) (b : EnergyBounds)
    (hb : energyBounds 6 t (atof a3) = .ok b) :
    main atoi atof t (a0 :: a1 :: a2 :: a3 :: a4 :: a5 :: more) =
      .ok ⟨a1, atoi a3, atof a4, atof a5, atoi a2, b⟩ := by
  have hlen : ¬ (a0 :: a1 :: a2 :: a3 :: a4 :: a5 :: more).length < 4 := by
    simp only [List.length_cons]
    omega
  unfold main
  simp [hlen, arg, hb, bind, Except.bind, pure, Except.pure]

/-- C12: in the vectors `main` passes to the table builder, whatever the energy-bound
argument and whatever the values below 6 of the four type macros, the slots of
`(i, j)` and `(j, i)` agree in `Umin` and in `Umax` for all types `i`, `j` below 6. -/
theorem main_bounds_mirrored (atoi : String → Int) (atof : String → ℚ) (t : TypeIds)
    (argv : List String) (setup : Setup)
    (hT : t.TAIL < 6) (hH : t.HEAD < 6) (hA : t.ANCHOR < 6) (hM : t.MONOMER < 6)
    (hmain : main atoi atof t argv = .ok setup) :
    setup.bounds.Umin.length = 36 ∧ setup.bounds.Umax.length = 36 ∧
    ∀ i j, i < 6 → j < 6 →
      setup.bounds.Umin[i + j * 6]? = setup.bounds.Umin[j + i * 6]? ∧
      setup.bounds.Umax[i + j * 6]? = setup.bounds.Umax[j + i * 6]? := by
  obtain ⟨_, _, a3, _, _, _, _, h3, _, _, hb, _⟩ := main_ok hmain
  rw [energyBounds_six t (atof a3) hT hH hA hM] at hb
  simp only [Except.ok.injEq] at hb
  have humin : mirrored 6 setup.bounds.Umin := by
    rw [← hb]
    exact mirrored_set_pair (mirrored_set_pair (mirrored_set_pair
      (mirrored_set_diag (mirrored_set_diag (mirrored_replicate 0) hT _) hM _) hH hM _)
      hT hM _) hH hA _
  have humax : mirrored 6 setup.bounds.Umax := by
    rw [← hb]
    exact mirrored_set_pair (mirrored_set_pair (mirrored_set_pair
      (mirrored_set_diag (mirrored_set_diag (mirrored_replicate 100) hT _) hM _) hH hM _)
      hT hM _) hH hA _
  refine ⟨by rw [← hb]; simp, by rw [← hb]; simp, ?_⟩
  intro i j hi hj
  exact ⟨humin i j hi hj, humax i j hi hj⟩


/-- C12 on the command line `setMDConstants vesicle 7 -5 1000 3.1` with the type
macros 0, 1, 2, 3. -/
theorem main_bounds_mirrored_witness :
    ∃ setup, main (fun _ => 0) (fun _ => -5) ⟨0, 1, 2, 3⟩
        ["setMDConstants", "vesicle", "7", "-5", "1000", "3.1"] = .ok setup ∧
      setup.bounds.Umin.length = 36 ∧ setup.bounds.Umax.length = 36 ∧
      ∀ i j, i < 6 → j < 6 →
        setup.bounds.Umin[i + j * 6]? = setup.bounds.Umin[j + i * 6]? ∧
        setup.bounds.Umax[i + j * 6]? = setup.bounds.Umax[j + i * 6]? := by
  have hb := energyBounds_six ⟨0, 1, 2, 3⟩ (-5) (by decide) (by decide) (by decide)
    (by decide)
  have hmain := main_six_args (fun _ => 0) (fun _ => -5) ⟨0, 1, 2, 3⟩
    "setMDConstants" "vesicle" "7" "-5" "1000" "3.1" [] _ hb
  exact ⟨_, hmain, main_bounds_mirrored _ _ _ _ _ (by decide) (by decide) (by decide)
    (by decide) hmain⟩

theorem set_keeps {v : List ℚ} {c a : ℚ} {k k' : Nat} (hv : v[k']? = some c)
    (h : k = k' → a = c) : (v.set k a)[k']? = some c := by
  by_cases hk : k = k'
  · subst hk
    have hlt : k < v.length := by
      by_contra hc
      rw [List.getElem?_eq_none (by omega)] at hv
      cases hv
    rw [List.getElem?_set_self hlt, h rfl]
  · rw [List.getElem?_set_ne hk]
    exact hv

theorem set_hit {v : List ℚ} {a : ℚ} {k : Nat} (hk : k < v.length) :
    (v.set k a)[k]? = some a :=
  List.getElem?_set_self hk

theorem energyBounds_entries (t : TypeIds) (x : ℚ) (hT : t.TAIL < 6) (hH : t.HEAD < 6)
    (hA : t.ANCHOR < 6) (hM : t.MONOMER < 6) (hMT : t.MONOMER ≠ t.TAIL)
    (hHA : ¬ (t.HEAD = t.TAIL ∧ t.ANCHOR = t.TAIL)) :
    ∃ b, energyBounds 6 t x = .ok b ∧
      b.Umin[t.TAIL + t.TAIL * 6]? = some (-6) ∧ b.Umax[t.TAIL + t.TAIL * 6]? = some 200 ∧
      b.Umin[t.HEAD + t.ANCHOR * 6]? = some x ∧ b.Umax[t.HEAD + t.ANCHOR * 6]? = some 100 ∧
      b.Umin[t.ANCHOR + t.HEAD * 6]? = some x ∧ b.Umax[t.ANCHOR + t.HEAD * 6]? = some 100 ∧
      ∀ i j, i < 6 → j < 6 → ¬ (i = t.TAIL ∧ j = t.TAIL) →
        ¬ (i = t.HEAD ∧ j = t.ANCHOR) → ¬ (i = t.ANCHOR ∧ j = t.HEAD) →
        b.Umin[i + j * 6]? = some 0 ∧ b.Umax[i + j * 6]? = some 100 := by
  refine ⟨_, energyBounds_six t x hT hH hA hM, ?_⟩
  have hbase : ∀ (c : ℚ) (k : Nat), k < 36 → (List.replicate 36 c)[k]? = some c :=
    fun c k hk => List.getElem?_replicate_of_lt hk
  simp only [pairIndex]
  refine ⟨?_, ?_, ?_, ?_, ?_, ?_, ?_⟩
  · refine set_keeps (set_keeps (set_keeps (set_keeps (set_keeps (set_keeps (set_keeps
      (set_hit (by simp; omega)) ?_) ?_) ?_) ?_) ?_) ?_) ?_ <;>
      intro h <;> exfalso <;> omega
  · refine set_keeps (set_keeps (set_keeps (set_keeps (set_keeps (set_keeps (set_keeps
      (set_hit (by simp; omega)) ?_) ?_) ?_) ?_) ?_) ?_) ?_ <;>
      intro h <;> exfalso <;> omega
  · exact set_keeps (set_hit (by simp; omega)) (fun _ => rfl)
  · exact set_keeps (set_hit (by simp; omega)) (fun _ => rfl)
  · exact set_hit (by simp; omega)
  · exact set_hit (by simp; omega)
  · intro i j hi hj h1 h2 h3
    constructor
    · refine set_keeps (set_keeps (set_keeps (set_keeps (set_keeps (set_keeps (set_keeps
        (set_keeps (hbase 0 _ (by omega)) ?_) ?_) ?_) ?_) ?_) ?_) ?_) ?_ <;>
        intro h <;> first | rfl | (exfalso; omega)
    · refine set_keeps (set_keeps (set_keeps (set_keeps (set_keeps (set_keeps (set_keeps
        (set_keeps (hbase 100 _ (by omega)) ?_) ?_) ?_) ?_) ?_) ?_) ?_) ?_ <;>
        intro h <;> first | rfl | (exfalso; omega)

/-- C16, amended: in the vectors `main` builds for `nTypes = 6` with distinct type
macros, the TAIL-TAIL entry is `(Umin, Umax) = (-6, 200)`, the HEAD-ANCHOR and
ANCHOR-HEAD entries are `(atof(argv[3]), 100)`, and every other ordered type pair
holds the default `(0, 100)`. -/
theorem main_bounds_entries (atoi : String → Int) (atof : String → ℚ) (t : TypeIds)
    (argv : List String) (setup : Setup)
    (hT : t.TAIL < 6) (hH : t.HEAD < 6) (hA : t.ANCHOR < 6) (hM : t.MONOMER < 6)
    (hMT : t.MONOMER ≠ t.TAIL) (hHA : ¬ (t.HEAD = t.TAIL ∧ t.ANCHOR = t.TAIL))
    (hmain : main atoi atof t argv = .ok setup) :
    ∃ a3, argv[3]? = some a3 ∧
      setup.bounds.Umin[t.TAIL + t.TAIL * 6]? = some (-6) ∧
      setup.bounds.Umax[t.TAIL + t.TAIL * 6]? = some 200 ∧
      setup.bounds.Umin[t.HEAD + t.ANCHOR * 6]? = some (atof a3) ∧
      setup.bounds.Umax[t.HEAD + t.ANCHOR * 6]? = some 100 ∧
      setup.bounds.Umin[t.ANCHOR + t.HEAD * 6]? = some (atof a3) ∧
      setup.bounds.Umax[t.ANCHOR + t.HEAD * 6]? = some 100 ∧
      ∀ i j, i < 6 → j < 6 → ¬ (i = t.TAIL ∧ j = t.TAIL) →
        ¬ (i = t.HEAD ∧ j = t.ANCHOR) → ¬ (i = t.ANCHOR ∧ j = t.HEAD) →
        setup.bounds.Umin[i + j * 6]? = some 0 ∧ setup.bounds.Umax[i + j * 6]? = some 100 := by
  obtain ⟨_, _, a3, _, _, _, _, h3, _, _, hb, _⟩ := main_ok hmain
  obtain ⟨b, hb', hentries⟩ := energyBounds_entries t (atof a3) hT hH hA hM hMT hHA
  rw [hb] at hb'
  simp only [Except.ok.injEq] at hb'
  rw [hb']
  exact ⟨a3, h3, hentries⟩

/-- C16, amended, on the command line `setMDConstants vesicle 7 -5 1000 3.1` with the
type macros 0, 1, 2, 3. -/
theorem main_bounds_entries_witness :
    ∃ setup, main (fun _ => 0) (fun s => if s = "-5" then -5 else 0) ⟨0, 1, 2, 3⟩
        ["setMDConstants", "vesicle", "7", "-5", "1000", "3.1"] = .ok setup ∧
      ∃ a3, ["setMDConstants", "vesicle", "7", "-5", "1000", "3.1"][3]? = some a3 ∧
        setup.bounds.Umin[0 + 0 * 6]? = some (-6 : ℚ) ∧
        setup.bounds.Umax[0 + 0 * 6]? = some 200 ∧
        setup.bounds.Umin[1 + 2 * 6]? = some (if a3 = "-5" then (-5 : ℚ) else 0) ∧
        setup.bounds.Umax[1 + 2 * 6]? = some 100 ∧
        setup.bounds.Umin[2 + 1 * 6]? = some (if a3 = "-5" then (-5 : ℚ) else 0) ∧
        setup.bounds.Umax[2 + 1 * 6]? = some 100 ∧
        ∀ i j, i < 6 → j < 6 → ¬ (i = 0 ∧ j = 0) → ¬ (i = 1 ∧ j = 2) → ¬ (i = 2 ∧ j = 1) →
          setup.bounds.Umin[i + j * 6]? = some 0 ∧
          setup.bounds.Umax[i + j * 6]? = some 100 := by
  obtain ⟨b, hb, _⟩ := energyBounds_entries ⟨0, 1, 2, 3⟩
    ((fun s : String => if s = "-5" then (-5 : ℚ) else 0) "-5") (by decide) (by decide)
    (by decide) (by decide) (by decide) (by decide)
  have hmain := main_six_args (fun _ => 0) (fun s => if s = "-5" then -5 else 0)
    ⟨0, 1, 2, 3⟩ "setMDConstants" "vesicle" "7" "-5" "1000" "3.1" [] b hb
  exact ⟨_, hmain, main_bounds_entries _ _ ⟨0, 1, 2, 3⟩ _ _ (by decide) (by decide)
    (by decide) (by decide) (by decide) (by decide) hmain⟩

/-- C16 fails for a non-zero energy bound: on the command line
`setMDConstants vesicle 7 -5 1000 3.1`, with the type macros 0, 1, 2, 3, the HEAD-ANCHOR
slot of `Umin`, which is not the TAIL-TAIL slot, holds -5 and not the default 0. -/
theorem main_bounds_entries_counterexample :
    ∃ setup, main (fun _ => 0) (fun s => if s = "-5" then -5 else 0) ⟨0, 1, 2, 3⟩
        ["setMDConstants", "vesicle", "7", "-5", "1000", "3.1"] = .ok setup ∧
      setup.bounds.Umin[1 + 2 * 6]? = some (-5 : ℚ) ∧
      setup.bounds.Umin[1 + 2 * 6]? ≠ some (0 : ℚ) ∧ ¬ ((1 : Nat) = 0 ∧ (2 : Nat) = 0) := by
  obtain ⟨b, hb, _, _, hx, _⟩ := energyBounds_entries ⟨0, 1, 2, 3⟩
    ((fun s : String => if s = "-5" then (-5 : ℚ) else 0) "-5") (by decide) (by decide)
    (by decide) (by decide) (by decide) (by decide)
  have hmain := main_six_args (fun _ => 0) (fun s => if s = "-5" then -5 else 0)
    ⟨0, 1, 2, 3⟩ "setMDConstants" "vesicle" "7" "-5" "1000" "3.1" [] b hb
  have hval : b.Umin[1 + 2 * 6]? = some (-5 : ℚ) := by
    simpa using hx
  refine ⟨_, hmain, hval, ?_, by decide⟩
  show b.Umin[1 + 2 * 6]? ≠ some (0 : ℚ)
  rw [hval]
  norm_num

/-! ## The command line of `main` -/

/-- C14 evaluated on `setMDConstants vesicle 7 -5 1000 3.1 0.2`, the six parameters in
the order of the usage line: `main` takes `nLipids` from `argv[3]`, the text `-5` of the
energy bound, `arealDensity` from `argv[4]`, `overcast` from `argv[5]`, and never reads
`argv[6]`; with fewer than four entries in `argv` it prints the usage line and
returns 0. -/
theorem main_argument_sources (atoi : String → Int) (atof : String → ℚ) :
    (∃ setup, main atoi atof ⟨0, 1, 2, 3⟩
        ["setMDConstants", "vesicle", "7", "-5", "1000", "3.1", "0.2"] = .ok setup ∧
      setup.name = "vesicle" ∧ setup.seed = atoi "7" ∧
      setup.bounds.Umin[1 + 2 * 6]? = some (atof "-5") ∧
      setup.nLipids = atoi "-5" ∧ setup.arealDensity = atof "1000" ∧
      setup.overcast = atof "3.1" ∧
      main atoi atof ⟨0, 1, 2, 3⟩ ["setMDConstants", "vesicle", "7", "-5", "1000", "3.1"] =
        .ok setup) ∧
    main atoi atof ⟨0, 1, 2, 3⟩ ["setMDConstants", "vesicle", "7"] = .error .usage := by
  constructor
  · obtain ⟨b, hb, _, _, hx, _⟩ := energyBounds_entries ⟨0, 1, 2, 3⟩ (atof "-5") (by decide)
      (by decide) (by decide) (by decide) (by decide) (by decide)
    exact ⟨_, main_six_args atoi atof ⟨0, 1, 2, 3⟩ "setMDConstants" "vesicle" "7" "-5" "1000"
      "3.1" ["0.2"] b hb, rfl, rfl, hx, rfl, rfl, rfl,
      main_six_args atoi atof ⟨0, 1, 2, 3⟩ "setMDConstants" "vesicle" "7" "-5" "1000"
        "3.1" [] b hb⟩
  · simp [main, arg, bind, Except.bind, throw, throwThe, MonadExceptOf.throw]

/-- C20: the elements of `argv` that `main` reads after the usage guard, those with
index 1, 2, 3, 4 and 5, are all below `argc` exactly when `argc >= 6`. The guard
`argc < 4` stops `main` only for `argc` below 4; with `argc = 4` the read of `argv[4]`
and with `argc = 5` the read of `argv[5]` has no supplied argument; from `argc = 6` on
every read has one. -/
theorem main_argument_reads (atoi : String → Int) (atof : String → ℚ) (t : TypeIds)
    (argv : List String) :
    (∀ i, i ∈ argReads ↔ i = 1 ∨ i = 2 ∨ i = 3 ∨ i = 4 ∨ i = 5) ∧
    ((∀ i ∈ argReads, i < argv.length) ↔ 6 ≤ argv.length) ∧
    (0 < argv.length → argv.length < 4 → main atoi atof t argv = .error .usage) ∧
    (argv.length = 4 → main atoi atof t argv = .error (.noArgument 4)) ∧
    (argv.length = 5 → main atoi atof t argv = .error (.noArgument 5)) ∧
    (6 ≤ argv.length → t.TAIL < 6 → t.HEAD < 6 → t.ANCHOR < 6 → t.MONOMER < 6 →
      ∃ setup, main atoi atof t argv = .ok setup) := by
  refine ⟨?_, ?_, ?_, ?_, ?_, ?_⟩
  · intro i
    simp only [argReads, List.mem_cons, List.mem_singleton, List.not_mem_nil, or_false]
    omega
  · simp only [argReads, List.mem_cons, List.mem_singleton, List.not_mem_nil, or_false]
    constructor
    · intro h
      have := h 5 (by simp)
      omega
    · intro h i hi
      omega
  · intro hpos hlt
    rcases argv with _ | ⟨a0, rest⟩
    · simp at hpos
    · unfold main
      rw [if_pos hlt]
      simp [arg, bind, Except.bind, throw, throwThe, MonadExceptOf.throw]
  · intro hlen
    rcases argv with _ | ⟨a0, _ | ⟨a1, _ | ⟨a2, _ | ⟨a3, _ | ⟨a4, rest⟩⟩⟩⟩⟩ <;>
      simp at hlen
    simp [main, arg, bind, Except.bind, pure, Except.pure]
  · intro hlen
    rcases argv with _ | ⟨a0, _ | ⟨a1, _ | ⟨a2, _ | ⟨a3, _ | ⟨a4, _ | ⟨a5, rest⟩⟩⟩⟩⟩⟩ <;>
      simp at hlen
    simp [main, arg, bind, Except.bind, pure, Except.pure]
  · intro hlen hT hH hA hM
    rcases argv with _ | ⟨a0, _ | ⟨a1, _ | ⟨a2, _ | ⟨a3, _ | ⟨a4, _ | ⟨a5, rest⟩⟩⟩⟩⟩⟩ <;>
      simp at hlen
    exact ⟨_, main_six_args atoi atof t a0 a1 a2 a3 a4 a5 rest _
      (energyBounds_six t (atof a3) hT hH hA hM)⟩

/-- C20 on `setMDConstants vesicle 7 -5`, which passes the guard with `argc = 4`. -/
theorem main_argument_reads_witness :
    main (fun _ => 0) (fun _ => 0) ⟨0, 1, 2, 3⟩ ["setMDConstants", "vesicle", "7", "-5"] =
      .error (.noArgument 4) ∧
    main (fun _ => 0) (fun _ => 0) ⟨0, 1, 2, 3⟩
      ["setMDConstants", "vesicle", "7", "-5", "1000"] = .error (.noArgument 5) :=
  ⟨(main_argument_reads _ _ _ ["setMDConstants", "vesicle", "7", "-5"]).2.2.2.1 rfl,
    (main_argument_reads _ _ _
      ["setMDConstants", "vesicle", "7", "-5", "1000"]).2.2.2.2.1 rfl⟩

/-! ## The table builder -/

/-- C13: the table builder fails, with no coefficient table, whenever
`cutoff <= rMin` or one of `cutoff`, `rMin` is not positive, whatever the energy bounds
and the potential law; otherwise it returns a table. -/
theorem tableBuilder_rejects (law : ℚ → ℚ → ℚ → ℚ → List ℚ) (Umax Umin : List ℚ)
    (cutoff rMin : ℚ) :
    (cutoff ≤ rMin ∨ cutoff ≤ 0 ∨ rMin ≤ 0 → tableBuilder law Umax Umin cutoff rMin = none) ∧
    (¬ (cutoff ≤ rMin ∨ cutoff ≤ 0 ∨ rMin ≤ 0) →
      ∃ table, tableBuilder law Umax Umin cutoff rMin = some table) := by
  constructor
  · intro h
    simp [tableBuilder, h]
  · intro h
    exact ⟨(List.zip Umin Umax).flatMap fun p => law p.1 p.2 cutoff rMin, by
      simp only [tableBuilder, if_neg h]⟩

/-- C13 at `cutoff = 1`, `rMin = 2` and at `cutoff = 2`, `rMin = 1`. -/
theorem tableBuilder_rejects_witness :
    tableBuilder (fun _ _ _ _ => [0, 0, 0, 0]) [100] [0] 1 2 = none ∧
    ∃ table, tableBuilder (fun _ _ _ _ => [0, 0, 0, 0]) [100] [0] 2 1 = some table :=
  ⟨(tableBuilder_rejects _ [100] [0] 1 2).1 (Or.inl (by norm_num)),
    (tableBuilder_rejects _ [100] [0] 2 1).2 (by norm_num)⟩

/-! ## Rounding arithmetic -/

theorem deltaLT.exactCall_id (d : deltaLT) (c : ℚ) : d.exactCall (fun x => x) c :=
  ⟨rfl, fun _ _ => ⟨rfl, rfl, rfl⟩⟩

theorem deltaLT.newSizeRounded_of_exact {rd : ℚ → ℚ} {d : deltaLT} {s : threeVector}
    {c : ℚ} (hcur : s.get d.dim = .ok c) (hex : d.exactCall rd c) :
    d.newSizeRounded rd s = d.newSize s := by
  unfold deltaLT.newSizeRounded deltaLT.newSize
  simp only [hcur, bind, Except.bind]
  rw [hex.1]
  by_cases hfar : |c - d.endL| > d.deltaL
  · rw [if_pos hfar, if_pos hfar]
    by_cases hc : c = d.endL
    · simp [divide, hc]
    · have hdiff : c - d.endL ≠ 0 := sub_ne_zero.mpr hc
      have habs : |c - d.endL| ≠ 0 := abs_ne_zero.mpr hdiff
      obtain ⟨h1, h2, h3⟩ := hex.2 hfar hc
      simp only [divide, if_neg habs]
      rw [h1, h2, h3]
  · rw [if_neg hfar, if_neg hfar]

theorem deltaLT.newSizeRounded_id (d : deltaLT) (s : threeVector) :
    d.newSizeRounded (fun x => x) s = d.newSize s := by
  cases hcur : s.get d.dim with
  | error e => simp [deltaLT.newSizeRounded, deltaLT.newSize, hcur, bind, Except.bind]
  | ok c => exact deltaLT.newSizeRounded_of_exact hcur (deltaLT.exactCall_id d c)

theorem deltaLT.newSizeRoundedIter_of_exact {rd : ℚ → ℚ} {d : deltaLT} :
    ∀ (m : Nat) (s : threeVector),
      (∀ j, j < m → ∀ t c, d.newSizeRoundedIter rd j s = .ok t → t.get d.dim = .ok c →
        d.exactCall rd c) →
      d.newSizeRoundedIter rd m s = d.newSizeIter m s := by
  intro m
  induction m with
  | zero =>
    intro s _
    rfl
  | succ m ih =>
    intro s hex
    cases hcur : s.get d.dim with
    | error e =>
      simp [deltaLT.newSizeRoundedIter, deltaLT.newSizeIter, deltaLT.newSizeRounded,
        deltaLT.newSize, hcur, bind, Except.bind]
    | ok c =>
      have hcall : d.newSizeRounded rd s = d.newSize s :=
        deltaLT.newSizeRounded_of_exact hcur (hex 0 (Nat.succ_pos m) s c rfl hcur)
      cases hnew : d.newSize s with
      | error e =>
        simp [deltaLT.newSizeRoundedIter, deltaLT.newSizeIter, hcall, hnew, bind,
          Except.bind]
      | ok t =>
        have hstep : ∀ j, d.newSizeRoundedIter rd (j + 1) s = d.newSizeRoundedIter rd j t := by
          intro j
          simp [deltaLT.newSizeRoundedIter, hcall, hnew, bind, Except.bind]
        have hrec := ih t (fun j hj u c hu hc =>
          hex (j + 1) (Nat.succ_lt_succ hj) u c (by rw [hstep]; exact hu) hc)
        rw [hstep, hrec]
        simp [deltaLT.newSizeIter, hnew, bind, Except.bind]

theorem deltaLT.scaleFactorRounded_of_exact {rd : ℚ → ℚ} {d : deltaLT} {s : threeVector}
    {c : ℚ} (hcur : s.get d.dim = .ok c) (hne : c ≠ 0) (hcall : d.exactCall rd c)
    (hscale : ∀ n v, d.newSizeRounded rd s = .ok n → n.get d.dim = .ok v →
      exactScale rd c v) :
    d.scaleFactorRounded rd s = d.scaleFactor s := by
  have hnewEq := deltaLT.newSizeRounded_of_exact hcur hcall
  unfold deltaLT.scaleFactorRounded deltaLT.scaleFactor
  rw [hnewEq]
  cases hnew : d.newSize s with
  | error e => simp [bind, Except.bind]
  | ok n =>
    have hvalid : 0 ≤ d.dim ∧ d.dim ≤ 2 := by
      have := threeVector.get_valid hcur
      omega
    obtain ⟨v, hv⟩ := threeVector.get_of_valid n hvalid
    obtain ⟨h1, h2, h3, _⟩ := hscale n v (by rw [hnewEq, hnew]) hv
    simp only [bind, Except.bind, hv, hcur, divide, if_neg hne]
    rw [h1, h2, h3]

theorem ok_of_toOption {x : Except Fault threeVector} {a : threeVector}
    (h : x.toOption = some a) : x = .ok a := by
  cases x with
  | error e => simp [Except.toOption] at h
  | ok b =>
    simp only [Except.toOption, Option.some.injEq] at h
    rw [h]

/-! ## Rounding to the nearest `double` -/

theorem numBitsAux_spec : ∀ (fuel n : Nat), n < fuel → 0 < n →
    0 < numBitsAux fuel n ∧ 2 ^ (numBitsAux fuel n - 1) ≤ n ∧ n < 2 ^ numBitsAux fuel n := by
  intro fuel
  induction fuel with
  | zero => intro n h; omega
  | succ f ih =>
    intro n hlt hpos
    unfold numBitsAux
    by_cases h2 : n < 2
    · rw [if_pos h2]
      refine ⟨by norm_num, ?_, ?_⟩
      · simpa using hpos
      · simpa using h2
    · rw [if_neg h2]
      obtain ⟨k0, k1, k2⟩ := ih (n / 2) (by omega) (by omega)
      refine ⟨by omega, ?_, ?_⟩
      · have : 1 + numBitsAux f (n / 2) - 1 = (numBitsAux f (n / 2) - 1) + 1 := by omega
        rw [this, pow_succ]
        omega
      · rw [Nat.add_comm, pow_succ]
        omega

theorem numBits_spec {n : Nat} (hpos : 0 < n) :
    0 < numBits n ∧ 2 ^ (numBits n - 1) ≤ n ∧ n < 2 ^ numBits n :=
  numBitsAux_spec (n + 1) n (Nat.lt_succ_self n) hpos

/-- `binExp q` is the binary exponent of `q`: `2 ^ binExp q ≤ |q| < 2 ^ (binExp q + 1)`. -/
theorem binExp_spec {q : ℚ} (hq : q ≠ 0) :
    (2 : ℚ) ^ binExp q ≤ |q| ∧ |q| < (2 : ℚ) ^ (binExp q + 1) := by
  have hnum : q.num ≠ 0 := Rat.num_ne_zero.mpr hq
  have hn : 0 < q.num.natAbs := Int.natAbs_pos.mpr hnum
  have hd : 0 < q.den := q.den_pos
  obtain ⟨a0, a1, a2⟩ := numBits_spec hn
  obtain ⟨b0, b1, b2⟩ := numBits_spec hd
  have habs : |q| = (q.num.natAbs : ℚ) / (q.den : ℚ) := by
    conv_lhs => rw [← Rat.num_div_den q]
    rw [abs_div, Nat.abs_cast, Nat.cast_natAbs, Int.cast_abs]
  set n := q.num.natAbs with hndef
  set a := numBits n with hadef
  set b := numBits q.den with hbdef
  have hN : (0 : ℚ) < n := by exact_mod_cast hn
  have hD : (0 : ℚ) < q.den := by exact_mod_cast hd
  have hA : (0 : ℚ) < 2 ^ a := by positivity
  have hB : (0 : ℚ) < 2 ^ b := by positivity
  have hNA : (n : ℚ) < 2 ^ a := by exact_mod_cast a2
  have hDB : (q.den : ℚ) < 2 ^ b := by exact_mod_cast b2
  have hAN : (2 : ℚ) ^ a ≤ 2 * n := by
    have h : 2 ^ a ≤ 2 * n := by
      have : a = (a - 1) + 1 := by omega
      rw [this, pow_succ]
      omega
    exact_mod_cast h
  have hBD : (2 : ℚ) ^ b ≤ 2 * q.den := by
    have h : 2 ^ b ≤ 2 * q.den := by
      have : b = (b - 1) + 1 := by omega
      rw [this, pow_succ]
      omega
    exact_mod_cast h
  have hz : ∀ c : Int, (2 : ℚ) ^ ((a : Int) - b + c) = 2 ^ a / 2 ^ b * 2 ^ c := by
    intro c
    rw [zpow_add₀ (by norm_num), zpow_sub₀ (by norm_num), zpow_natCast, zpow_natCast]
  have e0 : (2 : ℚ) ^ ((a : Int) - b) = 2 ^ a / 2 ^ b := by
    have := hz 0
    simpa using this
  have e1 : (2 : ℚ) ^ ((a : Int) - b + 1) = 2 ^ a / 2 ^ b * 2 := by
    have := hz 1
    simpa using this
  have em : (2 : ℚ) ^ ((a : Int) - b - 1) = 2 ^ a / 2 ^ b / 2 := by
    have := hz (-1)
    simpa [sub_eq_add_neg, div_eq_mul_inv] using this
  have em1 : (2 : ℚ) ^ ((a : Int) - b - 1 + 1) = 2 ^ a / 2 ^ b := by
    rw [sub_add_cancel, e0]
  rw [habs]
  have up1 : (n : ℚ) / q.den < 2 ^ a / 2 ^ b * 2 := by
    rw [div_mul_eq_mul_div, div_lt_div_iff₀ hD hB]
    nlinarith
  have lo2 : (2 : ℚ) ^ a / 2 ^ b / 2 ≤ (n : ℚ) / q.den := by
    rw [div_div, div_le_div_iff₀ (by positivity) hD]
    nlinarith
  unfold binExp
  simp only []
  rw [← hndef, ← hadef, ← hbdef]
  by_cases hab : a ≥ b
  · rw [if_pos hab]
    have hsub : ((2 ^ (a - b) : Nat) : ℚ) = 2 ^ a / 2 ^ b := by
      rw [Nat.cast_pow, pow_sub₀ _ (by norm_num) hab, div_eq_mul_inv]
      norm_num
    by_cases ht : 2 ^ (a - b) * q.den ≤ n
    · rw [if_pos ht, e0, e1]
      refine ⟨?_, up1⟩
      have ht2 : ((2 ^ (a - b) : Nat) : ℚ) * q.den ≤ n := by exact_mod_cast ht
      rw [hsub] at ht2
      rw [div_le_div_iff₀ hB hD]
      rw [div_mul_eq_mul_div, div_le_iff₀ hB] at ht2
      linarith
    · rw [if_neg ht, em, em1]
      refine ⟨lo2, ?_⟩
      have ht2 : (n : ℚ) < ((2 ^ (a - b) : Nat) : ℚ) * q.den := by
        exact_mod_cast (not_le.mp ht)
      rw [hsub] at ht2
      rw [div_lt_div_iff₀ hD hB]
      rw [div_mul_eq_mul_div, lt_div_iff₀ hB] at ht2
      linarith
  · rw [if_neg hab]
    have hba : a ≤ b := by omega
    have hsub : ((2 ^ (b - a) : Nat) : ℚ) = 2 ^ b / 2 ^ a := by
      rw [Nat.cast_pow, pow_sub₀ _ (by norm_num) hba, div_eq_mul_inv]
      norm_num
    by_cases ht : q.den ≤ n * 2 ^ (b - a)
    · rw [if_pos ht, e0, e1]
      refine ⟨?_, up1⟩
      have ht2 : (q.den : ℚ) ≤ n * ((2 ^ (b - a) : Nat) : ℚ) := by exact_mod_cast ht
      rw [hsub] at ht2
      rw [div_le_div_iff₀ hB hD]
      rw [mul_div_assoc', le_div_iff₀ hA] at ht2
      linarith
    · rw [if_neg ht, em, em1]
      refine ⟨lo2, ?_⟩
      have ht2 : (n : ℚ) * ((2 ^ (b - a) : Nat) : ℚ) < q.den := by
        exact_mod_cast (not_le.mp ht)
      rw [hsub] at ht2
      rw [div_lt_div_iff₀ hD hB]
      rw [mul_div_assoc', div_lt_iff₀ hA] at ht2
      linarith

/-- An integer strictly within one half of `a / b` is `roundHalfEven a b`. -/
theorem roundHalfEven_unique {a : Int} {b : Nat} (hb : 0 < b) (m : Int)
    (h1 : 2 * (a - m * b) < b) (h2 : -(b : Int) < 2 * (a - m * b)) :
    roundHalfEven a b = m := by
  have hb0 : (0 : Int) < b := by exact_mod_cast hb
  have hdiv : (b : Int) * (a / b) + a % b = a := Int.ediv_add_emod a b
  have hr0 : 0 ≤ a % (b : Int) := Int.emod_nonneg a (ne_of_gt hb0)
  have hr1 : a % (b : Int) < b := Int.emod_lt_of_pos a hb0
  set f := a / (b : Int) with hf
  set r := a % (b : Int) with hr
  have ht : f - m = 0 ∨ f - m = -1 := by
    by_contra hc
    push_neg at hc
    rcases lt_or_gt_of_ne hc.1 with hneg | hpos
    · have hle : f - m ≤ -2 := by
        rcases lt_or_gt_of_ne hc.2 with h | h <;> omega
      have : (b : Int) * (f - m) ≤ b * (-2) := mul_le_mul_of_nonneg_left hle hb0.le
      nlinarith
    · have hge : 1 ≤ f - m := by omega
      have : (b : Int) * 1 ≤ b * (f - m) := mul_le_mul_of_nonneg_left hge hb0.le
      nlinarith
  unfold roundHalfEven
  simp only []
  rw [← hf, ← hr]
  rcases ht with ht | ht
  · have hfm : f = m := by omega
    have : 2 * r < b := by
      have : a - m * b = r := by rw [← hdiv, hfm]; ring
      omega
    rw [if_pos this]
    exact hfm
  · have hfm : f + 1 = m := by omega
    have hgt : (b : Int) < 2 * r := by
      have : a - m * b = r - b := by rw [← hdiv, ← hfm]; ring
      omega
    rw [if_neg (by omega), if_pos hgt]
    exact hfm

/-- `roundHalfEven a b` is within one half of `a / b`. -/
theorem roundHalfEven_near (a : Int) {b : Nat} (hb : 0 < b) :
    2 * (a - roundHalfEven a b * b) ≤ b ∧ -(b : Int) ≤ 2 * (a - roundHalfEven a b * b) := by
  have hb0 : (0 : Int) < b := by exact_mod_cast hb
  have hdiv : (b : Int) * (a / b) + a % b = a := Int.ediv_add_emod a b
  have hr0 : 0 ≤ a % (b : Int) := Int.emod_nonneg a (ne_of_gt hb0)
  have hr1 : a % (b : Int) < b := Int.emod_lt_of_pos a hb0
  unfold roundHalfEven
  simp only []
  set f := a / (b : Int) with hf
  set r := a % (b : Int) with hr
  have e0 : a - f * b = r := by rw [← hdiv]; ring
  have e1 : a - (f + 1) * b = r - b := by rw [← hdiv]; ring
  split_ifs with c1 c2 c3
  · rw [e0]; omega
  · rw [e1]; omega
  · rw [e0]; omega
  · rw [e1]; omega

theorem binExp_unique {q : ℚ} (hq : q ≠ 0) {e : Int} (hlo : (2 : ℚ) ^ e ≤ |q|)
    (hhi : |q| < (2 : ℚ) ^ (e + 1)) : binExp q = e := by
  obtain ⟨h1, h2⟩ := binExp_spec hq
  have two : (1 : ℚ) < 2 := by norm_num
  by_contra hne
  rcases lt_or_gt_of_ne hne with h | h
  · have : (2 : ℚ) ^ (binExp q + 1) ≤ 2 ^ e := zpow_le_zpow_right₀ two.le (by omega)
    linarith
  · have : (2 : ℚ) ^ (e + 1) ≤ 2 ^ binExp q := zpow_le_zpow_right₀ two.le (by omega)
    linarith

/-- `roundDouble` in the binade `2 ^ (52 - N) ≤ |q| < 2 ^ (53 - N)`: the nearest multiple
of `2 ^ -N`. -/
theorem roundDouble_normal {q : ℚ} {N : Nat} (hN1 : 1 ≤ N) (hN2 : N ≤ 1074)
    (hlo : (2 : ℚ) ^ 52 ≤ |q| * 2 ^ N) (hhi : |q| * 2 ^ N < 2 ^ 53) :
    roundDouble q = (roundHalfEven (q.num * 2 ^ N) q.den : ℚ) / 2 ^ N := by
  have hP : (0 : ℚ) < 2 ^ N := by positivity
  have hq : q ≠ 0 := by
    intro h
    rw [h] at hlo
    norm_num at hlo
  have hexp : binExp q = 52 - N := by
    apply binExp_unique hq
    · rw [zpow_sub₀ (by norm_num), zpow_natCast, div_le_iff₀ hP]
      exact_mod_cast hlo
    · have : (52 : Int) - N + 1 = 53 - N := by ring
      rw [this, zpow_sub₀ (by norm_num), zpow_natCast, lt_div_iff₀ hP]
      exact_mod_cast hhi
  unfold roundDouble
  rw [if_neg hq]
  simp only [hexp]
  have hk : max ((52 : Int) - N) (-1022) - 52 = -(N : Int) := by
    rw [max_eq_left (by omega)]
    ring
  rw [hk]
  rw [if_neg (by omega)]
  simp only [neg_neg, Int.toNat_natCast, zpow_neg, zpow_natCast]
  rfl

theorem scaled_cast (q : ℚ) (N : Nat) (m : Int) :
    (((q.num * 2 ^ N - m * q.den : Int)) : ℚ) = (q * 2 ^ N - m) * q.den := by
  have h : (q.num : ℚ) = q * q.den := (Rat.mul_den_eq_num q).symm
  push_cast
  rw [h]
  ring

theorem roundHalfEven_unique_rat (q : ℚ) (N : Nat) (m : Int)
    (hnear : |q * 2 ^ N - m| < 1 / 2) : roundHalfEven (q.num * 2 ^ N) q.den = m := by
  have hD : (0 : ℚ) < q.den := by exact_mod_cast q.den_pos
  have hc := scaled_cast q N m
  obtain ⟨h1, h2⟩ := abs_lt.mp hnear
  apply roundHalfEven_unique q.den_pos
  · have : (((2 * (q.num * 2 ^ N - m * q.den) : Int)) : ℚ) < ((q.den : Int) : ℚ) := by
      rw [Int.cast_mul, hc]
      push_cast
      nlinarith
    exact_mod_cast this
  · have : ((-(q.den : Int) : Int) : ℚ) < (((2 * (q.num * 2 ^ N - m * q.den) : Int)) : ℚ) := by
      rw [Int.cast_mul, hc]
      push_cast
      nlinarith
    exact_mod_cast this

theorem roundHalfEven_near_rat (q : ℚ) (N : Nat) :
    |q * 2 ^ N - (roundHalfEven (q.num * 2 ^ N) q.den : ℚ)| ≤ 1 / 2 := by
  have hD : (0 : ℚ) < q.den := by exact_mod_cast q.den_pos
  have hc := scaled_cast q N (roundHalfEven (q.num * 2 ^ N) q.den)
  obtain ⟨h1, h2⟩ := roundHalfEven_near (q.num * 2 ^ N) q.den_pos
  have h1q : (((2 * (q.num * 2 ^ N - roundHalfEven (q.num * 2 ^ N) q.den * q.den) : Int)) : ℚ)
      ≤ ((q.den : Int) : ℚ) := by exact_mod_cast h1
  have h2q : ((-(q.den : Int) : Int) : ℚ) ≤
      (((2 * (q.num * 2 ^ N - roundHalfEven (q.num * 2 ^ N) q.den * q.den) : Int)) : ℚ) := by
    exact_mod_cast h2
  rw [Int.cast_mul, hc] at h1q h2q
  push_cast at h1q h2q
  rw [abs_le]
  constructor
  · by_contra hcon
    push_neg at hcon
    nlinarith
  · by_contra hcon
    push_neg at hcon
    nlinarith

/-- A multiple of the spacing strictly within half a spacing of `q` is `roundDouble q`. -/
theorem roundDouble_eq_of_near {q : ℚ} {N : Nat} (hN1 : 1 ≤ N) (hN2 : N ≤ 1074)
    (hlo : (2 : ℚ) ^ 52 ≤ |q| * 2 ^ N) (hhi : |q| * 2 ^ N < 2 ^ 53) (m : Int)
    (hnear : |q * 2 ^ N - m| < 1 / 2) : roundDouble q = (m : ℚ) / 2 ^ N := by
  rw [roundDouble_normal hN1 hN2 hlo hhi, roundHalfEven_unique_rat q N m hnear]

/-- Rounding a positive normal number lowers it by at most the relative error `2 ^ -53`. -/
theorem roundDouble_ge {q : ℚ} (h1 : (1 : ℚ) / 2 ^ 1022 ≤ q) (h2 : q < 2 ^ 52) :
    q * (1 - 1 / 2 ^ 53) ≤ roundDouble q := by
  have hpos : 0 < q := lt_of_lt_of_le (by positivity) h1
  have hq : q ≠ 0 := ne_of_gt hpos
  have two : (1 : ℚ) < 2 := by norm_num
  obtain ⟨s1, s2⟩ := binExp_spec hq
  rw [abs_of_pos hpos] at s1 s2
  have he2 : binExp q ≤ 51 := by
    by_contra hc
    have : (2 : ℚ) ^ (52 : Int) ≤ 2 ^ binExp q := zpow_le_zpow_right₀ two.le (by omega)
    have h52 : (2 : ℚ) ^ (52 : Int) = 2 ^ 52 := by norm_cast
    linarith
  have he1 : -1022 ≤ binExp q := by
    by_contra hc
    have : (2 : ℚ) ^ (binExp q + 1) ≤ 2 ^ (-1022 : Int) := zpow_le_zpow_right₀ two.le (by omega)
    have h52 : (2 : ℚ) ^ (-1022 : Int) = 1 / 2 ^ 1022 := by
      rw [zpow_neg, one_div]
      norm_cast
    exact absurd (lt_of_lt_of_le s2 (this.trans h52.le)) (not_lt.mpr h1)
  obtain ⟨N, hN⟩ : ∃ N : Nat, (N : Int) = 52 - binExp q := ⟨(52 - binExp q).toNat, by omega⟩
  have hP : (0 : ℚ) < 2 ^ N := by positivity
  have hpow : (2 : ℚ) ^ binExp q * 2 ^ N = 2 ^ 52 := by
    rw [← zpow_natCast, ← zpow_add₀ (by norm_num), hN]
    have : binExp q + (52 - binExp q) = (52 : Nat) := by omega
    rw [this, zpow_natCast]
  have hpow2 : (2 : ℚ) ^ (binExp q + 1) * 2 ^ N = 2 ^ 53 := by
    rw [← zpow_natCast, ← zpow_add₀ (by norm_num), hN]
    have : binExp q + 1 + (52 - binExp q) = (53 : Nat) := by omega
    rw [this, zpow_natCast]
  have hlo : (2 : ℚ) ^ 52 ≤ |q| * 2 ^ N := by
    rw [abs_of_pos hpos, ← hpow]
    exact mul_le_mul_of_nonneg_right s1 hP.le
  have hhi : |q| * 2 ^ N < 2 ^ 53 := by
    rw [abs_of_pos hpos, ← hpow2]
    exact mul_lt_mul_of_pos_right s2 hP
  rw [roundDouble_normal (by omega) (by omega) hlo hhi]
  have hnear := (abs_le.mp (roundHalfEven_near_rat q N)).2
  rw [abs_of_pos hpos] at hlo
  rw [le_div_iff₀ hP]
  have h53 : (2 : ℚ) ^ 53 = 2 * 2 ^ 52 := by norm_num
  have : q * (1 - 1 / 2 ^ 53) * 2 ^ N = q * 2 ^ N - q * 2 ^ N / 2 ^ 53 := by ring
  rw [this]
  have : (1 : ℚ) / 2 ≤ q * 2 ^ N / 2 ^ 53 := by
    rw [le_div_iff₀ (by positivity)]
    linarith
  linarith

theorem roundDouble_one : roundDouble 1 = 1 := by decide!

/-- A call of `newSize` in `double` arithmetic far above the target: the size on axis
`dim` becomes the `double` nearest to `cur - deltaL`. -/
theorem deltaLT.newSizeRounded_double_down {d : deltaLT} {s : threeVector} {c : ℚ}
    (hcur : s.get d.dim = .ok c) (hstep : roundDouble (d.deltaL * 1) = d.deltaL)
    (hmin : (1 : ℚ) / 2 ^ 1022 ≤ d.deltaL)
    (hfar : d.deltaL < (c - d.endL) * (1 - 1 / 2 ^ 53))
    (hbig : c - d.endL < 2 ^ 52) :
    d.newSizeRounded roundDouble s = s.set d.dim (roundDouble (c - d.deltaL)) := by
  have hfac : (0 : ℚ) < 1 - 1 / 2 ^ 53 := by norm_num
  have hpos : 0 < d.deltaL := lt_of_lt_of_le (by positivity) hmin
  have hdiff : 0 < c - d.endL := by
    by_contra hc
    push_neg at hc
    have : (c - d.endL) * (1 - 1 / 2 ^ 53) ≤ 0 := mul_nonpos_of_nonpos_of_nonneg hc hfac.le
    linarith
  have hsmall : (1 : ℚ) / 2 ^ 1022 ≤ c - d.endL := by
    have : (c - d.endL) * (1 - 1 / 2 ^ 53) ≤ c - d.endL := by
      have : (c - d.endL) * (1 - 1 / 2 ^ 53) = (c - d.endL) - (c - d.endL) / 2 ^ 53 := by ring
      rw [this]
      have : 0 ≤ (c - d.endL) / 2 ^ 53 := by positivity
      linarith
    exact le_trans hmin (le_trans hfar.le this)
  have hge := roundDouble_ge hsmall hbig
  have hgt : d.deltaL < roundDouble (c - d.endL) := lt_of_lt_of_le hfar hge
  have hrpos : 0 < roundDouble (c - d.endL) := lt_trans hpos hgt
  unfold deltaLT.newSizeRounded
  simp only [hcur, bind, Except.bind]
  rw [abs_of_pos hrpos, if_pos hgt]
  simp only [divide, if_neg (ne_of_gt hrpos), div_self (ne_of_gt hrpos), roundDouble_one,
    hstep]


theorem roundDouble_hundredth :
    roundDouble (1 / 100) = 5764607523034235 / 576460752303423488 := by decide!

theorem roundDouble_hundredth_step :
    roundDouble (5764607523034235 / 576460752303423488 * 1) =
      5764607523034235 / 576460752303423488 := by decide!

theorem deltaLT.newSizeRounded_near {rd : ℚ → ℚ} {d : deltaLT} {s : threeVector} {c : ℚ}
    (hcur : s.get d.dim = .ok c) (hnear : ¬ |rd (c - d.endL)| > d.deltaL) :
    d.newSizeRounded rd s = s.set d.dim d.endL := by
  unfold deltaLT.newSizeRounded
  simp only [hcur, bind, Except.bind]
  rw [if_neg hnear]

theorem documentedTrace_last : roundDouble (7038281792647754 / 2 ^ 47 - 50) =
    703687440677 / 70368744177664 := by
  have e : (7038281792647754 / 2 ^ 47 - 50 : ℚ) = 703687440677 / 70368744177664 := by
    norm_num
  rw [e]
  decide!

/-- One call of `newSize` in `double` arithmetic takes each value of the documented run to
the next. -/
theorem documentedTrace_step (dim relaxStep : Int) (j : Nat) (hj : j < 5000) (s : threeVector)
    (hcur : s.get dim = .ok (documentedTrace j)) :
    (deltaLT.mk (roundDouble (1 / 100)) 50 dim relaxStep).newSizeRounded roundDouble s =
      s.set dim (documentedTrace (j + 1)) := by
  rw [roundDouble_hundredth]
  by_cases h1 : j ≤ 3598
  · have hc : documentedTrace j = (7036874417766400 - (j : ℚ) * 703687441777) / 2 ^ 46 := by
      unfold documentedTrace
      rw [if_pos (by omega)]
    have hc1 : documentedTrace (j + 1) = ((7036874417766400 - ((j : Int) + 1) * 703687441777 : Int) : ℚ)
        / 2 ^ 46 := by
      unfold documentedTrace
      rw [if_pos (by omega)]
      push_cast
      ring
    have hjq : (j : ℚ) ≤ 3598 := by exact_mod_cast h1
    have hj0 : (0 : ℚ) ≤ j := Nat.cast_nonneg j
    rw [hc] at hcur
    rw [deltaLT.newSizeRounded_double_down
      (d := deltaLT.mk (5764607523034235 / 576460752303423488) 50 dim relaxStep) hcur
      roundDouble_hundredth_step (by norm_num) (by norm_num; linarith)
      (by norm_num; linarith)]
    congr 1
    rw [hc1]
    have hqpos : (0 : ℚ) < (7036874417766400 - (j : ℚ) * 703687441777) / 2 ^ 46 -
        5764607523034235 / 576460752303423488 := by
      norm_num
      linarith
    apply roundDouble_eq_of_near (by norm_num) (by norm_num)
    · rw [abs_of_pos hqpos]
      norm_num
      linarith
    · rw [abs_of_pos hqpos]
      norm_num
      linarith
    · push_cast
      have : ((7036874417766400 - (j : ℚ) * 703687441777) / 2 ^ 46 -
          5764607523034235 / 576460752303423488) * 2 ^ 46 -
          (7036874417766400 - ((j : ℚ) + 1) * 703687441777) =
          703687441777 - 5764607523034235 / 8192 := by ring
      rw [this]
      norm_num [abs_lt]
  by_cases h2 : j ≤ 4998
  · have h3 : 3599 ≤ j := by omega
    have hc : documentedTrace j = (9008606629621954 - ((j : ℚ) - 3599) * 1407374883553) / 2 ^ 47 := by
      unfold documentedTrace
      by_cases h4 : j = 3599
      · subst h4
        norm_num
      · rw [if_neg (by omega), if_pos (by omega)]
    have hc1 : documentedTrace (j + 1) =
        ((9008606629621954 - ((j : Int) + 1 - 3599) * 1407374883553 : Int) : ℚ) / 2 ^ 47 := by
      unfold documentedTrace
      rw [if_neg (by omega), if_pos (by omega)]
      push_cast
      ring
    have hjq : (j : ℚ) ≤ 4998 := by exact_mod_cast h2
    have hj0 : (3599 : ℚ) ≤ j := by exact_mod_cast h3
    rw [hc] at hcur
    rw [deltaLT.newSizeRounded_double_down
      (d := deltaLT.mk (5764607523034235 / 576460752303423488) 50 dim relaxStep) hcur
      roundDouble_hundredth_step (by norm_num) (by norm_num; linarith)
      (by norm_num; linarith)]
    congr 1
    rw [hc1]
    have hqpos : (0 : ℚ) < (9008606629621954 - ((j : ℚ) - 3599) * 1407374883553) / 2 ^ 47 -
        5764607523034235 / 576460752303423488 := by
      norm_num
      linarith
    apply roundDouble_eq_of_near (by norm_num) (by norm_num)
    · rw [abs_of_pos hqpos]
      norm_num
      linarith
    · rw [abs_of_pos hqpos]
      norm_num
      linarith
    · push_cast
      have : ((9008606629621954 - ((j : ℚ) - 3599) * 1407374883553) / 2 ^ 47 -
          5764607523034235 / 576460752303423488) * 2 ^ 47 -
          (9008606629621954 - ((j : ℚ) + 1 - 3599) * 1407374883553) =
          1407374883553 - 5764607523034235 / 4096 := by ring
      rw [this]
      norm_num [abs_lt]
  · have h4 : j = 4999 := by omega
    have hc : documentedTrace j = 7038281792647754 / 2 ^ 47 := by
      rw [h4]
      unfold documentedTrace
      norm_num
    have hc1 : documentedTrace (j + 1) = 50 := by
      unfold documentedTrace
      rw [if_neg (by omega), if_neg (by omega)]
    rw [hc] at hcur
    rw [hc1]
    apply deltaLT.newSizeRounded_near
      (d := deltaLT.mk (5764607523034235 / 576460752303423488) 50 dim relaxStep) hcur
    show ¬ |roundDouble (7038281792647754 / 2 ^ 47 - 50)| >
      (5764607523034235 / 576460752303423488 : ℚ)
    rw [documentedTrace_last]
    norm_num [abs_of_pos]

/-- When each call takes `c j` to `c (j + 1)` on axis `dim`, `n` calls take `c 0` to
`c n`. -/
theorem deltaLT.newSizeRoundedIter_trace {rd : ℚ → ℚ} {d : deltaLT} :
    ∀ (n : Nat) (c : Nat → ℚ) (s : threeVector),
      (∀ j, j < n → ∀ t, t.get d.dim = .ok (c j) →
        d.newSizeRounded rd t = t.set d.dim (c (j + 1))) →
      s.get d.dim = .ok (c 0) →
      ∃ t, d.newSizeRoundedIter rd n s = .ok t ∧ t.get d.dim = .ok (c n) := by
  intro n
  induction n with
  | zero =>
    intro c s _ hcur
    exact ⟨s, rfl, hcur⟩
  | succ n ih =>
    intro c s hstep hcur
    obtain ⟨w, hw⟩ := threeVector.set_defined hcur (c 1)
    have h0 : d.newSizeRounded rd s = .ok w := by
      rw [hstep 0 (Nat.succ_pos n) s hcur]
      exact hw
    obtain ⟨t, ht, hv⟩ := ih (fun j => c (j + 1)) w
      (fun j hj t ht => hstep (j + 1) (Nat.succ_lt_succ hj) t ht)
      (threeVector.get_set_same hw)
    refine ⟨t, ?_, hv⟩
    simp only [deltaLT.newSizeRoundedIter, h0, bind, Except.bind]
    exact ht

theorem documentedTrace_run (dim relaxStep : Int) (s : threeVector) (hcur : s.get dim = .ok 100)
    (n : Nat) (hn : n ≤ 5000) :
    ∃ t, (deltaLT.mk (roundDouble (1 / 100)) 50 dim relaxStep).newSizeRoundedIter
      roundDouble n s = .ok t ∧ t.get dim = .ok (documentedTrace n) := by
  have h0 : documentedTrace 0 = 100 := by
    unfold documentedTrace
    norm_num
  exact deltaLT.newSizeRoundedIter_trace
    (d := deltaLT.mk (roundDouble (1 / 100)) 50 dim relaxStep) n documentedTrace s
    (fun j hj t ht => documentedTrace_step dim relaxStep j (by omega) t ht) (by rw [h0]; exact hcur)

theorem documentedTrace_above (m : Nat) (hm : m < 5000) : 50 < documentedTrace m := by
  unfold documentedTrace
  by_cases h1 : m ≤ 3599
  · rw [if_pos h1]
    have : (m : ℚ) ≤ 3599 := by exact_mod_cast h1
    rw [lt_div_iff₀ (by positivity)]
    norm_num
    linarith
  · rw [if_neg h1, if_pos (by omega)]
    have : (m : ℚ) ≤ 4999 := by exact_mod_cast (by omega : m ≤ 4999)
    rw [lt_div_iff₀ (by positivity)]
    norm_num
    linarith

theorem documentedTrace_end : documentedTrace 5000 = 50 := by
  unfold documentedTrace
  norm_num


theorem deltaLT.newSizeRoundedIter_fixed {rd : ℚ → ℚ} {d : deltaLT} {s : threeVector}
    (h : d.newSizeRounded rd s = .ok s) : ∀ n, d.newSizeRoundedIter rd n s = .ok s := by
  intro n
  induction n with
  | zero => rfl
  | succ n ih =>
    simp only [deltaLT.newSizeRoundedIter, h, bind, Except.bind]
    exact ih

/-! ## Convergence in `double` arithmetic -/

/-- C2, amended: for `deltaL > 0` and a start size `s0` on axis `dim`, with
`n = ceil(|s0 - endL| / deltaL)`, when none of the `n` calls rounds an arithmetic result
(`rd` is the rounding of the scalar type: none in exact arithmetic, `roundDouble` for
`double`), `n` calls of `newSize` yield exactly `endL` on axis `dim`, and after every
`m < n` calls the value is still strictly on the side of `endL` where `s0` was. In
`double` arithmetic, from 100 with `endL = 50` and `deltaL` the `double` nearest to 0.01,
the value is exactly 50 after 5000 calls and above 50 after fewer; with `relaxStep = 10`
exactly 5000 of any 50000 consecutive steps are due. -/
theorem deltaLT.newSize_converges :
    (∀ (rd : ℚ → ℚ) (d : deltaLT) (s : threeVector) (s0 : ℚ), 0 < d.deltaL →
      s.get d.dim = .ok s0 →
      (∀ j, j < ⌈|s0 - d.endL| / d.deltaL⌉₊ → ∀ t c, d.newSizeRoundedIter rd j s = .ok t →
        t.get d.dim = .ok c → d.exactCall rd c) →
      (∃ t, d.newSizeRoundedIter rd ⌈|s0 - d.endL| / d.deltaL⌉₊ s = .ok t ∧
        t.get d.dim = .ok d.endL) ∧
      ∀ m, m < ⌈|s0 - d.endL| / d.deltaL⌉₊ →
        ∃ t v, d.newSizeRoundedIter rd m s = .ok t ∧ t.get d.dim = .ok v ∧ v ≠ d.endL ∧
          (d.endL < s0 → d.endL < v) ∧ (s0 < d.endL → v < d.endL)) ∧
    (∀ (dim relaxStep : Int) (s : threeVector), s.get dim = .ok 100 →
      (∃ t, (deltaLT.mk (roundDouble (1/100)) 50 dim relaxStep).newSizeRoundedIter
          roundDouble 5000 s = .ok t ∧ t.get dim = .ok 50) ∧
      ∀ m, m < 5000 →
        ∃ t v, (deltaLT.mk (roundDouble (1/100)) 50 dim relaxStep).newSizeRoundedIter
          roundDouble m s = .ok t ∧ t.get dim = .ok v ∧ 50 < v) ∧
    (∀ (dim step : Int),
      (deltaLT.mk (roundDouble (1/100)) 50 dim 10).dueSteps step 50000 = 5000) := by
  refine ⟨?_, ?_, ?_⟩
  · intro rd d s s0 hpos hcur hexact
    constructor
    · rw [deltaLT.newSizeRoundedIter_of_exact _ s hexact]
      exact deltaLT.newSizeIter_reaches hpos hcur
    · intro m hm
      rw [deltaLT.newSizeRoundedIter_of_exact m s
        (fun j hj => hexact j (lt_trans hj hm))]
      obtain ⟨t, v, h1, h2, h3, h4, h5, _⟩ := deltaLT.newSizeIter_before hpos hcur m hm
      exact ⟨t, v, h1, h2, h3, h4, h5⟩
  · intro dim relaxStep s hcur
    constructor
    · obtain ⟨t, h1, h2⟩ := documentedTrace_run dim relaxStep s hcur 5000 (le_refl _)
      exact ⟨t, h1, by rw [h2, documentedTrace_end]⟩
    · intro m hm
      obtain ⟨t, h1, h2⟩ := documentedTrace_run dim relaxStep s hcur m hm.le
      exact ⟨t, documentedTrace m, h1, h2, documentedTrace_above m hm⟩
  · intro dim step
    have hact : roundDouble (1/100) ≠ 0 := by
      rw [roundDouble_hundredth]
      norm_num
    exact deltaLT.dueSteps_blocks (d := deltaLT.mk (roundDouble (1/100)) 50 dim 10) hact
      (r := 10) (by norm_num) rfl 5000 step

/-- C2, amended, in `double` arithmetic: from 3 toward `endL = 1` with `deltaL = 0.5` on
axis 0, where no call rounds, the size is 1 after 4 calls and above 1 after 3; and the
documented run on the box `(25, 55, 100)` with `dim = 2`, `relaxStep = 10`, steps 0 to
49999. -/
theorem deltaLT.newSize_converges_witness :
    ((0 : ℚ) < 1/2 ∧ (threeVector.mk 3 0 0).get 0 = .ok 3 ∧
      ⌈|(3 : ℚ) - 1| / (1/2)⌉₊ = 4 ∧
      (∀ j, j < 4 → ∀ t c,
        (deltaLT.mk (1/2) 1 0 1).newSizeRoundedIter roundDouble j ⟨3, 0, 0⟩ = .ok t →
        t.get 0 = .ok c → (deltaLT.mk (1/2) 1 0 1).exactCall roundDouble c) ∧
      (∃ t, (deltaLT.mk (1/2) 1 0 1).newSizeRoundedIter roundDouble 4 ⟨3, 0, 0⟩ = .ok t ∧
        t.get 0 = .ok 1) ∧
      ∃ t v, (deltaLT.mk (1/2) 1 0 1).newSizeRoundedIter roundDouble 3 ⟨3, 0, 0⟩ = .ok t ∧
        t.get 0 = .ok v ∧ v ≠ 1 ∧ ((1 : ℚ) < 3 → 1 < v) ∧ ((3 : ℚ) < 1 → v < 1)) ∧
    ((∃ t, (deltaLT.mk (roundDouble (1/100)) 50 2 10).newSizeRoundedIter roundDouble 5000
        ⟨25, 55, 100⟩ = .ok t ∧ t.get 2 = .ok 50) ∧
      ∃ t v, (deltaLT.mk (roundDouble (1/100)) 50 2 10).newSizeRoundedIter roundDouble 4999
        ⟨25, 55, 100⟩ = .ok t ∧ t.get 2 = .ok v ∧ 50 < v) ∧
    (deltaLT.mk (roundDouble (1/100)) 50 2 10).dueSteps 0 50000 = 5000 := by
  have hceil : ⌈|(3 : ℚ) - 1| / (1/2)⌉₊ = 4 := by
    have : |(3 : ℚ) - 1| / (1/2) = ((4 : Nat) : ℚ) := by norm_num
    rw [this, Nat.ceil_natCast]
  have hexact : ∀ j, j < 4 → ∀ t c,
      (deltaLT.mk (1/2) 1 0 1).newSizeRoundedIter roundDouble j ⟨3, 0, 0⟩ = .ok t →
      t.get 0 = .ok c → (deltaLT.mk (1/2) 1 0 1).exactCall roundDouble c := by
    have h0 : (deltaLT.mk (1/2) 1 0 1).newSizeRoundedIter roundDouble 0 ⟨3, 0, 0⟩ =
        .ok ⟨3, 0, 0⟩ := rfl
    have h1 : (deltaLT.mk (1/2) 1 0 1).newSizeRoundedIter roundDouble 1 ⟨3, 0, 0⟩ =
        .ok ⟨5/2, 0, 0⟩ := ok_of_toOption (by decide!)
    have h2 : (deltaLT.mk (1/2) 1 0 1).newSizeRoundedIter roundDouble 2 ⟨3, 0, 0⟩ =
        .ok ⟨2, 0, 0⟩ := ok_of_toOption (by decide!)
    have h3 : (deltaLT.mk (1/2) 1 0 1).newSizeRoundedIter roundDouble 3 ⟨3, 0, 0⟩ =
        .ok ⟨3/2, 0, 0⟩ := ok_of_toOption (by decide!)
    intro j hj t c ht hc
    interval_cases j
    · rw [h0] at ht
      cases ht
      cases hc
      unfold deltaLT.exactCall
      decide!
    · rw [h1] at ht
      cases ht
      cases hc
      unfold deltaLT.exactCall
      decide!
    · rw [h2] at ht
      cases ht
      cases hc
      unfold deltaLT.exactCall
      decide!
    · rw [h3] at ht
      cases ht
      cases hc
      unfold deltaLT.exactCall
      decide!
  have hgen := deltaLT.newSize_converges.1 roundDouble (deltaLT.mk (1/2) 1 0 1) ⟨3, 0, 0⟩ 3
    (by norm_num) rfl
  simp only [hceil] at hgen
  exact ⟨⟨by norm_num, rfl, hceil, hexact, (hgen hexact).1, (hgen hexact).2 3 (by norm_num)⟩,
    ⟨(deltaLT.newSize_converges.2.1 2 10 ⟨25, 55, 100⟩ rfl).1,
      (deltaLT.newSize_converges.2.1 2 10 ⟨25, 55, 100⟩ rfl).2 4999 (by norm_num)⟩,
    deltaLT.newSize_converges.2.2 2 0⟩

/-- C2 fails in `double` arithmetic. From 0 toward `endL = 1` with `deltaL` the `double`
nearest to 0.1 on axis 0, `ceil(|0 - 1| / deltaL)` is 10, after 10 calls the size is
`1 - 2 ^ -53`, not 1, and only the 11th call yields 1. From `2 ^ 54` toward `endL = 0`
with `deltaL = 1` the difference `2 ^ 54 - 1` rounds back to `2 ^ 54`, so the size never
changes, however many calls are made. -/
theorem deltaLT.newSize_converges_counterexample :
    ((0 : ℚ) < roundDouble (1/10) ∧
      (threeVector.mk 0 0 0).get (deltaLT.mk (roundDouble (1/10)) 1 0 1).dim = .ok 0 ∧
      ⌈|(0 : ℚ) - 1| / roundDouble (1/10)⌉₊ = 10 ∧
      (deltaLT.mk (roundDouble (1/10)) 1 0 1).newSizeRoundedIter roundDouble 10 ⟨0, 0, 0⟩ =
        .ok ⟨9007199254740991/9007199254740992, 0, 0⟩ ∧
      (9007199254740991/9007199254740992 : ℚ) ≠ 1 ∧
      (deltaLT.mk (roundDouble (1/10)) 1 0 1).newSizeRoundedIter roundDouble 11 ⟨0, 0, 0⟩ =
        .ok ⟨1, 0, 0⟩ ∧
      ¬ ∃ t, (deltaLT.mk (roundDouble (1/10)) 1 0 1).newSizeRoundedIter roundDouble
          ⌈|(0 : ℚ) - 1| / roundDouble (1/10)⌉₊ ⟨0, 0, 0⟩ = .ok t ∧
        t.get (deltaLT.mk (roundDouble (1/10)) 1 0 1).dim = .ok 1) ∧
    ((0 : ℚ) < 1 ∧
      (threeVector.mk 18014398509481984 0 0).get (deltaLT.mk 1 0 0 1).dim =
        .ok 18014398509481984 ∧
      (18014398509481984 : ℚ) = 2 ^ 54 ∧ (18014398509481984 : ℚ) ≠ 0 ∧
      ∀ n, (deltaLT.mk 1 0 0 1).newSizeRoundedIter roundDouble n
        ⟨18014398509481984, 0, 0⟩ = .ok ⟨18014398509481984, 0, 0⟩) := by
  have hceil : ⌈|(0 : ℚ) - 1| / roundDouble (1/10)⌉₊ = 10 := by decide!
  have h10 : (deltaLT.mk (roundDouble (1/10)) 1 0 1).newSizeRoundedIter roundDouble 10
      ⟨0, 0, 0⟩ = .ok ⟨9007199254740991/9007199254740992, 0, 0⟩ :=
    ok_of_toOption (by decide!)
  have hfix : (deltaLT.mk 1 0 0 1).newSizeRounded roundDouble ⟨18014398509481984, 0, 0⟩ =
      .ok ⟨18014398509481984, 0, 0⟩ := ok_of_toOption (by decide!)
  refine ⟨⟨by decide!, rfl, hceil, h10, by norm_num, ok_of_toOption (by decide!), ?_⟩,
    by norm_num, rfl, by norm_num, by norm_num, deltaLT.newSizeRoundedIter_fixed hfix⟩
  rw [hceil, h10]
  rintro ⟨t, ht, hv⟩
  cases ht
  simp only [threeVector.get] at hv
  norm_num at hv

/-! ## Rounding errors of `double` arithmetic -/

theorem roundHalfEven_neg (a : Int) {b : Nat} (hb : 0 < b) :
    roundHalfEven (-a) b = -roundHalfEven a b := by
  have hb0 : (0 : Int) < b := by exact_mod_cast hb
  have hdiv : (b : Int) * (a / b) + a % b = a := Int.ediv_add_emod a b
  have hr0 : 0 ≤ a % (b : Int) := Int.emod_nonneg a (ne_of_gt hb0)
  have hr1 : a % (b : Int) < b := Int.emod_lt_of_pos a hb0
  have hdiv2 : (b : Int) * (-a / b) + -a % b = -a := Int.ediv_add_emod (-a) b
  have hs0 : 0 ≤ -a % (b : Int) := Int.emod_nonneg (-a) (ne_of_gt hb0)
  have hs1 : -a % (b : Int) < b := Int.emod_lt_of_pos (-a) hb0
  unfold roundHalfEven
  simp only []
  set f := a / (b : Int) with hf
  set r := a % (b : Int) with hr
  set g := -a / (b : Int) with hg
  set u := -a % (b : Int) with hu
  have hsum : (b : Int) * (f + g) + (r + u) = 0 := by
    have : (b : Int) * (f + g) + (r + u) = (b * f + r) + (b * g + u) := by ring
    rw [this, hdiv, hdiv2]
    ring
  have ht : (f + g = 0 ∧ r + u = 0) ∨ (f + g = -1 ∧ r + u = b) := by
    rcases lt_trichotomy (f + g) (-1) with h | h | h
    · exfalso
      have hle : f + g ≤ -2 := by omega
      have : (b : Int) * (f + g) ≤ b * (-2) := mul_le_mul_of_nonneg_left hle hb0.le
      nlinarith
    · right
      refine ⟨h, ?_⟩
      rw [h] at hsum
      linarith
    · rcases eq_or_lt_of_le (show 0 ≤ f + g by omega) with h0 | hpos
      · left
        refine ⟨h0.symm, ?_⟩
        rw [← h0] at hsum
        linarith
      · exfalso
        have hge : 1 ≤ f + g := by omega
        have : (b : Int) * 1 ≤ b * (f + g) := mul_le_mul_of_nonneg_left hge hb0.le
        nlinarith
  rcases ht with ⟨h1, h2⟩ | ⟨h1, h2⟩
  · have hr00 : r = 0 := by omega
    have hu00 : u = 0 := by omega
    have hg' : g = -f := by omega
    rw [hr00, hu00, hg']
    simp [hb0]
  · have hu' : u = b - r := by omega
    have hg' : g = -f - 1 := by omega
    rw [hu', hg']
    split_ifs <;> omega

theorem binExp_neg (q : ℚ) : binExp (-q) = binExp q := by
  unfold binExp
  simp only [Rat.neg_num, Rat.neg_den, Int.natAbs_neg]

/-- Rounding is symmetric under negation. -/
theorem roundDouble_neg (q : ℚ) : roundDouble (-q) = -roundDouble q := by
  unfold roundDouble
  by_cases hq : q = 0
  · simp [hq]
  · have hq' : -q ≠ 0 := neg_ne_zero.mpr hq
    rw [if_neg hq, if_neg hq']
    simp only [binExp_neg, Rat.neg_num, Rat.neg_den]
    split_ifs with hk
    · rw [roundHalfEven_neg _ (by positivity)]
      push_cast
      ring
    · rw [neg_mul, roundHalfEven_neg _ q.den_pos]
      push_cast
      ring

theorem roundDouble_subnormal {q : ℚ} (hq : q ≠ 0) (hsmall : |q| < 1 / 2 ^ 1022) :
    roundDouble q = (roundHalfEven (q.num * 2 ^ 1074) q.den : ℚ) / 2 ^ 1074 := by
  have two : (1 : ℚ) < 2 := by norm_num
  obtain ⟨s1, _⟩ := binExp_spec hq
  have he : binExp q < -1022 := by
    by_contra hc
    have : (2 : ℚ) ^ (-1022 : Int) ≤ 2 ^ binExp q := zpow_le_zpow_right₀ two.le (by omega)
    have h52 : (2 : ℚ) ^ (-1022 : Int) = 1 / 2 ^ 1022 := by
      rw [zpow_neg, one_div]
      norm_cast
    exact absurd (lt_of_le_of_lt (h52.symm.le.trans (this.trans s1)) hsmall) (lt_irrefl _)
  unfold roundDouble
  rw [if_neg hq]
  have hk : max (binExp q) (-1022) - 52 = -((1074 : Nat) : Int) := by
    rw [max_eq_right (by omega)]
    norm_num
  simp only [hk]
  rw [if_neg (by norm_num)]
  simp only [neg_neg, Int.toNat_natCast, zpow_neg, zpow_natCast]
  rfl

/-- Below `2 ^ -1022` the rounding error is at most half the spacing `2 ^ -1074`. -/
theorem roundDouble_err_subnormal {q : ℚ} (hsmall : |q| < 1 / 2 ^ 1022) :
    |roundDouble q - q| ≤ 1 / 2 ^ 1075 := by
  by_cases hq : q = 0
  · rw [hq]
    have : roundDouble 0 = 0 := rfl
    rw [this]
    norm_num
  · rw [roundDouble_subnormal hq hsmall]
    have hnear := roundHalfEven_near_rat q 1074
    have hP : (0 : ℚ) < 2 ^ 1074 := by positivity
    have : (roundHalfEven (q.num * 2 ^ 1074) q.den : ℚ) / 2 ^ 1074 - q =
        -(q * 2 ^ 1074 - (roundHalfEven (q.num * 2 ^ 1074) q.den : ℚ)) / 2 ^ 1074 := by
      field_simp
      ring
    rw [this, abs_div, abs_neg, abs_of_pos hP, div_le_iff₀ hP]
    have h2 : (1 : ℚ) / 2 ^ 1075 * 2 ^ 1074 = 1 / 2 := by
      rw [pow_succ]
      field_simp
    rw [h2]
    exact hnear

/-- From `2 ^ -1022` up to `2 ^ 52` the rounding error is at most `|q| * 2 ^ -53`. -/
theorem roundDouble_err_normal {q : ℚ} (h1 : (1 : ℚ) / 2 ^ 1022 ≤ |q|) (h2 : |q| < 2 ^ 52) :
    |roundDouble q - q| ≤ |q| / 2 ^ 53 := by
  have hpos : 0 < |q| := lt_of_lt_of_le (by positivity) h1
  have hq : q ≠ 0 := abs_pos.mp hpos
  have two : (1 : ℚ) < 2 := by norm_num
  obtain ⟨s1, s2⟩ := binExp_spec hq
  have he2 : binExp q ≤ 51 := by
    by_contra hc
    have : (2 : ℚ) ^ (52 : Int) ≤ 2 ^ binExp q := zpow_le_zpow_right₀ two.le (by omega)
    have h52 : (2 : ℚ) ^ (52 : Int) = 2 ^ 52 := by norm_cast
    exact absurd (lt_of_le_of_lt (h52.symm.le.trans (this.trans s1)) h2) (lt_irrefl _)
  have he1 : -1022 ≤ binExp q := by
    by_contra hc
    have : (2 : ℚ) ^ (binExp q + 1) ≤ 2 ^ (-1022 : Int) := zpow_le_zpow_right₀ two.le (by omega)
    have h52 : (2 : ℚ) ^ (-1022 : Int) = 1 / 2 ^ 1022 := by
      rw [zpow_neg, one_div]
      norm_cast
    exact absurd (lt_of_lt_of_le s2 (this.trans h52.le)) (not_lt.mpr h1)
  obtain ⟨N, hN⟩ : ∃ N : Nat, (N : Int) = 52 - binExp q := ⟨(52 - binExp q).toNat, by omega⟩
  have hP : (0 : ℚ) < 2 ^ N := by positivity
  have hpow : (2 : ℚ) ^ binExp q * 2 ^ N = 2 ^ 52 := by
    rw [← zpow_natCast, ← zpow_add₀ (by norm_num), hN]
    have : binExp q + (52 - binExp q) = (52 : Nat) := by omega
    rw [this, zpow_natCast]
  have hpow2 : (2 : ℚ) ^ (binExp q + 1) * 2 ^ N = 2 ^ 53 := by
    rw [← zpow_natCast, ← zpow_add₀ (by norm_num), hN]
    have : binExp q + 1 + (52 - binExp q) = (53 : Nat) := by omega
    rw [this, zpow_natCast]
  have hlo : (2 : ℚ) ^ 52 ≤ |q| * 2 ^ N := by
    rw [← hpow]
    exact mul_le_mul_of_nonneg_right s1 hP.le
  have hhi : |q| * 2 ^ N < 2 ^ 53 := by
    rw [← hpow2]
    exact mul_lt_mul_of_pos_right s2 hP
  rw [roundDouble_normal (by omega) (by omega) hlo hhi]
  have hnear := roundHalfEven_near_rat q N
  have : (roundHalfEven (q.num * 2 ^ N) q.den : ℚ) / 2 ^ N - q =
      -(q * 2 ^ N - (roundHalfEven (q.num * 2 ^ N) q.den : ℚ)) / 2 ^ N := by
    field_simp
    ring
  rw [this, abs_div, abs_neg, abs_of_pos hP, div_le_iff₀ hP]
  have h53 : (2 : ℚ) ^ 53 = 2 * 2 ^ 52 := by norm_num
  have : (1 : ℚ) / 2 ≤ |q| / 2 ^ 53 * 2 ^ N := by
    rw [div_mul_eq_mul_div, le_div_iff₀ (by positivity)]
    linarith
  linarith

theorem roundDouble_err_le {q b : ℚ} (hb1 : (1 : ℚ) / 2 ^ 1022 ≤ b) (hb2 : b < 2 ^ 52)
    (hq : |q| ≤ b) : |roundDouble q - q| ≤ b / 2 ^ 53 := by
  by_cases hn : (1 : ℚ) / 2 ^ 1022 ≤ |q|
  · have h := roundDouble_err_normal hn (lt_of_le_of_lt hq hb2)
    have : |q| / 2 ^ 53 ≤ b / 2 ^ 53 := div_le_div_of_nonneg_right hq (by positivity)
    exact h.trans this
  · have h := roundDouble_err_subnormal (not_le.mp hn)
    have : (1 : ℚ) / 2 ^ 1075 ≤ b / 2 ^ 53 := by
      have e : (1 : ℚ) / 2 ^ 1075 = 1 / 2 ^ 1022 / 2 ^ 53 := by
        rw [div_div, ← pow_add]
      rw [e]
      exact div_le_div_of_nonneg_right hb1 (by positivity)
    exact h.trans this

/-- One call of `newSize` in `double` arithmetic, for a step `deltaL` that is a normal
positive `double` and sizes below `2 ^ 51`: the size on axis `dim` moves by at most
`deltaL` and a rounding error. -/
theorem deltaLT.newSizeRounded_double_bound (d : deltaLT) (s : threeVector) (cur : ℚ)
    (hcur : s.get d.dim = .ok cur) (hmin : (1 : ℚ) / 2 ^ 1022 ≤ d.deltaL)
    (hdouble : roundDouble d.deltaL = d.deltaL) (hstep : d.deltaL < 2 ^ 51)
    (hsize : |cur| < 2 ^ 51) (hend : |d.endL| < 2 ^ 51) :
    ∃ n v, d.newSizeRounded roundDouble s = .ok n ∧ n.get d.dim = .ok v ∧
      |v - cur| ≤ d.deltaL * (1 + 1 / 2 ^ 52) + |cur| / 2 ^ 53 := by
  have hpos : 0 < d.deltaL := lt_of_lt_of_le (by positivity) hmin
  have hcabs : 0 ≤ |cur| := abs_nonneg cur
  have hb1 : (1 : ℚ) / 2 ^ 1022 ≤ |cur| + d.deltaL := by linarith
  have hb2 : |cur| + d.deltaL < 2 ^ 52 := by
    have : (2 : ℚ) ^ 52 = 2 ^ 51 + 2 ^ 51 := by norm_num
    linarith
  have hfarBound : ∀ q : ℚ, |q - cur| = d.deltaL →
      |roundDouble q - cur| ≤ d.deltaL * (1 + 1 / 2 ^ 52) + |cur| / 2 ^ 53 := by
    intro q hq
    have hqb : |q| ≤ |cur| + d.deltaL := by
      have : q = cur + (q - cur) := by ring
      rw [this]
      exact (abs_add _ _).trans (by rw [hq])
    have herr := roundDouble_err_le hb1 hb2 hqb
    have htri : |roundDouble q - cur| ≤ |roundDouble q - q| + |q - cur| := by
      have : roundDouble q - cur = (roundDouble q - q) + (q - cur) := by ring
      rw [this]
      exact abs_add _ _
    rw [hq] at htri
    have hsplit : (|cur| + d.deltaL) / 2 ^ 53 = |cur| / 2 ^ 53 + d.deltaL / 2 ^ 53 := by ring
    have hsmall : d.deltaL / 2 ^ 53 ≤ d.deltaL * (1 / 2 ^ 52) := by
      rw [div_eq_mul_one_div]
      exact mul_le_mul_of_nonneg_left (by norm_num) hpos.le
    rw [hsplit] at herr
    linarith
  unfold deltaLT.newSizeRounded
  simp only [hcur, bind, Except.bind]
  by_cases hfar : |roundDouble (cur - d.endL)| > d.deltaL
  · rw [if_pos hfar]
    have hne : |roundDouble (cur - d.endL)| ≠ 0 := ne_of_gt (lt_trans hpos hfar)
    simp only [divide, if_neg hne]
    rcases lt_or_gt_of_ne (abs_ne_zero.mp hne) with hneg | hgt
    · have hq : roundDouble (cur - d.endL) / |roundDouble (cur - d.endL)| = -1 := by
        rw [abs_of_neg hneg, div_neg, div_self (ne_of_lt hneg)]
      have hdir : roundDouble (-1) = -1 := by
        rw [roundDouble_neg, roundDouble_one]
      have hmul : roundDouble (d.deltaL * -1) = -d.deltaL := by
        rw [mul_neg, mul_one, roundDouble_neg, hdouble]
      rw [hq, hdir, hmul]
      obtain ⟨n, hn⟩ := threeVector.set_defined hcur (roundDouble (cur - -d.deltaL))
      refine ⟨n, _, hn, threeVector.get_set_same hn, hfarBound _ ?_⟩
      have : cur - -d.deltaL - cur = d.deltaL := by ring
      rw [this, abs_of_pos hpos]
    · have hq : roundDouble (cur - d.endL) / |roundDouble (cur - d.endL)| = 1 := by
        rw [abs_of_pos hgt, div_self (ne_of_gt hgt)]
      have hmul : roundDouble (d.deltaL * 1) = d.deltaL := by
        rw [mul_one, hdouble]
      rw [hq, roundDouble_one, hmul]
      obtain ⟨n, hn⟩ := threeVector.set_defined hcur (roundDouble (cur - d.deltaL))
      refine ⟨n, _, hn, threeVector.get_set_same hn, hfarBound _ ?_⟩
      have : cur - d.deltaL - cur = -d.deltaL := by ring
      rw [this, abs_neg, abs_of_pos hpos]
  · rw [if_neg hfar]
    obtain ⟨n, hn⟩ := threeVector.set_defined hcur d.endL
    refine ⟨n, _, hn, threeVector.get_set_same hn, ?_⟩
    have hD : |roundDouble (cur - d.endL)| ≤ d.deltaL := not_lt.mp hfar
    have hsym : |d.endL - cur| = |cur - d.endL| := abs_sub_comm _ _
    rw [hsym]
    have hgoal : |cur - d.endL| ≤ d.deltaL * (1 + 1 / 2 ^ 52) := by
      by_cases hn2 : (1 : ℚ) / 2 ^ 1022 ≤ |cur - d.endL|
      · have hlt : |cur - d.endL| < 2 ^ 52 := by
          have h1 : |cur - d.endL| ≤ |cur| + |d.endL| := abs_sub _ _
          have : (2 : ℚ) ^ 52 = 2 ^ 51 + 2 ^ 51 := by norm_num
          linarith
        have herr := roundDouble_err_normal hn2 hlt
        have h2 : |cur - d.endL| ≤ |roundDouble (cur - d.endL)| +
            |roundDouble (cur - d.endL) - (cur - d.endL)| := by
          have : cur - d.endL = roundDouble (cur - d.endL) -
              (roundDouble (cur - d.endL) - (cur - d.endL)) := by ring
          conv_lhs => rw [this]
          exact abs_sub _ _
        have h3 : |cur - d.endL| * (1 - 1 / 2 ^ 53) ≤ d.deltaL := by
          have : |cur - d.endL| * (1 - 1 / 2 ^ 53) =
              |cur - d.endL| - |cur - d.endL| / 2 ^ 53 := by ring
          rw [this]
          linarith
        have h4 : |cur - d.endL| ≤ |cur - d.endL| * (1 - 1 / 2 ^ 53) * (1 + 1 / 2 ^ 52) := by
          have hx : 0 ≤ |cur - d.endL| := abs_nonneg _
          have : |cur - d.endL| * (1 - 1 / 2 ^ 53) * (1 + 1 / 2 ^ 52) =
              |cur - d.endL| + |cur - d.endL| * ((1 - 1 / 2 ^ 53) * (1 + 1 / 2 ^ 52) - 1) := by
            ring
          rw [this]
          have : (0 : ℚ) ≤ (1 - 1 / 2 ^ 53) * (1 + 1 / 2 ^ 52) - 1 := by norm_num
          have := mul_nonneg hx this
          linarith
        exact h4.trans (mul_le_mul_of_nonneg_right h3 (by norm_num))
      · have h1 : |cur - d.endL| ≤ d.deltaL := le_trans (not_le.mp hn2).le hmin
        have : d.deltaL ≤ d.deltaL * (1 + 1 / 2 ^ 52) := by
          have : d.deltaL * (1 + 1 / 2 ^ 52) = d.deltaL + d.deltaL * (1 / 2 ^ 52) := by ring
          rw [this]
          have := mul_nonneg hpos.le (show (0 : ℚ) ≤ 1 / 2 ^ 52 by norm_num)
          linarith
        exact h1.trans this
    have : (0 : ℚ) ≤ |cur| / 2 ^ 53 := by positivity
    linarith

theorem deltaLT.newSizeRounded_shape {rd : ℚ → ℚ} {d : deltaLT} {s n : threeVector}
    (hn : d.newSizeRounded rd s = .ok n) : ∃ a, s.set d.dim a = .ok n := by
  unfold deltaLT.newSizeRounded at hn
  cases hcur : s.get d.dim with
  | error e => simp [hcur, bind, Except.bind] at hn
  | ok cur =>
    simp only [hcur, bind, Except.bind] at hn
    split_ifs at hn
    · cases hdiv : divide (rd (cur - d.endL)) |rd (cur - d.endL)| with
      | error e => simp [hdiv] at hn
      | ok q => exact ⟨_, by simpa [hdiv] using hn⟩
    · exact ⟨_, hn⟩

theorem threeVector.mulRounded_get {rd : ℚ → ℚ} {a b : threeVector} {i : Int} {x y : ℚ}
    (ha : a.get i = .ok x) (hb : b.get i = .ok y) :
    (a.mulRounded rd b).get i = .ok (rd (x * y)) := by
  have hi := threeVector.get_valid ha
  unfold threeVector.get at ha hb ⊢
  unfold threeVector.mulRounded
  rcases hi with h | h | h <;> simp [h] at ha hb ⊢ <;> rw [ha, hb]

/-- On the axes other than `dim` the scale factor is 1, the new size is the old size, and
the product of a `double` by 1 is that `double`. -/
theorem deltaLT.scaleFactorRounded_other_axes {rd : ℚ → ℚ} {d : deltaLT}
    {s sc n : threeVector} (hsc : d.scaleFactorRounded rd s = .ok sc)
    (hn : d.newSizeRounded rd s = .ok n) (j : Int) (a : ℚ) (hj : j ≠ d.dim)
    (ha : s.get j = .ok a) (hrep : rd a = a) :
    (s.mulRounded rd sc).get j = .ok a ∧ n.get j = .ok a := by
  obtain ⟨x, hx⟩ := deltaLT.newSizeRounded_shape hn
  have hnj : n.get j = .ok a := by
    rw [threeVector.get_set_other hx j hj]
    exact ha
  refine ⟨?_, hnj⟩
  have hshape : ∃ y, (threeVector.splat 1).set d.dim y = .ok sc := by
    unfold deltaLT.scaleFactorRounded at hsc
    simp only [hn, bind, Except.bind] at hsc
    cases hv : n.get d.dim with
    | error e => simp [hv] at hsc
    | ok v =>
      cases ho : s.get d.dim with
      | error e => simp [hv, ho] at hsc
      | ok o =>
        cases hdiv : divide (rd (v - o)) o with
        | error e => simp [hv, ho, hdiv] at hsc
        | ok q => exact ⟨_, by simpa [hv, ho, hdiv] using hsc⟩
  obtain ⟨y, hy⟩ := hshape
  have hone : (threeVector.splat 1).get j = .ok 1 := by
    have hi := threeVector.get_valid ha
    unfold threeVector.get threeVector.splat
    rcases hi with h | h | h <;> simp [h]
  have hscj : sc.get j = .ok 1 := by
    rw [threeVector.get_set_other hy j hj]
    exact hone
  rw [threeVector.mulRounded_get ha hscj, mul_one, hrep]

/-- The product of the old size and the scale factor in `double` arithmetic, for a step
`deltaL` that is a normal positive `double` not above the old size and sizes below
`2 ^ 49`: on axis `dim` it is the new size up to a rounding error. -/
theorem deltaLT.scaleFactorRounded_double_bound (d : deltaLT) (s : threeVector) (o : ℚ)
    (hcur : s.get d.dim = .ok o) (hmin : (1 : ℚ) / 2 ^ 1022 ≤ d.deltaL)
    (hdouble : roundDouble d.deltaL = d.deltaL) (hstep : d.deltaL ≤ |o|)
    (hsize : |o| < 2 ^ 49) (hend : |d.endL| < 2 ^ 49) :
    ∃ sc n p v, d.scaleFactorRounded roundDouble s = .ok sc ∧
      d.newSizeRounded roundDouble s = .ok n ∧
      (s.mulRounded roundDouble sc).get d.dim = .ok p ∧ n.get d.dim = .ok v ∧
      |p - v| ≤ |o| / 2 ^ 49 := by
  have hpos : 0 < d.deltaL := lt_of_lt_of_le (by positivity) hmin
  have hA : 0 < |o| := lt_of_lt_of_le hpos hstep
  have ho : o ≠ 0 := abs_pos.mp hA
  have h4951 : (2 : ℚ) ^ 49 < 2 ^ 51 := by norm_num
  obtain ⟨n, v, hn, hv, hbound⟩ := deltaLT.newSizeRounded_double_bound d s o hcur hmin hdouble
    (lt_of_le_of_lt hstep (lt_trans hsize h4951)) (lt_trans hsize h4951)
    (lt_trans hend h4951)
  have hx1 : |v - o| ≤ 2 * |o| := by
    have h1 : d.deltaL * (1 + 1 / 2 ^ 52) ≤ |o| * (1 + 1 / 2 ^ 52) :=
      mul_le_mul_of_nonneg_right hstep (by norm_num)
    have h2 : |o| * (1 + 1 / 2 ^ 52) + |o| / 2 ^ 53 ≤ 2 * |o| := by
      have : 2 * |o| - (|o| * (1 + 1 / 2 ^ 52) + |o| / 2 ^ 53) =
          |o| * (1 - 1 / 2 ^ 52 - 1 / 2 ^ 53) := by ring
      have h3 : 0 ≤ |o| * (1 - 1 / 2 ^ 52 - 1 / 2 ^ 53) :=
        mul_nonneg hA.le (by norm_num)
      linarith
    linarith
  have hmin2 : (1 : ℚ) / 2 ^ 1022 ≤ |o| := hmin.trans hstep
  -- the four rounded results
  have he1 := roundDouble_err_le (q := v - o) (b := 2 * |o|) (by linarith)
    (by
      have : (2 : ℚ) ^ 52 = 8 * 2 ^ 49 := by norm_num
      linarith) hx1
  have hd1 : |roundDouble (v - o)| ≤ 3 * |o| := by
    have : roundDouble (v - o) = (roundDouble (v - o) - (v - o)) + (v - o) := by ring
    rw [this]
    refine (abs_add _ _).trans ?_
    have : 2 * |o| / 2 ^ 53 ≤ |o| := by
      rw [div_le_iff₀ (by positivity)]
      nlinarith
    linarith
  have hx2 : |roundDouble (v - o) / o| ≤ 3 := by
    rw [abs_div, div_le_iff₀ hA]
    exact hd1
  have he2 := roundDouble_err_le (q := roundDouble (v - o) / o) (b := 3)
    (by
      have : (1 : ℚ) / 2 ^ 1022 ≤ 1 := by
        rw [div_le_one (by positivity)]
        exact one_le_pow₀ (by norm_num)
      linarith) (by norm_num) hx2
  have hq1 : |roundDouble (roundDouble (v - o) / o)| ≤ 4 := by
    have : roundDouble (roundDouble (v - o) / o) =
        (roundDouble (roundDouble (v - o) / o) - roundDouble (v - o) / o) +
          roundDouble (v - o) / o := by ring
    rw [this]
    refine (abs_add _ _).trans ?_
    have : (3 : ℚ) / 2 ^ 53 ≤ 1 := by norm_num
    linarith
  have hx3 : |1 + roundDouble (roundDouble (v - o) / o)| ≤ 5 := by
    refine (abs_add _ _).trans ?_
    rw [abs_one]
    linarith
  have he3 := roundDouble_err_le (q := 1 + roundDouble (roundDouble (v - o) / o)) (b := 5)
    (by
      have : (1 : ℚ) / 2 ^ 1022 ≤ 1 := by
        rw [div_le_one (by positivity)]
        exact one_le_pow₀ (by norm_num)
      linarith) (by norm_num) hx3
  have hf : |roundDouble (1 + roundDouble (roundDouble (v - o) / o))| ≤ 6 := by
    have : roundDouble (1 + roundDouble (roundDouble (v - o) / o)) =
        (roundDouble (1 + roundDouble (roundDouble (v - o) / o)) -
          (1 + roundDouble (roundDouble (v - o) / o))) +
          (1 + roundDouble (roundDouble (v - o) / o)) := by ring
    rw [this]
    refine (abs_add _ _).trans ?_
    have : (5 : ℚ) / 2 ^ 53 ≤ 1 := by norm_num
    linarith
  have hx4 : |o * roundDouble (1 + roundDouble (roundDouble (v - o) / o))| ≤ 6 * |o| := by
    rw [abs_mul, mul_comm]
    exact mul_le_mul_of_nonneg_right hf hA.le
  have he4 := roundDouble_err_le
    (q := o * roundDouble (1 + roundDouble (roundDouble (v - o) / o))) (b := 6 * |o|)
    (by linarith)
    (by
      have : (2 : ℚ) ^ 52 = 8 * 2 ^ 49 := by norm_num
      linarith) hx4
  -- the scale factor and the product
  obtain ⟨sc, hsc⟩ := threeVector.set_defined
    (v := threeVector.splat 1) (i := d.dim) (c := 1)
    (by
      have hi := threeVector.get_valid hcur
      unfold threeVector.get threeVector.splat
      rcases hi with h | h | h <;> simp [h])
    (roundDouble (1 + roundDouble (roundDouble (v - o) / o)))
  have hscale : d.scaleFactorRounded roundDouble s = .ok sc := by
    unfold deltaLT.scaleFactorRounded
    simp only [hn, hv, hcur, bind, Except.bind, divide, if_neg ho]
    exact hsc
  refine ⟨sc, n, _, v, hscale, hn,
    threeVector.mulRounded_get hcur (threeVector.get_set_same hsc), hv, ?_⟩
  set d1 := roundDouble (v - o) with hd1def
  set q1 := roundDouble (d1 / o) with hq1def
  set f := roundDouble (1 + q1) with hfdef
  set p := roundDouble (o * f) with hpdef
  have hsum : p - v = (p - o * f) + o * (f - (1 + q1)) + o * (q1 - d1 / o) +
      (d1 - (v - o)) := by
    field_simp
    ring
  have t2 : |o * (f - (1 + q1))| ≤ |o| * (5 / 2 ^ 53) := by
    rw [abs_mul]
    exact mul_le_mul_of_nonneg_left he3 hA.le
  have t3 : |o * (q1 - d1 / o)| ≤ |o| * (3 / 2 ^ 53) := by
    rw [abs_mul]
    exact mul_le_mul_of_nonneg_left he2 hA.le
  rw [hsum]
  have tri : |(p - o * f) + o * (f - (1 + q1)) + o * (q1 - d1 / o) + (d1 - (v - o))| ≤
      |p - o * f| + |o * (f - (1 + q1))| + |o * (q1 - d1 / o)| + |d1 - (v - o)| := by
    refine (abs_add _ _).trans ?_
    refine add_le_add_right ?_ _
    refine (abs_add _ _).trans ?_
    refine add_le_add_right ?_ _
    exact abs_add _ _
  refine tri.trans ?_
  have e : |o| / 2 ^ 49 = 6 * |o| / 2 ^ 53 + |o| * (5 / 2 ^ 53) + |o| * (3 / 2 ^ 53) +
      2 * |o| / 2 ^ 53 := by ring
  rw [e]
  linarith

/-! ## Rate limit and scale factor in `double` arithmetic -/

/-- C15, amended: except for `deltaL < 0` with `oldSize[dim] == endL`, and when no
arithmetic result of the call is rounded (`rd` is the rounding of the scalar type: none
in exact arithmetic, `roundDouble` for `double`), one call of `newSize` changes axis
`dim` by at most `|deltaL|`, with equality whenever
`|oldSize[dim] - endL| > deltaL >= 0`. In `double` arithmetic, for a step `deltaL` that
is a normal positive `double` and with `deltaL`, `|oldSize[dim]|`, `|endL|` below
`2 ^ 51`, the change is at most `deltaL * (1 + 2 ^ -52) + |oldSize[dim]| * 2 ^ -53`. -/
theorem deltaLT.newSize_rate_limit :
    (∀ (rd : ℚ → ℚ) (d : deltaLT) (s : threeVector) (cur : ℚ), s.get d.dim = .ok cur →
      ¬ (d.deltaL < 0 ∧ cur = d.endL) → d.exactCall rd cur →
      ∃ n v, d.newSizeRounded rd s = .ok n ∧ n.get d.dim = .ok v ∧
        |v - cur| ≤ |d.deltaL| ∧
        (|cur - d.endL| > d.deltaL → d.deltaL ≥ 0 → |v - cur| = |d.deltaL|)) ∧
    (∀ (d : deltaLT) (s : threeVector) (cur : ℚ), s.get d.dim = .ok cur →
      (1 : ℚ) / 2 ^ 1022 ≤ d.deltaL → roundDouble d.deltaL = d.deltaL →
      d.deltaL < 2 ^ 51 → |cur| < 2 ^ 51 → |d.endL| < 2 ^ 51 →
      ∃ n v, d.newSizeRounded roundDouble s = .ok n ∧ n.get d.dim = .ok v ∧
        |v - cur| ≤ d.deltaL * (1 + 1 / 2 ^ 52) + |cur| / 2 ^ 53) := by
  constructor
  · intro rd d s cur hcur hdef hexact
    rw [deltaLT.newSizeRounded_of_exact hcur hexact]
    exact deltaLT.newSize_step_bound d s cur hcur hdef
  · intro d s cur hcur hmin hdouble hstep hsize hend
    exact deltaLT.newSizeRounded_double_bound d s cur hcur hmin hdouble hstep hsize hend

/-- C15, amended, in `double` arithmetic on the box `(25, 55, 100)` with `endL = 50`,
`dim = 2`: at `deltaL = 0.5` the call rounds nothing, and at `deltaL` the `double`
nearest to 0.01 the bound with the rounding error holds. -/
theorem deltaLT.newSize_rate_limit_witness :
    ((threeVector.mk 25 55 100).get 2 = .ok 100 ∧ ¬ ((1/2 : ℚ) < 0 ∧ (100 : ℚ) = 50) ∧
      (deltaLT.mk (1/2) 50 2 10).exactCall roundDouble 100 ∧
      ∃ n v, (deltaLT.mk (1/2) 50 2 10).newSizeRounded roundDouble ⟨25, 55, 100⟩ = .ok n ∧
        n.get 2 = .ok v ∧ |v - 100| ≤ |(1/2 : ℚ)| ∧
        (|(100 : ℚ) - 50| > 1/2 → (1/2 : ℚ) ≥ 0 → |v - 100| = |(1/2 : ℚ)|)) ∧
    ((1 : ℚ) / 2 ^ 1022 ≤ roundDouble (1/100) ∧
      roundDouble (roundDouble (1/100)) = roundDouble (1/100) ∧
      roundDouble (1/100) < 2 ^ 51 ∧ |(100 : ℚ)| < 2 ^ 51 ∧ |(50 : ℚ)| < 2 ^ 51 ∧
      ∃ n v, (deltaLT.mk (roundDouble (1/100)) 50 2 10).newSizeRounded roundDouble
          ⟨25, 55, 100⟩ = .ok n ∧ n.get 2 = .ok v ∧
        |v - 100| ≤ roundDouble (1/100) * (1 + 1 / 2 ^ 52) + |(100 : ℚ)| / 2 ^ 53) := by
  have hex : (deltaLT.mk (1/2) 50 2 10).exactCall roundDouble 100 := by
    unfold deltaLT.exactCall
    decide!
  have hmin : (1 : ℚ) / 2 ^ 1022 ≤ roundDouble (1/100) := by
    rw [roundDouble_hundredth]
    norm_num
  have hdouble : roundDouble (roundDouble (1/100)) = roundDouble (1/100) := by
    rw [roundDouble_hundredth]
    decide!
  have hstep : roundDouble (1/100) < 2 ^ 51 := by
    rw [roundDouble_hundredth]
    norm_num
  have hsize : |(100 : ℚ)| < 2 ^ 51 := by norm_num [abs_of_pos]
  have hend : |(50 : ℚ)| < 2 ^ 51 := by norm_num [abs_of_pos]
  exact ⟨⟨rfl, by norm_num, hex,
      deltaLT.newSize_rate_limit.1 roundDouble (deltaLT.mk (1/2) 50 2 10) ⟨25, 55, 100⟩ 100
        rfl (by norm_num) hex⟩,
    hmin, hdouble, hstep, hsize, hend,
    deltaLT.newSize_rate_limit.2 (deltaLT.mk (roundDouble (1/100)) 50 2 10) ⟨25, 55, 100⟩
      100 rfl hmin hdouble hstep hsize hend⟩

/-- C15 fails in two ways. With `deltaL = -2`, `endL = 3` and the size on axis 1 already
3, `newSize` divides zero by zero and no new size comes back. In `double` arithmetic
with `deltaL = 0.01`, `endL = 50` and the size 100 on axis 2, the new size is the
`double` nearest to 99.99, which lies farther than `deltaL` from 100. -/
theorem deltaLT.newSize_rate_limit_counterexample :
    ((threeVector.mk 7 3 7).get (deltaLT.mk (-2) 3 1 1).dim = .ok 3 ∧
      (deltaLT.mk (-2) 3 1 1).newSize ⟨7, 3, 7⟩ = .error .divByZero ∧
      (deltaLT.mk (-2) 3 1 1).newSizeRounded roundDouble ⟨7, 3, 7⟩ = .error .divByZero) ∧
    ((deltaLT.mk (roundDouble (1/100)) 50 2 10).newSizeRounded roundDouble ⟨25, 55, 100⟩ =
        .ok ⟨25, 55, 7036170730324623/70368744177664⟩ ∧
      ¬ (|(7036170730324623/70368744177664 : ℚ) - 100| ≤ |roundDouble (1/100)|) ∧
      ¬ (|(7036170730324623/70368744177664 : ℚ) - 100| = |roundDouble (1/100)|)) := by
  refine ⟨⟨rfl, deltaLT.newSize_fault (d := deltaLT.mk (-2) 3 1 1) (s := ⟨7, 3, 7⟩) rfl
    (by norm_num), ?_⟩, ok_of_toOption (by decide!), by decide!, by decide!⟩
  have hex : (deltaLT.mk (-2) 3 1 1).exactCall roundDouble 3 := by
    unfold deltaLT.exactCall
    decide!
  rw [deltaLT.newSizeRounded_of_exact (d := deltaLT.mk (-2) 3 1 1) (s := ⟨7, 3, 7⟩) rfl hex]
  exact deltaLT.newSize_fault (d := deltaLT.mk (-2) 3 1 1) (s := ⟨7, 3, 7⟩) rfl
    (by norm_num)

/-- C7, amended: for a box whose three sizes are numbers of the scalar type, with
`oldSize[dim] != 0`, when the arithmetic of `newSize`, of `scaleFactor` and of the
product on axis `dim` rounds no result (`rd` is the rounding of the scalar type: none in
exact arithmetic, `roundDouble` for `double`), multiplying `oldSize` component-wise by
`scaleFactor(oldSize)` gives exactly `newSize(oldSize)` on all three axes. In `double`
arithmetic, for a step `deltaL` that is a normal positive `double` with
`deltaL <= |oldSize[dim]| < 2 ^ 49` and `|endL| < 2 ^ 49`, the product on axis `dim`
differs from `newSize(oldSize)[dim]` by at most `|oldSize[dim]| * 2 ^ -49`, and on
another axis whose old size is a `double` the product and the new size are the old
size. -/
theorem deltaLT.scaleFactor_reproduces_newSize :
    (∀ (rd : ℚ → ℚ) (d : deltaLT) (s : threeVector) (cur : ℚ), s.get d.dim = .ok cur →
      cur ≠ 0 → (rd s.x = s.x ∧ rd s.y = s.y ∧ rd s.z = s.z) → d.exactCall rd cur →
      (∀ n v, d.newSizeRounded rd s = .ok n → n.get d.dim = .ok v → exactScale rd cur v) →
      (d.scaleFactorRounded rd s).map (fun sc => s.mulRounded rd sc) =
        d.newSizeRounded rd s) ∧
    (∀ (d : deltaLT) (s : threeVector) (cur : ℚ), s.get d.dim = .ok cur →
      (1 : ℚ) / 2 ^ 1022 ≤ d.deltaL → roundDouble d.deltaL = d.deltaL →
      d.deltaL ≤ |cur| → |cur| < 2 ^ 49 → |d.endL| < 2 ^ 49 →
      ∃ sc n p v, d.scaleFactorRounded roundDouble s = .ok sc ∧
        d.newSizeRounded roundDouble s = .ok n ∧
        (s.mulRounded roundDouble sc).get d.dim = .ok p ∧ n.get d.dim = .ok v ∧
        |p - v| ≤ |cur| / 2 ^ 49 ∧
        ∀ j a, j ≠ d.dim → s.get j = .ok a → roundDouble a = a →
          (s.mulRounded roundDouble sc).get j = .ok a ∧ n.get j = .ok a) := by
  constructor
  · intro rd d s cur hcur hne hsize hcall hscale
    have hdim := threeVector.get_valid hcur
    have hnewEq := deltaLT.newSizeRounded_of_exact hcur hcall
    rw [deltaLT.scaleFactorRounded_of_exact hcur hne hcall hscale, hnewEq]
    rw [hnewEq] at hscale
    rw [← deltaLT.scaleFactor_mul_exact d s cur hcur hne]
    unfold deltaLT.scaleFactor
    cases hn : d.newSize s with
    | error e => simp [bind, Except.bind, Except.map]
    | ok n =>
      cases hv : n.get d.dim with
      | error e => simp [hv, bind, Except.bind, Except.map]
      | ok v =>
        obtain ⟨-, -, -, h4⟩ := hscale n v hn hv
        obtain ⟨hx, hy, hz⟩ := hsize
        simp only [hv, hcur, bind, Except.bind, divide, if_neg hne]
        unfold threeVector.set
        unfold threeVector.get at hcur
        rcases hdim with h | h | h <;>
          simp [h, Except.map, threeVector.mul, threeVector.mulRounded,
            threeVector.splat] at hcur ⊢ <;>
          subst hcur <;> exact ⟨by assumption, by assumption, by assumption⟩
  · intro d s cur hcur hmin hdouble hstep hsize hend
    obtain ⟨sc, n, p, v, h1, h2, h3, h4, h5⟩ :=
      deltaLT.scaleFactorRounded_double_bound d s cur hcur hmin hdouble hstep hsize hend
    exact ⟨sc, n, p, v, h1, h2, h3, h4, h5, fun j a hj ha hrep =>
      deltaLT.scaleFactorRounded_other_axes h1 h2 j a hj ha hrep⟩

/-- C7, amended, in `double` arithmetic: at `deltaL = 2, endL = 0, dim = 0` and the box
`(8, 4, 2)` the scale factor is `(0.75, 1, 1)` and the product is the new size
`(6, 4, 2)`, nothing being rounded; at `deltaL = 3` and the box `(9, 1, 1)` the product
on axis 0 is within `9 * 2 ^ -49` of the new size. -/
theorem deltaLT.scaleFactor_reproduces_newSize_witness :
    ((threeVector.mk 8 4 2).get 0 = .ok 8 ∧ (8 : ℚ) ≠ 0 ∧
      (roundDouble 8 = 8 ∧ roundDouble 4 = 4 ∧ roundDouble 2 = 2) ∧
      (deltaLT.mk 2 0 0 1).exactCall roundDouble 8 ∧
      (∀ n v, (deltaLT.mk 2 0 0 1).newSizeRounded roundDouble ⟨8, 4, 2⟩ = .ok n →
        n.get 0 = .ok v → exactScale roundDouble 8 v) ∧
      ((deltaLT.mk 2 0 0 1).scaleFactorRounded roundDouble ⟨8, 4, 2⟩).map
          (fun sc => (threeVector.mk 8 4 2).mulRounded roundDouble sc) =
        (deltaLT.mk 2 0 0 1).newSizeRounded roundDouble ⟨8, 4, 2⟩) ∧
    ((threeVector.mk 9 1 1).get 0 = .ok 9 ∧ (1 : ℚ) / 2 ^ 1022 ≤ 3 ∧ roundDouble 3 = 3 ∧
      (3 : ℚ) ≤ |(9 : ℚ)| ∧ |(9 : ℚ)| < 2 ^ 49 ∧ |(0 : ℚ)| < 2 ^ 49 ∧
      ∃ sc n p v, (deltaLT.mk 3 0 0 1).scaleFactorRounded roundDouble ⟨9, 1, 1⟩ = .ok sc ∧
        (deltaLT.mk 3 0 0 1).newSizeRounded roundDouble ⟨9, 1, 1⟩ = .ok n ∧
        ((threeVector.mk 9 1 1).mulRounded roundDouble sc).get 0 = .ok p ∧
        n.get 0 = .ok v ∧ |p - v| ≤ |(9 : ℚ)| / 2 ^ 49 ∧
        ∀ j a, j ≠ 0 → (threeVector.mk 9 1 1).get j = .ok a → roundDouble a = a →
          ((threeVector.mk 9 1 1).mulRounded roundDouble sc).get j = .ok a ∧
            n.get j = .ok a) := by
  have hsize : roundDouble 8 = 8 ∧ roundDouble 4 = 4 ∧ roundDouble 2 = 2 := by decide!
  have hcall : (deltaLT.mk 2 0 0 1).exactCall roundDouble 8 := by
    unfold deltaLT.exactCall
    decide!
  have hnew : (deltaLT.mk 2 0 0 1).newSizeRounded roundDouble ⟨8, 4, 2⟩ = .ok ⟨6, 4, 2⟩ :=
    ok_of_toOption (by decide!)
  have hscale : ∀ n v, (deltaLT.mk 2 0 0 1).newSizeRounded roundDouble ⟨8, 4, 2⟩ = .ok n →
      n.get 0 = .ok v → exactScale roundDouble 8 v := by
    intro n v hn hv
    rw [hnew] at hn
    cases hn
    cases hv
    unfold exactScale
    decide!
  have hmin : (1 : ℚ) / 2 ^ 1022 ≤ 3 := by norm_num
  have hthree : roundDouble 3 = 3 := by decide!
  have hstep : (3 : ℚ) ≤ |(9 : ℚ)| := by norm_num [abs_of_pos]
  have hnine : |(9 : ℚ)| < 2 ^ 49 := by norm_num [abs_of_pos]
  have hzero : |(0 : ℚ)| < 2 ^ 49 := by norm_num
  exact ⟨⟨rfl, by norm_num, hsize, hcall, hscale,
      deltaLT.scaleFactor_reproduces_newSize.1 roundDouble (deltaLT.mk 2 0 0 1) ⟨8, 4, 2⟩ 8
        rfl (by norm_num) hsize hcall hscale⟩,
    rfl, hmin, hthree, hstep, hnine, hzero,
    deltaLT.scaleFactor_reproduces_newSize.2 (deltaLT.mk 3 0 0 1) ⟨9, 1, 1⟩ 9 rfl hmin
      hthree hstep hnine hzero⟩

/-- C7 fails in `double` arithmetic at `deltaL = 3, endL = 0, dim = 0` and the box
`(9, 1, 1)`: `newSize` gives 6 on axis 0, `scaleFactor` gives the `double` nearest to
`2/3`, and 9 times that factor rounds to the `double` next above 6. -/
theorem deltaLT.scaleFactor_reproduces_newSize_counterexample :
    (threeVector.mk 9 1 1).get (deltaLT.mk 3 0 0 1).dim = .ok 9 ∧ (9 : ℚ) ≠ 0 ∧
    (deltaLT.mk 3 0 0 1).newSizeRounded roundDouble ⟨9, 1, 1⟩ = .ok ⟨6, 1, 1⟩ ∧
    (deltaLT.mk 3 0 0 1).scaleFactorRounded roundDouble ⟨9, 1, 1⟩ =
      .ok ⟨3002399751580331/4503599627370496, 1, 1⟩ ∧
    (threeVector.mk 9 1 1).mulRounded roundDouble
        ⟨3002399751580331/4503599627370496, 1, 1⟩ =
      ⟨6755399441055745/1125899906842624, 1, 1⟩ ∧
    (6755399441055745/1125899906842624 : ℚ) ≠ 6 ∧
    ((deltaLT.mk 3 0 0 1).scaleFactorRounded roundDouble ⟨9, 1, 1⟩).map
        (fun sc => (threeVector.mk 9 1 1).mulRounded roundDouble sc) ≠
      (deltaLT.mk 3 0 0 1).newSizeRounded roundDouble ⟨9, 1, 1⟩ := by
  have hnew : (deltaLT.mk 3 0 0 1).newSizeRounded roundDouble ⟨9, 1, 1⟩ = .ok ⟨6, 1, 1⟩ :=
    ok_of_toOption (by decide!)
  have hsc : (deltaLT.mk 3 0 0 1).scaleFactorRounded roundDouble ⟨9, 1, 1⟩ =
      .ok ⟨3002399751580331/4503599627370496, 1, 1⟩ := ok_of_toOption (by decide!)
  have hmul : (threeVector.mk 9 1 1).mulRounded roundDouble
      ⟨3002399751580331/4503599627370496, 1, 1⟩ =
      ⟨6755399441055745/1125899906842624, 1, 1⟩ := by decide!
  refine ⟨rfl, by norm_num, hnew, hsc, hmul, by norm_num, ?_⟩
  rw [hsc, hnew]
  simp only [Except.map, hmul]
  intro h
  injection h with h
  injection h with h1
  norm_num at h1

end mpd
